import Mathlib

/-!
# Sentiment-analysis front end: metrics, filters and request handlers

A shallow embedding of the logic embedded in the React components under
`frontend/src` (pages `Dashboard`, `Reviews`, `Analysis`; components `Filters`,
`StarRating`), followed by theorems about it.

JavaScript numbers are IEEE 754 binary64 values.  They are embedded exactly:
a finite number is the rational `num / den`, and every arithmetic operation
rounds its exact result to the nearest binary64 value, ties to even.  Only
natural-number and integer arithmetic is used, so every definition evaluates.
-/

namespace JS

/-! ## Numbers -/

/-- A JavaScript Number.  `fin num den` is the finite value `num / den`
(`den` positive).  The sign of zero is not tracked: in the code embedded here a
zero divisor only ever comes from a parsed integer, which is `+0`. -/
inductive Number where
  | nan
  | inf (neg : Bool)
  | fin (num : Int) (den : Nat)
deriving DecidableEq

/-- Position of the leading binary digit of `n`, by halving at most `fuel` times. -/
def log2Fuel : Nat → Nat → Nat
  | 0, _ => 0
  | fuel + 1, n => if n < 2 then 0 else log2Fuel fuel (n / 2) + 1

/-- Floor of the binary logarithm of a positive natural number. -/
def log2 (n : Nat) : Nat := log2Fuel n n

/-- Floor of the binary logarithm of the positive rational `n / d`. -/
def floorLog2 (n d : Nat) : Int :=
  let l : Int := (log2 n : Int) - (log2 d : Int)
  if d * 2 ^ l.toNat ≤ n * 2 ^ (-l).toNat then l else l - 1

/-- The integer nearest to `n / d`, ties going to the even neighbour. -/
def roundEven (n d : Nat) : Nat :=
  let q := n / d
  let r := n % d
  if 2 * r < d then q else if d < 2 * r then q + 1 else q + q % 2

/-- Rounds the positive rational `n / d`, with the given sign, to binary64:
53 significant bits, unit in the last place no smaller than `2 ^ (-1074)`,
overflow to infinity at `2 ^ 1024`. -/
def roundRat (neg : Bool) (n d : Nat) : Number :=
  let e0 := floorLog2 n d
  if 1024 ≤ e0 then Number.inf neg
  else
    let e : Int := max e0 (-1022) - 52
    let m := roundEven (n * 2 ^ (-e).toNat) (d * 2 ^ e.toNat)
    if 971 ≤ e ∧ 2 ^ 53 ≤ m then Number.inf neg
    else Number.fin ((if neg then -1 else 1) * ((m * 2 ^ e.toNat : Nat) : Int)) (2 ^ (-e).toNat)

/-- The binary64 value nearest to the rational `num / den`. -/
def round (num : Int) (den : Nat) : Number :=
  if num = 0 then Number.fin 0 1 else roundRat (decide (num < 0)) num.natAbs den

/-- The Number denoted by an integer literal of a JSON document. -/
def ofInt (i : Int) : Number := round i 1

/-- Whether a finite number `num / den` is negative. -/
def isNeg (num : Int) : Bool := decide (num < 0)

/-- Binary operator `*`. -/
def mul : Number → Number → Number
  | Number.nan, _ => Number.nan
  | _, Number.nan => Number.nan
  | Number.inf a, Number.inf b => Number.inf (xor a b)
  | Number.inf a, Number.fin n _ => if n = 0 then Number.nan else Number.inf (xor a (isNeg n))
  | Number.fin n _, Number.inf b => if n = 0 then Number.nan else Number.inf (xor (isNeg n) b)
  | Number.fin n1 d1, Number.fin n2 d2 => round (n1 * n2) (d1 * d2)

/-- Binary operator `/`. -/
def div : Number → Number → Number
  | Number.nan, _ => Number.nan
  | _, Number.nan => Number.nan
  | Number.inf _, Number.inf _ => Number.nan
  | Number.inf a, Number.fin n _ => Number.inf (xor a (isNeg n))
  | Number.fin _ _, Number.inf _ => Number.fin 0 1
  | Number.fin n1 d1, Number.fin n2 d2 =>
    if n2 = 0 then
      if n1 = 0 then Number.nan else Number.inf (isNeg n1)
    else round (n1 * (d2 : Int) * (if n2 < 0 then -1 else 1)) (d1 * n2.natAbs)

/-- Binary operator `+` on numbers. -/
def add : Number → Number → Number
  | Number.nan, _ => Number.nan
  | _, Number.nan => Number.nan
  | Number.inf a, Number.inf b => if a = b then Number.inf a else Number.nan
  | Number.inf a, Number.fin _ _ => Number.inf a
  | Number.fin _ _, Number.inf b => Number.inf b
  | Number.fin n1 d1, Number.fin n2 d2 => round (n1 * (d2 : Int) + n2 * (d1 : Int)) (d1 * d2)

/-- ToBoolean on numbers: `NaN` and zero are falsy. -/
def truthy : Number → Bool
  | Number.nan => false
  | Number.inf _ => true
  | Number.fin n _ => decide (n ≠ 0)

/-- The expression `x || 0` for a number `x`. -/
def orZero (x : Number) : Number := if truthy x then x else Number.fin 0 1

/-- The function `Math.round`: the integer nearest to `x`, ties towards `+∞`,
that is `floor (x + 1/2)`; `NaN` and the infinities are returned unchanged. -/
def mathRound : Number → Number
  | Number.nan => Number.nan
  | Number.inf a => Number.inf a
  | Number.fin n d => Number.fin ((2 * n + (d : Int)) / (2 * (d : Int))) 1

/-- The string returned by `Number.prototype.toFixed(1)`. -/
inductive NumText where
  /-- The text `NaN`. -/
  | nan
  /-- The text `Infinity`, or `-Infinity` when `neg`. -/
  | infinity (neg : Bool)
  /-- A decimal numeral with one fractional digit: `tenths / 10`, after a minus
  sign when `neg`. -/
  | fixed (neg : Bool) (tenths : Nat)
  /-- The text of the general number-to-string conversion, which `toFixed` uses
  for a magnitude of at least `10 ^ 21`; its digits are not modelled. -/
  | general (num : Int) (den : Nat)
deriving DecidableEq

/-- The method `toFixed(1)`.  For a finite `x` of magnitude below `10 ^ 21` the
digits are those of the integer `n` for which `n / 10 - |x|` is closest to
zero, the larger `n` when there are two. -/
def toFixed1 : Number → NumText
  | Number.nan => NumText.nan
  | Number.inf a => NumText.infinity a
  | Number.fin n d =>
    if 10 ^ 21 * d ≤ n.natAbs then NumText.general n d
    else NumText.fixed (isNeg n) ((20 * n.natAbs + d) / (2 * d))

/-- The characters of a `NumText`, where they are modelled. -/
def NumText.render : NumText → Option String
  | NumText.nan => some "NaN"
  | NumText.infinity neg => some (if neg then "-Infinity" else "Infinity")
  | NumText.fixed neg t =>
    some ((if neg then "-" else "") ++ toString (t / 10) ++ "." ++ toString (t % 10))
  | NumText.general _ _ => none

/-- ToBoolean on strings is false for the empty string only; no text of a
number is empty. -/
def NumText.truthy (_ : NumText) : Bool := true

/-- A value that is a number or the text of a number. -/
inductive Value where
  | number (x : Number)
  | text (t : NumText)
deriving DecidableEq

/-- The expression `s || 0` for the string `s` returned by `toFixed`. -/
def textOrZero (t : NumText) : Value :=
  if t.truthy then Value.text t else Value.number (Number.fin 0 1)

/-- The rational value of a finite number (zero for `NaN` and the infinities). -/
def Number.value : Number → ℚ
  | Number.fin a b => (a : ℚ) / b
  | _ => 0

/-- The number is finite, with a positive denominator. -/
def Number.IsFinite : Number → Prop
  | Number.fin _ b => 0 < b
  | _ => False

end JS

/-! ## Integers as text -/

namespace JS

/-- The choice of digits in Number::toString.  For the Number `x` the operation
takes integers `n`, `k`, `s` with `10 ^ (k - 1) ≤ s < 10 ^ k` such that
`s * 10 ^ (n - k)` is read as `x` and `k` is as small as possible; of several such
`s` it takes the one for which `s * 10 ^ (n - k)` is closest to `x`, and of two
equally close ones the even one.  The search returns the number `s * 10 ^ (n - k)`,
for an integer `x` with `d` decimal digits, trying `k`, `k + 1`, ... digits: the
numbers with `k` digits nearest to `x` are the multiples of `10 ^ (d - k)` just
below and just above `x`.  With `k = d` the multiple below is `x` itself, where the
search ends at the latest. -/
def shortestFuel (x d : Nat) : Nat → Nat → Nat
  | 0, _ => x
  | fuel + 1, k =>
    let unit := 10 ^ (d - k)
    let below := x / unit * unit
    let above := below + unit
    let belowOk := decide (ofInt below = ofInt x)
    let aboveOk := decide (ofInt above = ofInt x)
    if belowOk && aboveOk then
      if x - below < above - x then below
      else if above - x < x - below then above
      else if x / unit % 2 = 0 then below else above
    else if belowOk then below
    else if aboveOk then above
    else shortestFuel x d fuel (k + 1)

/-- The number `s * 10 ^ (n - k)` that Number::toString takes for the Number with
the integer value `x`. -/
def shortest (x : Nat) : Nat :=
  shortestFuel x (Nat.toDigits 10 x).length (Nat.toDigits 10 x).length 1

/-- The text of Number::toString in exponent form, used when `n` exceeds 21, for
the number `c = s * 10 ^ (n - k)`, which has `n` decimal digits, those of `s`
followed by zeros: the first digit of `s`, then a dot and the other digits of `s`
when there are any, then `e+` and the decimal digits of `n - 1`. -/
def exponentText (c : Nat) : String :=
  let digits := Nat.toDigits 10 c
  let mantissa :=
    match digits.rdropWhile (fun ch => ch == '0') with
    | [] => []
    | first :: others => first :: (if others.isEmpty then [] else '.' :: others)
  String.mk (mantissa ++ 'e' :: '+' :: Nat.toDigits 10 (digits.length - 1))

/-- The text of Number::toString for the number `c = s * 10 ^ (n - k)` with
`k ≤ n`: for `n ≤ 21`, that is `c < 10 ^ 21`, the digits of `s` followed by `n - k`
zeros, which are the decimal digits of `c`; otherwise the exponent form. -/
def decimalText (c : Nat) : String :=
  if c < 10 ^ 21 then Nat.repr c else exponentText c

/-- The operation Number::toString (radix 10) on the Number that holds the integer
`i`.  A finite Number read from an integer has an integer value, `num / den`. -/
def integerToString (i : Int) : String :=
  match ofInt i with
  | Number.nan => "NaN"
  | Number.inf neg => if neg then "-Infinity" else "Infinity"
  | Number.fin num den =>
    (if num < 0 then "-" else "") ++ decimalText (shortest (num.natAbs / den))

end JS

/-! ## Dashboard -/

namespace Dashboard

open JS

/-- The field `sentiment_distribution` of the `/api/stats` payload; a count
that is absent is `none`. -/
structure SentimentDistribution where
  positive : Option Int
  negative : Option Int
  neutral : Option Int
deriving DecidableEq

/-- The payload of `/api/stats`. -/
structure StatsData where
  total_reviews : Option Int
  sentiment_distribution : Option SentimentDistribution
deriving DecidableEq

/-- The component state `metrics`; `totalReviews` is `none` when it holds
`undefined`. -/
structure Metrics where
  totalReviews : Option Number
  positivePercentage : Number
  negativePercentage : Number
  averageRating : Value
deriving DecidableEq

/-- The initial value given to `useState`. -/
def initialMetrics : Metrics :=
  { totalReviews := some (Number.fin 0 1)
    positivePercentage := Number.fin 0 1
    negativePercentage := Number.fin 0 1
    averageRating := Value.number (Number.fin 0 1) }

/-- The expression `sentiment_distribution[label] || 0`. -/
def count (c : Option Int) : Number :=
  match c with
  | none => Number.fin 0 1
  | some i => orZero (ofInt i)

/-- The number used for `total_reviews` in arithmetic (`undefined` becomes `NaN`). -/
def total (t : Option Int) : Number :=
  match t with
  | none => Number.nan
  | some i => ofInt i

/-- The expression `Math.round((c / total_reviews) * 100) || 0`. -/
def percentage (c t : Number) : Number :=
  orZero (mathRound (mul (div c t) (ofInt 100)))

/-- The expression
`((positive * 5 + neutral * 3 + negative * 1) / total_reviews).toFixed(1) || 0`. -/
def averageRating (positive neutral negative t : Number) : Value :=
  textOrZero (toFixed1
    (div (add (add (mul positive (ofInt 5)) (mul neutral (ofInt 3))) (mul negative (ofInt 1))) t))

/-- The body of the `try` block of `fetchStats` after the response arrived:
`none` when destructuring the payload throws.  The state receives `total_reviews`
as the payload holds it: the Number that the integer of the document denotes, or
`undefined`. -/
def computeMetrics (data : StatsData) : Option Metrics :=
  match data.sentiment_distribution with
  | none => none
  | some dist =>
    let positive := count dist.positive
    let negative := count dist.negative
    let neutral := count dist.neutral
    let t := total data.total_reviews
    some
      { totalReviews := data.total_reviews.map ofInt
        positivePercentage := percentage positive t
        negativePercentage := percentage negative t
        averageRating := averageRating positive neutral negative t }

/-- The function `fetchStats`: the metrics after the call, given the metrics
before it and the outcome of `axios.get` (`none` when the request fails).  A
failure of any kind is logged and leaves the metrics as they were. -/
def fetchStats (metrics : Metrics) (response : Option StatsData) : Metrics :=
  match response with
  | none => metrics
  | some data =>
    match computeMetrics data with
    | none => metrics
    | some m => m

/-- A payload with the four counts given. -/
def statsOf (positive neutral negative totalReviews : Int) : StatsData :=
  { total_reviews := some totalReviews
    sentiment_distribution :=
      some { positive := some positive, negative := some negative, neutral := some neutral } }

end Dashboard

/-! ## Reviews page -/

namespace Reviews

/-- The component state `filters`; `rating` is the array `[min, max]`. -/
structure FilterState where
  search : String
  sentiments : List String
  rating : Int × Int
  languages : List String
deriving DecidableEq

/-- The initial value given to `useState`. -/
def initialFilters : FilterState :=
  { search := "", sentiments := [], rating := (1, 5), languages := [] }

/-- The method `Array.prototype.join(',')` on an array of strings. -/
def join : List String → String
  | [] => ""
  | [a] => a
  | a :: b :: rest => a ++ "," ++ join (b :: rest)

/-- The entries of a `URLSearchParams` object, in insertion order. -/
abbrev QueryParams := List (String × String)

/-- The method `URLSearchParams.append`. -/
def QueryParams.append (q : QueryParams) (name value : String) : QueryParams :=
  q ++ [(name, value)]

/-- The query parameters built at the start of `fetchReviews`.  The test
`if (filters.rating)` is on an array, which is always truthy, so both rating
bounds are always appended; `append` converts a Number to text with
Number::toString. -/
def queryParams (filters : FilterState) : QueryParams :=
  let q0 : QueryParams := []
  let q1 := if filters.sentiments.length > 0
    then q0.append "sentiments" (join filters.sentiments) else q0
  let q2 := (q1.append "rating_min" (JS.integerToString filters.rating.1)).append
    "rating_max" (JS.integerToString filters.rating.2)
  let q3 := if filters.languages.length > 0
    then q2.append "languages" (join filters.languages) else q2
  if filters.search ≠ "" then q3.append "search" filters.search else q3

/-- A call `handleFilterChange(key, value)`: the key together with a value of
the type stored under that key. -/
inductive FilterChange where
  | search (value : String)
  | sentiments (value : List String)
  | rating (value : Int × Int)
  | languages (value : List String)
deriving DecidableEq

/-- The state update of `handleFilterChange`: `({ ...prev, [key]: value })`. -/
def handleFilterChange (prev : FilterState) (change : FilterChange) : FilterState :=
  match change with
  | FilterChange.search v => { prev with search := v }
  | FilterChange.sentiments v => { prev with sentiments := v }
  | FilterChange.rating v => { prev with rating := v }
  | FilterChange.languages v => { prev with languages := v }

/-- The list computed by the toggle buttons:
`xs.includes(x) ? xs.filter(s => s !== x) : [...xs, x]`. -/
def toggle (xs : List String) (x : String) : List String :=
  if xs.contains x then xs.filter (fun s => s != x) else xs ++ [x]

/-- The `onClick` handler of a sentiment button. -/
def sentimentClick (filters : FilterState) (sentiment : String) : FilterState :=
  handleFilterChange filters (FilterChange.sentiments (toggle filters.sentiments sentiment))

/-- The `onClick` handler of a language button. -/
def languageClick (filters : FilterState) (language : String) : FilterState :=
  handleFilterChange filters (FilterChange.languages (toggle filters.languages language))

/-- The state after a sequence of `handleFilterChange` calls. -/
def applyChanges (start : FilterState) (changes : List FilterChange) : FilterState :=
  changes.foldl handleFilterChange start

end Reviews

/-! ## Filters component -/

namespace Filters

/-- The four state variables of the component. -/
structure State where
  search : String
  selectedSentiments : List String
  rating : Int × Int
  selectedLanguages : List String
deriving DecidableEq

/-- The initial values given to `useState`. -/
def initialState : State :=
  { search := "", selectedSentiments := [], rating := (1, 5), selectedLanguages := [] }

/-- The handler `handleSentimentClick`. -/
def handleSentimentClick (st : State) (sentiment : String) : State :=
  { st with selectedSentiments := Reviews.toggle st.selectedSentiments sentiment }

/-- The handler `handleLanguageClick`. -/
def handleLanguageClick (st : State) (language : String) : State :=
  { st with selectedLanguages := Reviews.toggle st.selectedLanguages language }

/-- The handler `handleSearchChange`, applied to `e.target.value`. -/
def handleSearchChange (st : State) (value : String) : State :=
  { st with search := value }

/-- The handler `handleRatingChange`: `setRating(newValue)`. -/
def handleRatingChange (st : State) (newValue : Int × Int) : State :=
  { st with rating := newValue }

/-- The state after a sequence of `handleRatingChange` calls. -/
def applyRatings (start : State) (values : List (Int × Int)) : State :=
  values.foldl handleRatingChange start

end Filters

/-- The rating bounds `[min, max]` satisfy `1 ≤ min ≤ max ≤ 5`. -/
def ValidRating (r : Int × Int) : Prop := 1 ≤ r.1 ∧ r.1 ≤ r.2 ∧ r.2 ≤ 5

instance (r : Int × Int) : Decidable (ValidRating r) := by
  unfold ValidRating; infer_instance

/-! ## Analysis page -/

namespace Analysis

/-- Code points removed by `String.prototype.trim`: the white space and line
terminator characters of ECMAScript. -/
def isWhiteSpace (c : Char) : Bool :=
  let n := c.toNat
  n = 0x09 || n = 0x0A || n = 0x0B || n = 0x0C || n = 0x0D || n = 0x20 || n = 0xA0
    || n = 0x1680 || (0x2000 ≤ n && n ≤ 0x200A) || n = 0x2028 || n = 0x2029
    || n = 0x202F || n = 0x205F || n = 0x3000 || n = 0xFEFF

/-- The method `String.prototype.trim`. -/
def trim (s : String) : String :=
  String.mk ((s.data.dropWhile isWhiteSpace).reverse.dropWhile isWhiteSpace).reverse

/-- The field `data` of a successful `/api/analyze` payload; the nested
objects are kept as uninterpreted text. -/
structure AnalysisData where
  id : Int
  sentiment : String
  sarcasm : String
  stats : String
deriving DecidableEq

/-- The payload of `/api/analyze`. -/
structure Payload where
  success : Bool
  error : Option String
  details : Option String
  data : Option AnalysisData
deriving DecidableEq

/-- The outcome of `axios.post`: the promise resolves with a payload, or is
rejected with an error object of which `response?.data?.details`,
`response?.data?.error` and `message` are read. -/
inductive Reply where
  | resolved (payload : Payload)
  | rejected (details : Option String) (error : Option String) (message : String)
deriving DecidableEq

/-- The body of a request to `/api/analyze`. -/
structure Request where
  text : String
  language : String
deriving DecidableEq

/-- The value of the state variable `result`. -/
structure Result where
  sentiment : String
  sarcasm : String
  stats : String
deriving DecidableEq

/-- The state variables of the page. -/
structure State where
  text : String
  language : String
  loading : Bool
  result : Option Result
  error : Option String
  reviewId : Option Int
deriving DecidableEq

/-- The initial values given to `useState`. -/
def initialState : State :=
  { text := "", language := "en", loading := false, result := none, error := none,
    reviewId := none }

/-- The expression `a || b` where `a` may be undefined and `b` is a string:
an absent or empty `a` is falsy. -/
def orElse (a : Option String) (b : String) : String :=
  match a with
  | some s => if s ≠ "" then s else b
  | none => b

/-- The message of the `TypeError` thrown when `data` is undefined and is
destructured (the text is the one of V8). -/
def destructureMessage : String :=
  "Cannot destructure property 'id' of 'data' as it is undefined."

/-- The function `analyzeSentiment`: the state after the call and the requests
sent to `/api/analyze`, given the state before it and the behaviour of the
network. -/
def analyzeSentiment (st : State) (post : Request → Reply) : State × List Request :=
  if trim st.text = "" then
    ({ st with error := some "Please enter some text to analyze" }, [])
  else
    let request : Request := { text := st.text, language := st.language }
    let st1 := { st with loading := true, error := none }
    let st2 :=
      match post request with
      | Reply.resolved payload =>
        if !payload.success then
          let message := orElse payload.details (orElse payload.error "Analysis failed")
          { st1 with error := some (orElse (some message) "An error occurred during analysis") }
        else
          match payload.data with
          | none =>
            { st1 with
              error := some (orElse (some destructureMessage)
                "An error occurred during analysis") }
          | some d =>
            { st1 with
              reviewId := some d.id
              result := some { sentiment := d.sentiment, sarcasm := d.sarcasm, stats := d.stats } }
      | Reply.rejected details error message =>
        { st1 with
          error := some (orElse details (orElse error
            (orElse (some message) "An error occurred during analysis"))) }
    ({ st2 with loading := false }, [request])

end Analysis

/-! ## StarRating component -/

namespace StarRating

/-- The body of a request to `/api/rate`; `rating` is `none` for `null`. -/
structure Request where
  reviewId : Option Int
  rating : Option Int
deriving DecidableEq

/-- What a call of `handleRatingChange` does: the new value of the state
variable `rating`, the requests sent to `/api/rate`, and the arguments with
which `onRatingChange` was called. -/
structure Outcome where
  rating : Option Int
  requests : List Request
  notified : List (Option Int)
deriving DecidableEq

/-- The handler `handleRatingChange(event, newValue)` of a component with the
given `reviewId`, whose prop `onRatingChange` is present when `hasCallback`.
The network answers a request with `none` when `axios.post` rejects and with
`some success` otherwise. -/
def handleRatingChange (reviewId : Option Int) (hasCallback : Bool)
    (post : Request → Option Bool) (newValue : Option Int) : Outcome :=
  let request : Request := { reviewId := reviewId, rating := newValue }
  let notified :=
    match post request with
    | some true => if hasCallback then [newValue] else []
    | some false => []
    | none => []
  { rating := newValue, requests := [request], notified := notified }

end StarRating

/-! ## Reviews page: fetching -/

namespace Reviews

open JS

/-- A value read from the parsed JSON payload.  `undefined` stands for a property
that is absent; an array or object is kept as the string that conversion to a
primitive gives for it. -/
inductive Json where
  | undefined
  | null
  | bool (b : Bool)
  | number (x : Number)
  | string (s : String)
  | compound (text : String)
deriving DecidableEq

/-- ToBoolean on a payload value. -/
def Json.truthy : Json → Bool
  | Json.undefined => false
  | Json.null => false
  | Json.bool b => b
  | Json.number x => JS.truthy x
  | Json.string s => decide (s ≠ "")
  | Json.compound _ => true

/-- The function `Number(value)`; the conversion of a string to a number is the
parameter `stringToNumber`. -/
def Json.toNumber (stringToNumber : String → Number) : Json → Number
  | Json.undefined => Number.nan
  | Json.null => Number.fin 0 1
  | Json.bool b => if b then Number.fin 1 1 else Number.fin 0 1
  | Json.number x => x
  | Json.string s => stringToNumber s
  | Json.compound text => stringToNumber text

/-- An element of the array `reviews` other than `null`: the four properties that
`fetchReviews` reads from it (`undefined` where it has none, as for an element that
is not an object), and the other properties that spreading it copies. -/
structure RawReview where
  id : Json
  star_rating : Json
  helpful_count : Json
  created_at : Json
  rest : List (String × Json)
deriving DecidableEq

/-- A review object of the state `reviews`. -/
structure Review where
  id : Json
  star_rating : Number
  helpful_count : Number
  created_at : Json
  rest : List (String × Json)
deriving DecidableEq

/-- The callback given to `data.reviews.map`; `now` is `new Date().toISOString()`. -/
def normalizeReview (stringToNumber : String → Number) (now : String) (review : RawReview) :
    Review :=
  { id := review.id
    star_rating := orZero (review.star_rating.toNumber stringToNumber)
    helpful_count := orZero (review.helpful_count.toNumber stringToNumber)
    created_at := if review.created_at.truthy then review.created_at else Json.string now
    rest := review.rest }

/-- The expression `data.reviews.map(review => ...)` on the elements of the array,
where `none` is a `null` element.  Reading `review.star_rating` from `null` throws,
so the whole expression throws at the first such element: the result is then `none`. -/
def mapReviews (stringToNumber : String → Number) (now : String) :
    List (Option RawReview) → Option (List Review)
  | [] => some []
  | none :: _ => none
  | some review :: rest =>
    match mapReviews stringToNumber now rest with
    | none => none
    | some mapped => some (normalizeReview stringToNumber now review :: mapped)

/-- The payload of `/api/reviews`; `reviews` is `none` when the property is not an
array, and an element of the array is `none` when it is `null`. -/
structure ReviewsData where
  success : Bool
  reviews : Option (List (Option RawReview))
  error : Option String
deriving DecidableEq

/-- How the awaited part of `fetchReviews` ends: `fetch` or `response.json()`
rejects, the response has `ok` false, or a payload is read. -/
inductive FetchResult where
  | rejected
  | notOk (status : Nat)
  | json (data : ReviewsData)
deriving DecidableEq

/-- The state variables `reviews`, `loading` and `error`. -/
structure PageState where
  reviews : List Review
  loading : Bool
  error : Option String
deriving DecidableEq

/-- The initial values given to `useState`. -/
def initialPage : PageState := { reviews := [], loading := true, error := none }

/-- The part of `fetchReviews` that runs before the request is awaited. -/
def fetchStart (st : PageState) : PageState :=
  { st with loading := true, error := none }

/-- The part of `fetchReviews` that runs once the awaited request has ended.  Every
exception ends in the `catch` block, also the one that `map` throws at a `null`
element, before `setReviews` is called. -/
def fetchSettle (stringToNumber : String → Number) (now : String) (st : PageState)
    (result : FetchResult) : PageState :=
  let failure : PageState :=
    { st with
      error := some "Unable to load reviews. Please try again later."
      reviews := []
      loading := false }
  match result with
  | FetchResult.json data =>
    match data.success, data.reviews with
    | true, some reviews =>
      match mapReviews stringToNumber now reviews with
      | some mapped => { st with reviews := mapped, loading := false }
      | none => failure
    | _, _ => failure
  | FetchResult.notOk _ => failure
  | FetchResult.rejected => failure

/-- One call of `fetchReviews` run to its end with nothing in between. -/
def fetchReviews (stringToNumber : String → Number) (now : String) (st : PageState)
    (result : FetchResult) : PageState :=
  fetchSettle stringToNumber now (fetchStart st) result

/-- What happens to the page while requests are in flight: a call of
`fetchReviews` is issued, or the request of an earlier call ends. -/
inductive FetchEvent where
  | issued
  | settled (now : String) (result : FetchResult)
deriving DecidableEq

/-- The effect of one event on the page state. -/
def fetchStep (stringToNumber : String → Number) (st : PageState) : FetchEvent → PageState
  | FetchEvent.issued => fetchStart st
  | FetchEvent.settled now result => fetchSettle stringToNumber now st result

/-- The page state after a sequence of events. -/
def fetchRun (stringToNumber : String → Number) (st : PageState) (events : List FetchEvent) :
    PageState :=
  events.foldl (fetchStep stringToNumber) st

/-- The review list that a result puts on the page. -/
def visibleOf (stringToNumber : String → Number) (now : String) (result : FetchResult) :
    List Review :=
  (fetchSettle stringToNumber now initialPage result).reviews

/-- A review object with the given id and `star_rating` and no other property. -/
def reviewOf (id : Int) (star_rating : Json) : RawReview :=
  { id := Json.number (Number.fin id 1)
    star_rating := star_rating
    helpful_count := Json.undefined
    created_at := Json.undefined
    rest := [] }

/-- The result of a request answered with `success` true and the given array. -/
def responseOf (elements : List (Option RawReview)) : FetchResult :=
  FetchResult.json { success := true, reviews := some elements, error := none }

/-- The result of a request answered with `success` true and the given reviews,
none of them `null`. -/
def successOf (reviews : List RawReview) : FetchResult :=
  responseOf (reviews.map some)

/-- A click on a sentiment or language button. -/
inductive Click where
  | sentiment (label : String)
  | language (name : String)
deriving DecidableEq

/-- The `onClick` handler of the button clicked. -/
def click (filters : FilterState) : Click → FilterState
  | Click.sentiment label => sentimentClick filters label
  | Click.language name => languageClick filters name

end Reviews

/-- The number is an integer from 1 to 5. -/
def IsStarRating (x : JS.Number) : Prop :=
  ∃ k : Int, 1 ≤ k ∧ k ≤ 5 ∧ x.IsFinite ∧ x.value = k

/-! ## Filters component: notification -/

namespace Filters

/-- The object that the component passes to `onFilterChange`. -/
def criteria (st : State) : Reviews.FilterState :=
  { search := st.search
    sentiments := st.selectedSentiments
    rating := st.rating
    languages := st.selectedLanguages }

/-- A user action on the component. -/
inductive Event where
  | sentimentClick (sentiment : String)
  | languageClick (language : String)
  | searchChange (value : String)
  | ratingChange (newValue : Int × Int)
deriving DecidableEq

/-- The handler that an action runs. -/
def handle (st : State) : Event → State
  | Event.sentimentClick sentiment => handleSentimentClick st sentiment
  | Event.languageClick language => handleLanguageClick st language
  | Event.searchChange value => handleSearchChange st value
  | Event.ratingChange newValue => handleRatingChange st newValue

/-- A mounted component: its state and the arguments of the calls of
`onFilterChange` made so far, oldest first. -/
structure Mounted where
  state : State
  notified : List Reviews.FilterState
deriving DecidableEq

/-- The first render.  The call of `onFilterChange` is inside the function given
to `useState` as initial state; React calls that function during the first render. -/
def mount : Mounted :=
  { state := initialState, notified := [criteria initialState] }

/-- An action followed by the render it causes.  On a render after the first,
`useState` returns the stored state: its initialiser is not called, and its second
argument, the array of the four state variables, is ignored. -/
def Mounted.dispatch (c : Mounted) (e : Event) : Mounted :=
  { c with state := handle c.state e }

/-- The component after a sequence of actions. -/
def Mounted.run (c : Mounted) (events : List Event) : Mounted :=
  events.foldl Mounted.dispatch c

end Filters

/-! ## Auxiliary definitions -/

/-- The number denoted by a list of decimal digit characters. -/
def decimalValue : List Char → Nat
  | [] => 0
  | c :: cs => (c.toNat - 48) * 10 ^ cs.length + decimalValue cs

/-- The exponent of the unit in the last place of the binary64 value of a positive
natural number. -/
def JS.natExp (n : Nat) : Int := (JS.log2 n : Int) - 52

/-- The 53-bit significand of the binary64 value of a positive natural number. -/
def JS.natMant (n : Nat) : Nat :=
  JS.roundEven (n * 2 ^ (-JS.natExp n).toNat) (2 ^ (JS.natExp n).toNat)

/-- The number `x` is finite and its value lies between `a * v` and `b * v`. -/
def JS.Near (x : JS.Number) (v a b : ℚ) : Prop :=
  x.IsFinite ∧ a * v ≤ x.value ∧ x.value ≤ b * v

/-- The value that `URLSearchParams.get` returns for a name: the value of
the first entry with that name. -/
def Reviews.QueryParams.get (q : Reviews.QueryParams) (name : String) : Option String :=
  (q.find? (fun e => e.1 == name)).map (fun e => e.2)

/-- The natural number denoted by an unsigned numeral of one of the two forms that
Number::toString gives for an integer: decimal digits, or decimal digits with a dot
after the first one, followed by `e+` and the decimal digits of an exponent. -/
def JS.numeralValue (t : List Char) : Nat :=
  if 'e' ∈ t then
    decimalValue ((t.takeWhile (fun c => c != 'e')).filter (fun c => c != '.'))
      * 10 ^ (decimalValue ((t.dropWhile (fun c => c != 'e')).drop 2) + 1
          - ((t.takeWhile (fun c => c != 'e')).filter (fun c => c != '.')).length)
  else decimalValue t

/-- The Number denoted by a text that is `Infinity` or such a numeral, after a
minus sign or without one. -/
def JS.readNumber (t : List Char) : JS.Number :=
  if t.head? = some '-' then
    if t.tail = "Infinity".data then JS.Number.inf true
    else JS.ofInt (-(JS.numeralValue t.tail : Int))
  else if t = "Infinity".data then JS.Number.inf false
  else JS.ofInt (JS.numeralValue t)

/-- The integer is a Number: binary64 holds it exactly. -/
def JS.IsExact (i : Int) : Prop := (JS.ofInt i).IsFinite ∧ (JS.ofInt i).value = i

/-! ## Reference values taken from the specification -/

/-- The specification's `round(100 * count / total)` for `0 < total`: the
integer nearest to the exact quotient, ties rounded up. -/
def specPercentage (count total : Int) : Int := (200 * count + total) / (2 * total)

open JS Dashboard

/-! ## Theorems -/

/-! ### Rounding to binary64 -/

namespace JS

/-- With enough fuel, `log2Fuel` brackets `n` between two consecutive powers of two. -/
theorem log2Fuel_spec : ∀ (fuel n : Nat), 0 < n → n ≤ fuel →
    2 ^ log2Fuel fuel n ≤ n ∧ n < 2 ^ (log2Fuel fuel n + 1) := by
  intro fuel
  induction fuel with
  | zero => intro n h1 h2; omega
  | succ fuel ih =>
    intro n h1 h2
    unfold log2Fuel
    by_cases h : n < 2
    · simp only [h, if_true]
      omega
    · simp only [h, if_false]
      have := ih (n / 2) (by omega) (by omega)
      rw [pow_succ, pow_succ]
      omega

/-- The value `log2 n` is the floor of the binary logarithm of a positive `n`. -/
theorem log2_spec (n : Nat) (h : 0 < n) : 2 ^ log2 n ≤ n ∧ n < 2 ^ (log2 n + 1) :=
  log2Fuel_spec n n h le_rfl

/-- A power of two with an integer exponent, as a quotient of natural powers. -/
theorem two_zpow_toNat (l : Int) :
    ((2 : ℚ) ^ l.toNat) / (2 : ℚ) ^ (-l).toNat = (2 : ℚ) ^ l := by
  rcases le_or_lt 0 l with h | h
  · have h1 : (-l).toNat = 0 := by omega
    have h2 : (l.toNat : Int) = l := by omega
    rw [h1, pow_zero, div_one, ← zpow_natCast, h2]
  · have h1 : l.toNat = 0 := by omega
    have h2 : ((-l).toNat : Int) = -l := by omega
    rw [h1, pow_zero, ← zpow_natCast, h2, zpow_neg, one_div, inv_inv]

/-- The value `floorLog2 n d` is the floor of the binary logarithm of `n / d`. -/
theorem floorLog2_spec (n d : Nat) (hn : 0 < n) (hd : 0 < d) :
    (2 : ℚ) ^ floorLog2 n d ≤ (n : ℚ) / d ∧ (n : ℚ) / d < (2 : ℚ) ^ (floorLog2 n d + 1) := by
  obtain ⟨ha1, ha2⟩ := log2_spec n hn
  obtain ⟨hb1, hb2⟩ := log2_spec d hd
  have hd' : (0 : ℚ) < d := by exact_mod_cast hd
  have ha1' : (2 : ℚ) ^ (log2 n : Int) ≤ n := by rw [zpow_natCast]; exact_mod_cast ha1
  have ha2' : (n : ℚ) < (2 : ℚ) ^ ((log2 n : Int) + 1) := by
    rw [show ((log2 n : Int) + 1) = ((log2 n + 1 : Nat) : Int) by push_cast; ring, zpow_natCast]
    exact_mod_cast ha2
  have hb1' : (2 : ℚ) ^ (log2 d : Int) ≤ d := by rw [zpow_natCast]; exact_mod_cast hb1
  have hb2' : (d : ℚ) < (2 : ℚ) ^ ((log2 d : Int) + 1) := by
    rw [show ((log2 d : Int) + 1) = ((log2 d + 1 : Nat) : Int) by push_cast; ring, zpow_natCast]
    exact_mod_cast hb2
  have h2 : ∀ k : Int, (0 : ℚ) < (2 : ℚ) ^ k := fun k => zpow_pos (by norm_num) k
  unfold floorLog2
  simp only []
  generalize hl : (log2 n : Int) - (log2 d : Int) = l
  have key : (d * 2 ^ l.toNat ≤ n * 2 ^ (-l).toNat) ↔ (2 : ℚ) ^ l ≤ (n : ℚ) / d := by
    rw [← two_zpow_toNat l, div_le_div_iff₀ (pow_pos (by norm_num) _) hd']
    constructor
    · intro h
      have : ((d * 2 ^ l.toNat : Nat) : ℚ) ≤ ((n * 2 ^ (-l).toNat : Nat) : ℚ) := by exact_mod_cast h
      push_cast at this
      linarith
    · intro h
      have : ((d * 2 ^ l.toNat : Nat) : ℚ) ≤ ((n * 2 ^ (-l).toNat : Nat) : ℚ) := by
        push_cast; linarith
      exact_mod_cast this
  have hup : (n : ℚ) / d < (2 : ℚ) ^ (l + 1) := by
    rw [div_lt_iff₀ hd']
    calc (n : ℚ) < (2 : ℚ) ^ ((log2 n : Int) + 1) := ha2'
      _ = (2 : ℚ) ^ (l + 1) * (2 : ℚ) ^ (log2 d : Int) := by
        rw [← zpow_add₀ (by norm_num : (2 : ℚ) ≠ 0)]; congr 1; omega
      _ ≤ (2 : ℚ) ^ (l + 1) * d := by
        exact mul_le_mul_of_nonneg_left hb1' (h2 _).le
  have hlo : (2 : ℚ) ^ (l - 1) ≤ (n : ℚ) / d := by
    rw [le_div_iff₀ hd']
    calc (2 : ℚ) ^ (l - 1) * d ≤ (2 : ℚ) ^ (l - 1) * (2 : ℚ) ^ ((log2 d : Int) + 1) :=
        mul_le_mul_of_nonneg_left hb2'.le (h2 _).le
      _ = (2 : ℚ) ^ (log2 n : Int) := by
        rw [← zpow_add₀ (by norm_num : (2 : ℚ) ≠ 0)]; congr 1; omega
      _ ≤ n := ha1'
  by_cases hc : d * 2 ^ l.toNat ≤ n * 2 ^ (-l).toNat
  · rw [if_pos hc]
    exact ⟨key.mp hc, hup⟩
  · rw [if_neg hc]
    refine ⟨hlo, ?_⟩
    rw [show l - 1 + 1 = l by ring]
    exact lt_of_not_le (fun h => hc (key.mpr h))

/-- The result of `roundEven` is within one half of the quotient. -/
theorem roundEven_spec (A B : Nat) (hB : 0 < B) :
    2 * A ≤ 2 * (roundEven A B * B) + B ∧ 2 * (roundEven A B * B) ≤ 2 * A + B := by
  have h1 := Nat.div_add_mod A B
  have h2 := Nat.mod_lt A hB
  unfold roundEven
  simp only []
  generalize hq : A / B = q at *
  generalize hr : A % B = r at *
  have hqB : B * q = q * B := Nat.mul_comm _ _
  split_ifs with c1 c2
  · omega
  · have : (q + 1) * B = q * B + B := by ring
    omega
  · rcases Nat.mod_two_eq_zero_or_one q with h | h
    · rw [h, Nat.add_zero]; omega
    · rw [h]
      have : (q + 1) * B = q * B + B := by ring
      omega

/-- On an exact quotient `roundEven` returns the quotient. -/
theorem roundEven_exact (A B : Nat) (hB : 0 < B) (h : B ∣ A) : roundEven A B * B = A := by
  have h0 : A % B = 0 := Nat.mod_eq_zero_of_dvd h
  unfold roundEven
  simp only [h0, Nat.mul_zero, hB, if_true]
  exact Nat.div_mul_cancel h

/-- Within the range of normal numbers `roundRat` neither overflows nor uses the
subnormal exponent: the result is the rounded 53-bit significand at exponent
`floorLog2 n d - 52`. -/
theorem roundRat_fin (neg : Bool) (n d : Nat) (hn : 0 < n) (hd : 0 < d)
    (hlo : (2 : ℚ) ^ (-1022 : Int) ≤ (n : ℚ) / d) (hhi : (n : ℚ) / d < (2 : ℚ) ^ (1023 : Int)) :
    roundRat neg n d =
      Number.fin ((if neg then -1 else 1) *
        ((roundEven (n * 2 ^ (-(floorLog2 n d - 52)).toNat) (d * 2 ^ (floorLog2 n d - 52).toNat)
          * 2 ^ (floorLog2 n d - 52).toNat : Nat) : Int)) (2 ^ (-(floorLog2 n d - 52)).toNat) := by
  obtain ⟨h1, h2⟩ := floorLog2_spec n d hn hd
  have two1 : (1 : ℚ) < 2 := by norm_num
  have he1 : floorLog2 n d < 1023 := by
    by_contra hc
    push_neg at hc
    have : (2 : ℚ) ^ (1023 : Int) ≤ (2 : ℚ) ^ floorLog2 n d := zpow_le_zpow_right₀ two1.le hc
    exact absurd (lt_of_le_of_lt (le_trans this h1) hhi) (lt_irrefl _)
  have he2 : -1022 ≤ floorLog2 n d := by
    by_contra hc
    push_neg at hc
    have : (2 : ℚ) ^ (floorLog2 n d + 1) ≤ (2 : ℚ) ^ (-1022 : Int) :=
      zpow_le_zpow_right₀ two1.le (by omega)
    exact absurd (lt_of_lt_of_le h2 this) (not_lt.mpr hlo)
  unfold roundRat
  simp only []
  rw [if_neg (by omega), max_eq_left he2, if_neg (by omega)]

/-- Within the range of normal numbers the result of `roundRat` is finite, has
relative error at most `2 ^ (-53)`, and is exact on natural numbers below `2 ^ 53`. -/
theorem roundRat_struct (neg : Bool) (n d : Nat) (hn : 0 < n) (hd : 0 < d)
    (hlo : (2 : ℚ) ^ (-1022 : Int) ≤ (n : ℚ) / d) (hhi : (n : ℚ) / d < (2 : ℚ) ^ (1023 : Int)) :
    ∃ M b : Nat, roundRat neg n d = Number.fin ((if neg then -1 else 1) * (M : Int)) b
      ∧ 0 < b
      ∧ |(M : ℚ) / b - (n : ℚ) / d| ≤ (n : ℚ) / d * (2 : ℚ) ^ (-53 : Int)
      ∧ (∀ K : Nat, (n : ℚ) / d = K → K < 2 ^ 53 → (M : ℚ) / b = K) := by
  obtain ⟨h1, h2⟩ := floorLog2_spec n d hn hd
  have hfin := roundRat_fin neg n d hn hd hlo hhi
  generalize he : floorLog2 n d - 52 = e at hfin
  have he0 : floorLog2 n d = e + 52 := by omega
  rw [he0] at h1 h2
  set kp := e.toNat with hkp
  set kn := (-e).toNat with hkn
  set m := roundEven (n * 2 ^ kn) (d * 2 ^ kp) with hm
  have hn' : (0 : ℚ) < n := by exact_mod_cast hn
  have hd' : (0 : ℚ) < d := by exact_mod_cast hd
  have hP : (0 : ℚ) < (2 : ℚ) ^ kp := pow_pos (by norm_num) _
  have hN : (0 : ℚ) < (2 : ℚ) ^ kn := pow_pos (by norm_num) _
  have hE : (2 : ℚ) ^ kp / (2 : ℚ) ^ kn = (2 : ℚ) ^ e := two_zpow_toNat e
  have hEpos : (0 : ℚ) < (2 : ℚ) ^ e := zpow_pos (by norm_num) e
  have hB : 0 < d * 2 ^ kp := Nat.mul_pos hd (pow_pos (by norm_num) _)
  obtain ⟨s1, s2⟩ := roundEven_spec (n * 2 ^ kn) (d * 2 ^ kp) hB
  rw [← hm] at s1 s2
  have s1' : 2 * ((n : ℚ) * 2 ^ kn) ≤ 2 * ((m : ℚ) * ((d : ℚ) * 2 ^ kp)) + (d : ℚ) * 2 ^ kp := by
    exact_mod_cast s1
  have s2' : 2 * ((m : ℚ) * ((d : ℚ) * 2 ^ kp)) ≤ 2 * ((n : ℚ) * 2 ^ kn) + (d : ℚ) * 2 ^ kp := by
    exact_mod_cast s2
  have hval : ((m * 2 ^ kp : Nat) : ℚ) / ((2 ^ kn : Nat) : ℚ) = (m : ℚ) * (2 : ℚ) ^ e := by
    push_cast
    rw [← hE]
    ring
  refine ⟨m * 2 ^ kp, 2 ^ kn, hfin, pow_pos (by norm_num) _, ?_, ?_⟩
  · rw [hval]
    have hhalf : (2 : ℚ) ^ e / 2 ≤ (n : ℚ) / d * (2 : ℚ) ^ (-53 : Int) := by
      have : (2 : ℚ) ^ (e + 52) * (2 : ℚ) ^ (-53 : Int) = (2 : ℚ) ^ e / 2 := by
        rw [← zpow_add₀ (by norm_num : (2 : ℚ) ≠ 0)]
        rw [show e + 52 + -53 = e - 1 by ring, zpow_sub₀ (by norm_num : (2 : ℚ) ≠ 0)]
        simp
      rw [← this]
      exact mul_le_mul_of_nonneg_right h1 (zpow_pos (by norm_num) _).le
    have e1 : (m : ℚ) * (2 : ℚ) ^ e + (2 : ℚ) ^ e / 2 - (n : ℚ) / d =
        (2 * ((m : ℚ) * ((d : ℚ) * 2 ^ kp)) + (d : ℚ) * 2 ^ kp - 2 * ((n : ℚ) * 2 ^ kn))
          / (2 * d * 2 ^ kn) := by
      rw [← hE]; field_simp; ring
    have e2 : (n : ℚ) / d + (2 : ℚ) ^ e / 2 - (m : ℚ) * (2 : ℚ) ^ e =
        (2 * ((n : ℚ) * 2 ^ kn) + (d : ℚ) * 2 ^ kp - 2 * ((m : ℚ) * ((d : ℚ) * 2 ^ kp)))
          / (2 * d * 2 ^ kn) := by
      rw [← hE]; field_simp; ring
    have p1 : 0 ≤ (m : ℚ) * (2 : ℚ) ^ e + (2 : ℚ) ^ e / 2 - (n : ℚ) / d := by
      rw [e1]; exact div_nonneg (by linarith) (by positivity)
    have p2 : 0 ≤ (n : ℚ) / d + (2 : ℚ) ^ e / 2 - (m : ℚ) * (2 : ℚ) ^ e := by
      rw [e2]; exact div_nonneg (by linarith) (by positivity)
    rw [abs_le]
    constructor <;> linarith
  · intro K hK hK53
    rw [hval]
    have hKq : (K : ℚ) < (2 : ℚ) ^ (53 : Int) := by
      rw [show (53 : Int) = ((53 : Nat) : Int) by rfl, zpow_natCast]
      exact_mod_cast hK53
    have hle : e ≤ 0 := by
      by_contra hc
      push_neg at hc
      have : (2 : ℚ) ^ (53 : Int) ≤ (2 : ℚ) ^ (e + 52) :=
        zpow_le_zpow_right₀ (by norm_num) (by omega)
      rw [hK] at h1
      exact absurd (lt_of_le_of_lt (le_trans this h1) hKq) (lt_irrefl _)
    have hkp0 : kp = 0 := by omega
    have hnK : n = K * d := by
      have : (n : ℚ) = (K : ℚ) * d := by
        field_simp at hK; linarith
      exact_mod_cast this
    have hdvd : d * 2 ^ kp ∣ n * 2 ^ kn := by
      rw [hkp0, pow_zero, mul_one, hnK]
      exact ⟨K * 2 ^ kn, by ring⟩
    have hex := roundEven_exact (n * 2 ^ kn) (d * 2 ^ kp) hB hdvd
    rw [← hm, hkp0, pow_zero, mul_one, hnK] at hex
    have hmK : m = K * 2 ^ kn := by
      have : m * d = (K * 2 ^ kn) * d := by rw [hex]; ring
      exact Nat.eq_of_mul_eq_mul_right hd this
    have hen : (2 : ℚ) ^ e = ((2 : ℚ) ^ kn)⁻¹ := by
      rw [← hE, hkp0, pow_zero, one_div]
    rw [hmK, hen]
    push_cast
    field_simp

/-- The properties of `roundRat_struct`, for `round` on a non-zero numerator. -/
theorem round_struct (num : Int) (den : Nat) (hnum : num ≠ 0) (hden : 0 < den)
    (hlo : (2 : ℚ) ^ (-1022 : Int) ≤ (num.natAbs : ℚ) / den)
    (hhi : (num.natAbs : ℚ) / den < (2 : ℚ) ^ (1023 : Int)) :
    ∃ M b : Nat, round num den = Number.fin ((if num < 0 then -1 else 1) * (M : Int)) b
      ∧ 0 < b
      ∧ |(M : ℚ) / b - (num.natAbs : ℚ) / den| ≤ (num.natAbs : ℚ) / den * (2 : ℚ) ^ (-53 : Int)
      ∧ (∀ K : Nat, (num.natAbs : ℚ) / den = K → K < 2 ^ 53 → (M : ℚ) / b = K) := by
  have hpos : 0 < num.natAbs := Int.natAbs_pos.mpr hnum
  obtain ⟨M, b, h1, h2, h3, h4⟩ := roundRat_struct (decide (num < 0)) num.natAbs den hpos hden hlo hhi
  refine ⟨M, b, ?_, h2, h3, h4⟩
  unfold round
  rw [if_neg hnum, h1]
  simp

/-- A quotient of two positive naturals below `2 ^ 53` is in the range of normal numbers. -/
theorem two_pow_bounds (K : Nat) (h1 : 0 < K) (h2 : K < 2 ^ 53) (t : Nat) (ht1 : 0 < t)
    (ht2 : t < 2 ^ 53) :
    (2 : ℚ) ^ (-1022 : Int) ≤ (K : ℚ) / t ∧ (K : ℚ) / t < (2 : ℚ) ^ (1023 : Int) := by
  have hK1 : (1 : ℚ) ≤ K := by exact_mod_cast h1
  have hK2 : (K : ℚ) < (2 : ℚ) ^ (53 : Int) := by
    rw [show (53 : Int) = ((53 : Nat) : Int) by rfl, zpow_natCast]
    exact_mod_cast h2
  have ht1' : (1 : ℚ) ≤ t := by exact_mod_cast ht1
  have ht2' : (t : ℚ) < (2 : ℚ) ^ (53 : Int) := by
    rw [show (53 : Int) = ((53 : Nat) : Int) by rfl, zpow_natCast]
    exact_mod_cast ht2
  have ht0 : (0 : ℚ) < t := by linarith
  have p53 : (0 : ℚ) < (2 : ℚ) ^ (53 : Int) := zpow_pos (by norm_num) _
  constructor
  · rw [le_div_iff₀ ht0]
    have e1 : (2 : ℚ) ^ (-1022 : Int) * (2 : ℚ) ^ (53 : Int) ≤ 1 := by
      rw [← zpow_add₀ (by norm_num : (2 : ℚ) ≠ 0)]
      exact zpow_le_one_of_nonpos₀ (by norm_num) (by norm_num)
    have e2 : (2 : ℚ) ^ (-1022 : Int) * t ≤ (2 : ℚ) ^ (-1022 : Int) * (2 : ℚ) ^ (53 : Int) :=
      mul_le_mul_of_nonneg_left ht2'.le (zpow_pos (by norm_num) _).le
    linarith
  · rw [div_lt_iff₀ ht0]
    have e1 : (2 : ℚ) ^ (53 : Int) ≤ (2 : ℚ) ^ (1023 : Int) :=
      zpow_le_zpow_right₀ (by norm_num) (by norm_num)
    have e2 : (2 : ℚ) ^ (1023 : Int) * 1 ≤ (2 : ℚ) ^ (1023 : Int) * t :=
      mul_le_mul_of_nonneg_left ht1' (zpow_pos (by norm_num) _).le
    linarith

/-- An integer of magnitude below `2 ^ 53` is rounded to itself. -/
theorem round_exact (num : Int) (den : Nat) (hden : 0 < den) (K : Int)
    (hK : (num : ℚ) / den = K) (hb : K.natAbs < 2 ^ 53) :
    (round num den).IsFinite ∧ (round num den).value = K := by
  have hden' : (0 : ℚ) < den := by exact_mod_cast hden
  by_cases hnum : num = 0
  · subst hnum
    have : (K : ℚ) = 0 := by rw [← hK]; simp
    simp [round, Number.IsFinite, Number.value, this]
  · have hnumK : (num : ℚ) = K * den := by field_simp at hK; linarith
    have hnumK' : num = K * den := by exact_mod_cast hnumK
    have hK0 : K ≠ 0 := by
      rintro rfl
      simp at hnumK'
      exact hnum hnumK'
    have habs : (num.natAbs : ℚ) / den = (K.natAbs : Nat) := by
      rw [hnumK', Int.natAbs_mul, Int.natAbs_ofNat]
      push_cast
      field_simp
    obtain ⟨r1, r2⟩ := two_pow_bounds K.natAbs (Int.natAbs_pos.mpr hK0) hb 1 (by norm_num)
      (by norm_num)
    simp only [Nat.cast_one, div_one] at r1 r2
    obtain ⟨M, b, h1, h2, _, h4⟩ := round_struct num den hnum hden
      (by rw [habs]; exact r1) (by rw [habs]; exact r2)
    have hM := h4 K.natAbs habs hb
    have hb' : (0 : ℚ) < b := by exact_mod_cast h2
    rw [h1]
    refine ⟨h2, ?_⟩
    simp only [Number.value]
    have hsign : (num < 0) ↔ (K < 0) := by
      rw [hnumK']
      constructor
      · intro h
        by_contra hc
        push_neg at hc
        have : 0 ≤ K * (den : Int) := mul_nonneg hc (by positivity)
        omega
      · intro h
        exact mul_neg_of_neg_of_pos h (by exact_mod_cast hden)
    push_cast
    rw [mul_div_assoc, hM]
    by_cases hneg : K < 0
    · rw [if_pos (hsign.mpr hneg)]
      have : ((K.natAbs : Nat) : ℚ) = -(K : ℚ) := by
        rw [Nat.cast_natAbs, abs_of_neg hneg]; push_cast; ring
      rw [this]; ring
    · rw [if_neg (fun h => hneg (hsign.mp h))]
      push_neg at hneg
      have : ((K.natAbs : Nat) : ℚ) = (K : ℚ) := by
        rw [Nat.cast_natAbs, abs_of_nonneg hneg]
      rw [this]; ring


/-- A finite number is `fin a b` with `b` positive. -/
theorem isFinite_cases (x : Number) (h : x.IsFinite) :
    ∃ (a : Int) (b : Nat), x = Number.fin a b ∧ 0 < b := by
  cases x with
  | nan => exact absurd h (by simp [Number.IsFinite])
  | inf s => exact absurd h (by simp [Number.IsFinite])
  | fin a b => exact ⟨a, b, rfl, h⟩

/-- An integer literal of magnitude below `2 ^ 53` denotes itself. -/
theorem ofInt_exact (i : Int) (h : i.natAbs < 2 ^ 53) :
    (ofInt i).IsFinite ∧ (ofInt i).value = i :=
  round_exact i 1 (by norm_num) i (by simp) h

/-- The expression `x || 0` keeps the value of a finite `x`. -/
theorem orZero_exact (x : Number) (h : x.IsFinite) :
    (orZero x).IsFinite ∧ (orZero x).value = x.value := by
  obtain ⟨a, b, rfl, hb⟩ := isFinite_cases x h
  unfold orZero
  by_cases ha : a = 0
  · subst ha
    simp [truthy, Number.IsFinite, Number.value]
  · simp [truthy, ha, Number.IsFinite, hb]

/-- A product that is an integer of magnitude below `2 ^ 53` is computed exactly. -/
theorem mul_exact (x y : Number) (hx : x.IsFinite) (hy : y.IsFinite) (K : Int)
    (h : x.value * y.value = K) (hb : K.natAbs < 2 ^ 53) :
    (mul x y).IsFinite ∧ (mul x y).value = K := by
  obtain ⟨a1, b1, rfl, hb1⟩ := isFinite_cases x hx
  obtain ⟨a2, b2, rfl, hb2⟩ := isFinite_cases y hy
  simp only [mul]
  apply round_exact _ _ (Nat.mul_pos hb1 hb2) K _ hb
  rw [← h]
  simp only [Number.value]
  push_cast
  have h1 : (b1 : ℚ) ≠ 0 := by exact_mod_cast hb1.ne'
  have h2 : (b2 : ℚ) ≠ 0 := by exact_mod_cast hb2.ne'
  field_simp

/-- A sum that is an integer of magnitude below `2 ^ 53` is computed exactly. -/
theorem add_exact (x y : Number) (hx : x.IsFinite) (hy : y.IsFinite) (K : Int)
    (h : x.value + y.value = K) (hb : K.natAbs < 2 ^ 53) :
    (add x y).IsFinite ∧ (add x y).value = K := by
  obtain ⟨a1, b1, rfl, hb1⟩ := isFinite_cases x hx
  obtain ⟨a2, b2, rfl, hb2⟩ := isFinite_cases y hy
  simp only [add]
  apply round_exact _ _ (Nat.mul_pos hb1 hb2) K _ hb
  rw [← h]
  simp only [Number.value]
  push_cast
  have h1 : (b1 : ℚ) ≠ 0 := by exact_mod_cast hb1.ne'
  have h2 : (b2 : ℚ) ≠ 0 := by exact_mod_cast hb2.ne'
  field_simp

/-- Zero divided by a non-zero finite number is zero. -/
theorem div_zero_num (x y : Number) (hx : x.IsFinite) (hy : y.IsFinite)
    (h0 : x.value = 0) (ht : y.value ≠ 0) : div x y = Number.fin 0 1 := by
  obtain ⟨a1, b1, rfl, hb1⟩ := isFinite_cases x hx
  obtain ⟨a2, b2, rfl, hb2⟩ := isFinite_cases y hy
  have h1 : (b1 : ℚ) ≠ 0 := by exact_mod_cast hb1.ne'
  simp only [Number.value] at h0 ht
  have ha1 : a1 = 0 := by
    have : (a1 : ℚ) = 0 := by
      rcases div_eq_zero_iff.mp h0 with h | h
      · exact h
      · exact absurd h h1
    exact_mod_cast this
  have ha2 : a2 ≠ 0 := by
    rintro rfl
    simp at ht
  simp [div, ha1, ha2, round]

/-- The quotient of a non-zero integer `N` by a positive integer `t`, both of
magnitude below `2 ^ 53`, is finite, has the sign of `N`, and has relative error
at most `2 ^ (-53)`. -/
theorem div_struct (x y : Number) (hx : x.IsFinite) (hy : y.IsFinite) (N t : Int)
    (hN : x.value = N) (ht : y.value = t) (hN0 : N ≠ 0) (hNb : N.natAbs < 2 ^ 53)
    (ht0 : 0 < t) (htb : t < 2 ^ 53) :
    ∃ M b : Nat, div x y = Number.fin ((if N < 0 then -1 else 1) * (M : Int)) b
      ∧ 0 < b
      ∧ |(M : ℚ) / b - (N.natAbs : ℚ) / t| ≤ (N.natAbs : ℚ) / t * (2 : ℚ) ^ (-53 : Int) := by
  obtain ⟨a1, b1, rfl, hb1⟩ := isFinite_cases x hx
  obtain ⟨a2, b2, rfl, hb2⟩ := isFinite_cases y hy
  have h1 : (0 : ℚ) < b1 := by exact_mod_cast hb1
  have h2 : (0 : ℚ) < b2 := by exact_mod_cast hb2
  have ht0' : (0 : ℚ) < t := by exact_mod_cast ht0
  simp only [Number.value] at hN ht
  have ha1 : a1 = N * b1 := by
    have : (a1 : ℚ) = N * b1 := by field_simp at hN; exact hN
    exact_mod_cast this
  have ha2 : a2 = t * b2 := by
    have : (a2 : ℚ) = t * b2 := by field_simp at ht; exact ht
    exact_mod_cast this
  have ha2pos : 0 < a2 := by rw [ha2]; exact mul_pos ht0 (by exact_mod_cast hb2)
  have hnum : a1 * (b2 : Int) ≠ 0 := by
    rw [ha1]
    exact mul_ne_zero (mul_ne_zero hN0 (by exact_mod_cast hb1.ne')) (by exact_mod_cast hb2.ne')
  have hden : 0 < b1 * a2.natAbs := Nat.mul_pos hb1 (Int.natAbs_pos.mpr ha2pos.ne')
  have hdiv : div (Number.fin a1 b1) (Number.fin a2 b2) = round (a1 * (b2 : Int)) (b1 * a2.natAbs) := by
    simp only [div]
    rw [if_neg ha2pos.ne', if_neg (not_lt.mpr ha2pos.le), mul_one]
  have hq : (((a1 * (b2 : Int)).natAbs : Nat) : ℚ) / ((b1 * a2.natAbs : Nat) : ℚ)
      = (N.natAbs : ℚ) / t := by
    rw [ha1, ha2]
    simp only [Int.natAbs_mul, Int.natAbs_ofNat]
    push_cast
    have : ((t.natAbs : Nat) : ℚ) = t := by
      rw [Nat.cast_natAbs, abs_of_pos ht0]
    rw [this]
    field_simp
    ring
  have htn : t.natAbs < 2 ^ 53 := by omega
  obtain ⟨r1, r2⟩ := two_pow_bounds N.natAbs (Int.natAbs_pos.mpr hN0) hNb t.natAbs
    (Int.natAbs_pos.mpr ht0.ne') htn
  have htc : ((t.natAbs : Nat) : ℚ) = t := by
    rw [Nat.cast_natAbs, abs_of_pos ht0]
  rw [htc] at r1 r2
  obtain ⟨M, b, e1, e2, e3, _⟩ := round_struct (a1 * (b2 : Int)) (b1 * a2.natAbs) hnum hden
    (by rw [hq]; exact r1) (by rw [hq]; exact r2)
  rw [hq] at e3
  refine ⟨M, b, ?_, e2, e3⟩
  rw [hdiv, e1]
  have hsign : (a1 * (b2 : Int) < 0) ↔ (N < 0) := by
    rw [ha1]
    have hbb : (0 : Int) < (b1 : Int) * (b2 : Int) := by positivity
    rw [mul_assoc]
    constructor
    · intro h
      by_contra hc
      push_neg at hc
      have : 0 ≤ N * ((b1 : Int) * (b2 : Int)) := mul_nonneg hc hbb.le
      omega
    · intro h
      exact mul_neg_of_neg_of_pos h hbb
  by_cases hneg : N < 0
  · rw [if_pos hneg, if_pos (hsign.mpr hneg)]
  · rw [if_neg hneg, if_neg (fun h => hneg (hsign.mp h))]

/-- When `M / b` approximates `A / t` with relative error at most `2 ^ (-53)` and
`20 * A < 2 ^ 53`, the digits `k` chosen by `toFixed(1)` for `M / b` satisfy
`|k / 10 - A / t| ≤ 1 / 20`, stated here without division. -/
theorem toFixed1_struct (sneg : Bool) (M b : Nat) (hb : 0 < b) (A t : Nat) (hA : 0 < A)
    (ht : 0 < t) (hA2 : 20 * A < 2 ^ 53)
    (happrox : |(M : ℚ) / b - (A : ℚ) / t| ≤ (A : ℚ) / t * (2 : ℚ) ^ (-53 : Int)) :
    ∃ k : Nat, toFixed1 (Number.fin ((if sneg then -1 else 1) * (M : Int)) b)
        = NumText.fixed sneg k
      ∧ 2 * k * t ≤ 20 * A + t ∧ 20 * A ≤ 2 * k * t + t := by
  have hb' : (0 : ℚ) < b := by exact_mod_cast hb
  have ht' : (0 : ℚ) < t := by exact_mod_cast ht
  have hA' : (0 : ℚ) < A := by exact_mod_cast hA
  have ht1 : (1 : ℚ) ≤ t := by exact_mod_cast ht
  set ε : ℚ := (2 : ℚ) ^ (-53 : Int) with hε
  have hεpos : 0 < ε := zpow_pos (by norm_num) _
  have hε53 : ε * 2 ^ 53 = 1 := by
    rw [hε, show ((2 : ℚ) ^ 53) = (2 : ℚ) ^ ((53 : Nat) : Int) by rw [zpow_natCast],
      ← zpow_add₀ (by norm_num : (2 : ℚ) ≠ 0)]
    norm_num
  have hAε : 20 * (A : ℚ) * ε < 1 := by
    have : (20 * (A : ℚ)) < 2 ^ 53 := by exact_mod_cast hA2
    calc 20 * (A : ℚ) * ε < 2 ^ 53 * ε := mul_lt_mul_of_pos_right this hεpos
      _ = 1 := by rw [mul_comm]; exact hε53
  set Y : ℚ := (M : ℚ) / b with hY
  obtain ⟨lo, hi⟩ := abs_le.mp happrox
  have hqt : (A : ℚ) / t * t = A := by field_simp
  have hYt1 : Y * t ≤ A + A * ε := by
    have : Y ≤ (A : ℚ) / t + (A : ℚ) / t * ε := by linarith
    have := mul_le_mul_of_nonneg_right this ht'.le
    rw [add_mul, mul_right_comm, hqt] at this
    exact this
  have hYt2 : A - A * ε ≤ Y * t := by
    have : (A : ℚ) / t - (A : ℚ) / t * ε ≤ Y := by linarith
    have := mul_le_mul_of_nonneg_right this ht'.le
    rw [sub_mul, mul_right_comm, hqt] at this
    exact this
  have hYpos : 0 < Y := by
    have h1 : (A : ℚ) * ε < 1 := by nlinarith
    have h2 : (0 : ℚ) < Y * t := by
      have : (1 : ℚ) ≤ A := by exact_mod_cast hA
      linarith
    by_contra hc
    push_neg at hc
    have := mul_nonpos_of_nonpos_of_nonneg hc ht'.le
    linarith
  have hMpos : 0 < M := by
    by_contra hc
    have : M = 0 := by omega
    rw [hY, this] at hYpos
    simp at hYpos
  have hYle : Y * t < 2 ^ 53 := by
    have : (20 * (A : ℚ)) < 2 ^ 53 := by exact_mod_cast hA2
    linarith
  have hnat : ((if sneg then -1 else 1) * (M : Int)).natAbs = M := by
    cases sneg <;> simp
  have hneg : isNeg ((if sneg then -1 else 1) * (M : Int)) = sneg := by
    cases sneg
    · simp [isNeg]
    · simp [isNeg]
      omega
  have hsmall : ¬ 10 ^ 21 * b ≤ M := by
    intro hc
    have hc' : (10 : ℚ) ^ 21 * b ≤ M := by exact_mod_cast hc
    have : (10 : ℚ) ^ 21 ≤ Y := by rw [hY, le_div_iff₀ hb']; exact hc'
    have h3 : Y * 1 ≤ Y * t := mul_le_mul_of_nonneg_left ht1 hYpos.le
    have : (2 : ℚ) ^ 53 < 10 ^ 21 := by norm_num
    linarith
  refine ⟨(20 * M + b) / (2 * b), ?_, ?_, ?_⟩
  · simp only [toFixed1, hnat, hneg, if_neg hsmall]
  · have hk : (20 * M + b) / (2 * b) * (2 * b) ≤ 20 * M + b := Nat.div_mul_le_self _ _
    set k := (20 * M + b) / (2 * b) with hkdef
    have hk' : (k : ℚ) * (2 * b) ≤ 20 * M + b := by exact_mod_cast hk
    have h1 : 2 * (k : ℚ) ≤ 20 * Y + 1 := by
      have : 20 * Y + 1 = (20 * M + b) / b := by rw [hY]; field_simp
      rw [this, le_div_iff₀ hb']
      linarith
    have h2 := mul_le_mul_of_nonneg_right h1 ht'.le
    have h3 : 2 * (k : ℚ) * t < 20 * A + t + 1 := by nlinarith
    have h4 : 2 * k * t < 20 * A + t + 1 := by exact_mod_cast h3
    omega
  · have hk : 20 * M + b < ((20 * M + b) / (2 * b) + 1) * (2 * b) := by
      have e1 := Nat.div_add_mod (20 * M + b) (2 * b)
      have e2 := Nat.mod_lt (20 * M + b) (show 0 < 2 * b by omega)
      have e3 : ((20 * M + b) / (2 * b) + 1) * (2 * b)
          = 2 * b * ((20 * M + b) / (2 * b)) + 2 * b := by ring
      omega
    set k := (20 * M + b) / (2 * b) with hkdef
    have hk' : (20 * M + b : ℚ) < ((k : ℚ) + 1) * (2 * b) := by exact_mod_cast hk
    have h1 : 20 * Y + 1 < 2 * (k : ℚ) + 2 := by
      have : 20 * Y + 1 = (20 * M + b) / b := by rw [hY]; field_simp
      rw [this, div_lt_iff₀ hb']
      linarith
    have h2 := mul_lt_mul_of_pos_right h1 ht'
    have h3 : 20 * (A : ℚ) < 2 * (k : ℚ) * t + t + 1 := by nlinarith
    have h4 : 20 * A < 2 * k * t + t + 1 := by exact_mod_cast h3
    omega

end JS

/-! ### Text of numbers and of joined lists -/

/-- The character of a decimal digit has that digit as its value. -/
theorem digitChar_value (k : Nat) (h : k < 10) : (Nat.digitChar k).toNat - 48 = k := by
  interval_cases k <;> rfl

/-- The digits produced by `Nat.toDigitsCore` in base ten denote the number. -/
theorem toDigitsCore_value : ∀ (fuel n : Nat) (ds : List Char), n < fuel →
    decimalValue (Nat.toDigitsCore 10 fuel n ds) = n * 10 ^ ds.length + decimalValue ds := by
  intro fuel
  induction fuel with
  | zero => intro n ds h; omega
  | succ fuel ih =>
    intro n ds h
    simp only [Nat.toDigitsCore]
    have hmod := digitChar_value (n % 10) (Nat.mod_lt _ (by norm_num))
    split_ifs with h0
    · simp only [decimalValue, hmod]
      have : n % 10 = n := by omega
      rw [this]
    · rw [ih (n / 10) _ (by omega)]
      simp only [decimalValue, hmod, List.length_cons, pow_succ]
      have hn := Nat.div_add_mod n 10
      generalize 10 ^ ds.length = P
      generalize decimalValue ds = V
      calc n / 10 * (P * 10) + (n % 10 * P + V) = (10 * (n / 10) + n % 10) * P + V := by ring
        _ = n * P + V := by rw [hn]

/-- The decimal digits of `n` denote `n`. -/
theorem toDigits_value (n : Nat) : decimalValue (Nat.toDigits 10 n) = n := by
  unfold Nat.toDigits
  rw [toDigitsCore_value (n + 1) n [] (by omega)]
  simp [decimalValue]

/-- Two comma-free lists followed by a comma and equal as a whole agree piecewise. -/
theorem append_comma_inj : ∀ (a b x y : List Char), ',' ∉ a → ',' ∉ b →
    a ++ ',' :: x = b ++ ',' :: y → a = b ∧ x = y := by
  intro a
  induction a with
  | nil =>
    intro b x y _ hb h
    cases b with
    | nil => simpa using h
    | cons c b =>
      simp only [List.nil_append, List.cons_append, List.cons.injEq] at h
      exact absurd (by rw [← h.1]; exact List.mem_cons_self _ _) hb
  | cons c a ih =>
    intro b x y ha hb h
    cases b with
    | nil =>
      simp only [List.nil_append, List.cons_append, List.cons.injEq] at h
      exact absurd (by rw [h.1]; exact List.mem_cons_self _ _) ha
    | cons c2 b =>
      simp only [List.cons_append, List.cons.injEq] at h
      obtain ⟨h1, h2⟩ := ih b x y (fun hm => ha (List.mem_cons_of_mem _ hm))
        (fun hm => hb (List.mem_cons_of_mem _ hm)) h.2
      exact ⟨by rw [h.1, h1], h2⟩

/-- The characters of a joined list with at least two elements. -/
theorem Reviews.join_data_cons (a b : String) (rest : List String) :
    (Reviews.join (a :: b :: rest)).data = a.data ++ ',' :: (Reviews.join (b :: rest)).data := by
  simp [Reviews.join, String.data_append]

/-- On non-empty lists of comma-free strings `join` is injective. -/
theorem Reviews.join_injective : ∀ (l1 l2 : List String), l1 ≠ [] → l2 ≠ [] →
    (∀ s ∈ l1, ',' ∉ s.data) → (∀ s ∈ l2, ',' ∉ s.data) →
    Reviews.join l1 = Reviews.join l2 → l1 = l2 := by
  intro l1
  induction l1 with
  | nil => intro l2 h; exact absurd rfl h
  | cons a r1 ih =>
    intro l2 _ h2 hc1 hc2 h
    cases l2 with
    | nil => exact absurd rfl h2
    | cons b r2 =>
      have ha := hc1 a (List.mem_cons_self _ _)
      have hb := hc2 b (List.mem_cons_self _ _)
      cases r1 with
      | nil =>
        cases r2 with
        | nil => simpa [Reviews.join] using h
        | cons b2 r2 =>
          have hd := congrArg String.data h
          rw [Reviews.join_data_cons] at hd
          simp only [Reviews.join] at hd
          exact absurd (by rw [hd]; simp) ha
      | cons a2 r1 =>
        cases r2 with
        | nil =>
          have hd := congrArg String.data h
          rw [Reviews.join_data_cons] at hd
          simp only [Reviews.join] at hd
          exact absurd (by rw [← hd]; simp) hb
        | cons b2 r2 =>
          have hd := congrArg String.data h
          rw [Reviews.join_data_cons, Reviews.join_data_cons] at hd
          obtain ⟨e1, e2⟩ := append_comma_inj _ _ _ _ ha hb hd
          have hab : a = b := String.ext e1
          have htail := ih (b2 :: r2) (by simp) (by simp)
            (fun s hs => hc1 s (List.mem_cons_of_mem _ hs))
            (fun s hs => hc2 s (List.mem_cons_of_mem _ hs)) (String.ext e2)
          rw [hab, htail]

/-! ### The claims -/


set_option maxRecDepth 100000 in
/-- C1: with 23 positive reviews out of 40 the exact percentage is 57.5, which the
specification's rule (nearest integer, ties up) rounds to 58, while `fetchStats`
stores 57: the quotient 23 / 40 is rounded to binary64 before it is multiplied by
100, and the product is 57.49999999999999.  The counts 6, 3, 1 of 10 give 60 and 10
as stated. -/
theorem C1_percentage_tie_rounded_down :
    (fetchStats initialMetrics (some (statsOf 23 17 0 40))).positivePercentage = Number.fin 57 1
    ∧ specPercentage 23 40 = 58
    ∧ mul (div (ofInt 23) (ofInt 40)) (ofInt 100) = Number.fin 8092405580431359 140737488355328
    ∧ (fetchStats initialMetrics (some (statsOf 6 3 1 10))).positivePercentage = Number.fin 60 1
    ∧ (fetchStats initialMetrics (some (statsOf 6 3 1 10))).negativePercentage = Number.fin 10 1 := by
  decide

/-- A count of magnitude at most `2 ^ 45`, or an absent one, is read exactly. -/
theorem Dashboard.count_exact (c : Option Int) (h : (c.getD 0).natAbs ≤ 2 ^ 45) :
    (count c).IsFinite ∧ (count c).value = (c.getD 0 : Int) := by
  cases c with
  | none => simp [count, Number.IsFinite, Number.value]
  | some i =>
    simp only [Option.getD_some] at h
    obtain ⟨f, v⟩ := ofInt_exact i (by omega)
    obtain ⟨f2, v2⟩ := orZero_exact _ f
    simp only [count, Option.getD_some]
    exact ⟨f2, by rw [v2, v]⟩

set_option maxRecDepth 100000 in
/-- C2, as stated, fails: for the payload with 9007199254740994 positive reviews
and `total_reviews` 1 the exact average is 45035996273704970, which is not a
binary64 value; `fetchStats` stores the text 45035996273704968.0, which is not
that average rounded to one decimal place. -/
theorem C2_large_counts_not_rounded :
    (fetchStats initialMetrics (some (statsOf 9007199254740994 0 0 1))).averageRating
      = Value.text (NumText.fixed false 450359962737049680)
    ∧ (NumText.fixed false 450359962737049680).render = some "45035996273704968.0"
    ∧ ¬ (|(450359962737049680 : ℚ) / 10 - (5 * 9007199254740994 + 3 * 0 + 0 : ℚ) / 1|
          ≤ 1 / 20) := by
  refine ⟨by decide, by decide, ?_⟩
  norm_num [abs_le]

set_option maxRecDepth 100000 in
/-- C2, amended: for every stats response with `total_reviews` in 1 .. 2^53 - 1 and
category counts (an absent count being 0) of magnitude at most 2^45, `fetchStats`
sets `averageRating` to the text, with one fractional digit, of a decimal that is
within 1/20 of `(5 * positive + 3 * neutral + negative) / total_reviews`: the
quotient rounded to one decimal place (either neighbour when it lies halfway).
For the counts 6, 3, 1 and the total 10 the text is `4.0`. -/
theorem C2_averageRating_nearest_tenth :
    (∀ (prev : Metrics) (data : StatsData) (dist : SentimentDistribution) (t : Int),
      data.sentiment_distribution = some dist → data.total_reviews = some t →
      |dist.positive.getD 0| ≤ 2 ^ 45 → |dist.neutral.getD 0| ≤ 2 ^ 45 →
      |dist.negative.getD 0| ≤ 2 ^ 45 → 0 < t → t < 2 ^ 53 →
      ∃ (neg : Bool) (k : Nat),
        (fetchStats prev (some data)).averageRating = Value.text (NumText.fixed neg k)
        ∧ |(if neg then -1 else 1) * ((k : ℚ) / 10)
            - (5 * dist.positive.getD 0 + 3 * dist.neutral.getD 0 + dist.negative.getD 0 : ℚ) / t|
          ≤ 1 / 20)
    ∧ (fetchStats initialMetrics (some (statsOf 6 3 1 10))).averageRating
        = Value.text (NumText.fixed false 40)
    ∧ (NumText.fixed false 40).render = some "4.0" := by
  refine ⟨?_, by decide, by decide⟩
  intro prev data dist t hdist htot hp hn hg ht0 ht
  generalize hpv : dist.positive.getD 0 = p at hp
  generalize hnv : dist.neutral.getD 0 = n at hn
  generalize hgv : dist.negative.getD 0 = g at hg
  have hp' : p.natAbs ≤ 2 ^ 45 := by have := abs_le.mp hp; omega
  have hn' : n.natAbs ≤ 2 ^ 45 := by have := abs_le.mp hn; omega
  have hg' : g.natAbs ≤ 2 ^ 45 := by have := abs_le.mp hg; omega
  clear hp hn hg
  have hav : (fetchStats prev (some data)).averageRating
      = averageRating (count dist.positive) (count dist.neutral) (count dist.negative)
          (ofInt t) := by
    simp [fetchStats, computeMetrics, hdist, htot, total]
  rw [hav]
  obtain ⟨fp, vp⟩ := count_exact dist.positive (by rw [hpv]; exact hp')
  obtain ⟨fn, vn⟩ := count_exact dist.neutral (by rw [hnv]; exact hn')
  obtain ⟨fg, vg⟩ := count_exact dist.negative (by rw [hgv]; exact hg')
  rw [hpv] at vp
  rw [hnv] at vn
  rw [hgv] at vg
  obtain ⟨f5, v5⟩ := ofInt_exact 5 (by norm_num)
  obtain ⟨f3, v3⟩ := ofInt_exact 3 (by norm_num)
  obtain ⟨f1, v1⟩ := ofInt_exact 1 (by norm_num)
  obtain ⟨ft, vt⟩ := ofInt_exact t (by omega)
  obtain ⟨fm1, vm1⟩ := mul_exact _ _ fp f5 (p * 5) (by rw [vp, v5]; push_cast; ring) (by omega)
  obtain ⟨fm2, vm2⟩ := mul_exact _ _ fn f3 (n * 3) (by rw [vn, v3]; push_cast; ring) (by omega)
  obtain ⟨fm3, vm3⟩ := mul_exact _ _ fg f1 (g * 1) (by rw [vg, v1]; push_cast; ring) (by omega)
  obtain ⟨fa1, va1⟩ := add_exact _ _ fm1 fm2 (p * 5 + n * 3) (by rw [vm1, vm2]; push_cast; ring)
    (by omega)
  obtain ⟨fa2, va2⟩ := add_exact _ _ fa1 fm3 (p * 5 + n * 3 + g * 1)
    (by rw [va1, vm3]; push_cast; ring) (by omega)
  simp only [averageRating, textOrZero, NumText.truthy, if_true]
  generalize hN : p * 5 + n * 3 + g * 1 = N at va2
  have hNq : (5 * p + 3 * n + g : ℚ) = (N : ℚ) := by rw [← hN]; push_cast; ring
  rw [hNq]
  have ht' : (0 : ℚ) < t := by exact_mod_cast ht0
  by_cases hN0 : N = 0
  · have hd := div_zero_num _ _ fa2 ft (by rw [va2, hN0]; simp) (by rw [vt]; exact ht'.ne')
    refine ⟨false, 0, ?_, ?_⟩
    · rw [hd]; decide
    · rw [hN0]; norm_num
  · obtain ⟨M, b, e1, e2, e3⟩ := div_struct _ _ fa2 ft N t va2 vt hN0 (by omega) ht0 ht
    have htc : ((t.natAbs : Nat) : ℚ) = t := by rw [Nat.cast_natAbs, abs_of_pos ht0]
    rw [← htc] at e3
    obtain ⟨k, k1, k2, k3⟩ := toFixed1_struct (decide (N < 0)) M b e2 N.natAbs t.natAbs
      (Int.natAbs_pos.mpr hN0) (Int.natAbs_pos.mpr ht0.ne') (by omega) e3
    simp only [decide_eq_true_eq] at k1
    refine ⟨decide (N < 0), k, ?_, ?_⟩
    · rw [e1, k1]
    · have k2' : 2 * (k : ℚ) * t ≤ 20 * (N.natAbs : ℚ) + t := by
        rw [← htc]; exact_mod_cast k2
      have k3' : 20 * (N.natAbs : ℚ) ≤ 2 * (k : ℚ) * t + t := by
        rw [← htc]; exact_mod_cast k3
      simp only [decide_eq_true_eq]
      by_cases hneg : N < 0
      · have hA : ((N.natAbs : Nat) : ℚ) = -(N : ℚ) := by
          rw [Nat.cast_natAbs, abs_of_neg hneg]; push_cast; ring
        rw [hA] at k2' k3'
        rw [if_pos hneg, abs_le]
        constructor
        · rw [← sub_nonneg]
          have : -1 * ((k : ℚ) / 10) - (N : ℚ) / t - -(1 / 20)
              = (20 * -(N : ℚ) + t - 2 * (k : ℚ) * t) / (20 * t) := by
            field_simp; ring
          rw [this]
          exact div_nonneg (by linarith) (by positivity)
        · rw [← sub_nonneg]
          have : 1 / 20 - (-1 * ((k : ℚ) / 10) - (N : ℚ) / t)
              = (2 * (k : ℚ) * t + t - 20 * -(N : ℚ)) / (20 * t) := by
            field_simp; ring
          rw [this]
          exact div_nonneg (by linarith) (by positivity)
      · push_neg at hneg
        have hA : ((N.natAbs : Nat) : ℚ) = (N : ℚ) := by
          rw [Nat.cast_natAbs, abs_of_nonneg hneg]
        rw [hA] at k2' k3'
        rw [if_neg (not_lt.mpr hneg), abs_le]
        constructor
        · rw [← sub_nonneg]
          have : 1 * ((k : ℚ) / 10) - (N : ℚ) / t - -(1 / 20)
              = (2 * (k : ℚ) * t + t - 20 * (N : ℚ)) / (20 * t) := by
            field_simp; ring
          rw [this]
          exact div_nonneg (by linarith) (by positivity)
        · rw [← sub_nonneg]
          have : 1 / 20 - (1 * ((k : ℚ) / 10) - (N : ℚ) / t)
              = (20 * (N : ℚ) + t - 2 * (k : ℚ) * t) / (20 * t) := by
            field_simp; ring
          rw [this]
          exact div_nonneg (by linarith) (by positivity)

set_option maxRecDepth 100000 in
/-- Witness for C2 (amended): 7 negative and 13 positive reviews of 20 in total, with
no neutral count in the payload; the exact average is 3.6. -/
theorem C2_averageRating_nearest_tenth_witness :
    ∃ (neg : Bool) (k : Nat),
      (fetchStats initialMetrics (some
        { total_reviews := some 20
          sentiment_distribution :=
            some { positive := some 13, negative := some 7, neutral := none } })).averageRating
        = Value.text (NumText.fixed neg k)
      ∧ |(if neg then -1 else 1) * ((k : ℚ) / 10)
          - (5 * ((some 13 : Option Int).getD 0) + 3 * ((none : Option Int).getD 0)
              + ((some 7 : Option Int).getD 0) : ℚ) / (20 : Int)| ≤ 1 / 20 :=
  C2_averageRating_nearest_tenth.1 initialMetrics
    { total_reviews := some 20
      sentiment_distribution :=
        some { positive := some 13, negative := some 7, neutral := none } }
    { positive := some 13, negative := some 7, neutral := none } 20 rfl rfl
    (by norm_num) (by norm_num) (by norm_num) (by norm_num) (by norm_num)

set_option maxRecDepth 100000 in
/-- C3: for a payload with `total_reviews` 0 and one positive review, `fetchStats`
stores the percentage `Infinity`: the guard `|| 0` replaces `NaN` only.  When the
counts are 0 as well, both percentages are 0. -/
theorem C3_percentage_infinite_at_zero_total :
    (fetchStats initialMetrics (some (statsOf 1 0 0 0))).positivePercentage = Number.inf false
    ∧ (fetchStats initialMetrics (some (statsOf 0 0 1 0))).negativePercentage = Number.inf false
    ∧ (fetchStats initialMetrics (some (statsOf 0 0 0 0))).positivePercentage = Number.fin 0 1
    ∧ (fetchStats initialMetrics (some (statsOf 0 0 0 0))).negativePercentage = Number.fin 0 1 := by
  decide

set_option maxRecDepth 100000 in
/-- C4: for a payload with `total_reviews` 0 and all counts 0, `fetchStats` stores
the string `NaN` as `averageRating`, not the number 0: `toFixed` returns a
non-empty string, which is truthy, so `|| 0` never applies. -/
theorem C4_averageRating_text_at_zero_total :
    (fetchStats initialMetrics (some (statsOf 0 0 0 0))).averageRating = Value.text NumText.nan
    ∧ NumText.nan.render = some "NaN"
    ∧ (fetchStats initialMetrics (some (statsOf 0 0 0 0))).averageRating
        ≠ Value.number (Number.fin 0 1)
    ∧ (fetchStats initialMetrics (some (statsOf 2 0 0 0))).averageRating
        = Value.text (NumText.infinity false) := by
  decide

set_option maxRecDepth 100000 in
/-- C5, as stated, fails: a payload whose total (20) differs from the sum of its
counts (6 + 3 + 1), and a payload with a negative count, are not rejected; the
displayed metrics are replaced by values computed from them. -/
theorem C5_malformed_counts_accepted :
    fetchStats initialMetrics (some (statsOf 6 3 1 20)) =
      { totalReviews := some (ofInt 20), positivePercentage := Number.fin 30 1,
        negativePercentage := Number.fin 5 1,
        averageRating := Value.text (NumText.fixed false 20) }
    ∧ fetchStats initialMetrics (some (statsOf (-5) 3 1 10)) =
      { totalReviews := some (ofInt 10), positivePercentage := Number.fin (-50) 1,
        negativePercentage := Number.fin 10 1,
        averageRating := Value.text (NumText.fixed true 15) } := by
  decide

set_option maxRecDepth 100000 in
/-- C5, amended: `fetchStats` validates nothing.  For every payload that carries a
`sentiment_distribution` object, whatever its counts, the displayed metrics are
replaced, independently of the previous ones: `totalReviews` becomes the payload's
`total_reviews`, which is the binary64 value of the integer in the document (the
integer itself when its magnitude is below `2 ^ 53`, while 9007199254740993 is
stored as 9007199254740992), and the other three fields are computed from the
payload's counts. -/
theorem C5_fetchStats_replaces_metrics (prev : Metrics) (data : StatsData)
    (dist : SentimentDistribution) (h : data.sentiment_distribution = some dist) :
    (fetchStats prev (some data)).totalReviews = data.total_reviews.map ofInt
    ∧ (∀ t : Int, data.total_reviews = some t → t.natAbs < 2 ^ 53 →
        ∃ x : Number, (fetchStats prev (some data)).totalReviews = some x
          ∧ x.IsFinite ∧ x.value = t)
    ∧ (fetchStats prev (some (statsOf 6 3 1 9007199254740993))).totalReviews
        = some (Number.fin 9007199254740992 1)
    ∧ (fetchStats prev (some data)).positivePercentage
        = percentage (count dist.positive) (total data.total_reviews)
    ∧ (fetchStats prev (some data)).negativePercentage
        = percentage (count dist.negative) (total data.total_reviews)
    ∧ (fetchStats prev (some data)).averageRating
        = averageRating (count dist.positive) (count dist.neutral) (count dist.negative)
            (total data.total_reviews)
    ∧ fetchStats prev (some data) = fetchStats initialMetrics (some data) := by
  have hv : (fetchStats prev (some (statsOf 6 3 1 9007199254740993))).totalReviews
      = some (Number.fin 9007199254740992 1) := by
    have e : ofInt 9007199254740993 = Number.fin 9007199254740992 1 := by decide
    simp [fetchStats, computeMetrics, statsOf, e]
  refine ⟨by simp [fetchStats, computeMetrics, h], ?_, hv, by simp [fetchStats, computeMetrics, h],
    by simp [fetchStats, computeMetrics, h], by simp [fetchStats, computeMetrics, h],
    by simp [fetchStats, computeMetrics, h]⟩
  intro t ht hb
  refine ⟨ofInt t, by simp [fetchStats, computeMetrics, h, ht], ofInt_exact t hb⟩

set_option maxRecDepth 100000 in
/-- Witness for C5 (amended), at a payload with a negative count. -/
theorem C5_fetchStats_replaces_metrics_witness :
    (statsOf (-5) 3 1 10).sentiment_distribution
        = some { positive := some (-5), negative := some 1, neutral := some 3 }
    ∧ (fetchStats initialMetrics (some (statsOf (-5) 3 1 10))).positivePercentage
        = Number.fin (-50) 1 := by
  refine ⟨rfl, ?_⟩
  have h := C5_fetchStats_replaces_metrics initialMetrics (statsOf (-5) 3 1 10)
    { positive := some (-5), negative := some 1, neutral := some 3 } rfl
  rw [h.2.2.2.1]
  decide

/-- C8, as stated, fails: starting from `[1, 5]`, a rating update with the pair
`[7, 0]` (both bounds outside 1..5 and min above max) is stored as given by
`Reviews.handleFilterChange` and by `Filters.handleRatingChange`. -/
theorem C8_invalid_rating_stored :
    (Reviews.handleFilterChange Reviews.initialFilters
        (Reviews.FilterChange.rating (7, 0))).rating = (7, 0)
    ∧ (Filters.handleRatingChange Filters.initialState (7, 0)).rating = (7, 0)
    ∧ ¬ ValidRating (7, 0) := by
  decide

/-- C8, amended: neither handler checks a rating update; each stores the pair it is
given.  Hence, starting from `[1, 5]`, the stored range satisfies
`1 ≤ min ≤ max ≤ 5` after any sequence of updates in which every rating pair
passed to the handlers satisfies it. -/
theorem C8_rating_valid_when_updates_valid :
    (∀ (st : Reviews.FilterState) (v : Int × Int),
        (Reviews.handleFilterChange st (Reviews.FilterChange.rating v)).rating = v)
    ∧ (∀ (st : Filters.State) (v : Int × Int), (Filters.handleRatingChange st v).rating = v)
    ∧ (∀ changes : List Reviews.FilterChange,
        (∀ v, Reviews.FilterChange.rating v ∈ changes → ValidRating v) →
        ValidRating (Reviews.applyChanges Reviews.initialFilters changes).rating)
    ∧ (∀ values : List (Int × Int),
        (∀ v ∈ values, ValidRating v) →
        ValidRating (Filters.applyRatings Filters.initialState values).rating) := by
  refine ⟨fun _ _ => rfl, fun _ _ => rfl, ?_, ?_⟩
  · intro changes
    have key : ∀ (cs : List Reviews.FilterChange) (st : Reviews.FilterState),
        ValidRating st.rating →
        (∀ v, Reviews.FilterChange.rating v ∈ cs → ValidRating v) →
        ValidRating (Reviews.applyChanges st cs).rating := by
      intro cs
      induction cs with
      | nil => intro st hst _; simpa [Reviews.applyChanges] using hst
      | cons c cs ih =>
        intro st hst hcs
        have hstep : ValidRating (Reviews.handleFilterChange st c).rating := by
          cases c with
          | rating v => exact hcs v (List.mem_cons_self _ _)
          | search v => exact hst
          | sentiments v => exact hst
          | languages v => exact hst
        have := ih (Reviews.handleFilterChange st c) hstep
          (fun v hv => hcs v (List.mem_cons_of_mem _ hv))
        simpa [Reviews.applyChanges] using this
    exact key changes Reviews.initialFilters (by decide)
  · intro values
    have key : ∀ (vs : List (Int × Int)) (st : Filters.State),
        ValidRating st.rating → (∀ v ∈ vs, ValidRating v) →
        ValidRating (Filters.applyRatings st vs).rating := by
      intro vs
      induction vs with
      | nil => intro st hst _; simpa [Filters.applyRatings] using hst
      | cons v vs ih =>
        intro st hst hvs
        have := ih (Filters.handleRatingChange st v) (hvs v (List.mem_cons_self _ _))
          (fun w hw => hvs w (List.mem_cons_of_mem _ hw))
        simpa [Filters.applyRatings] using this
    exact key values Filters.initialState (by decide)

/-- Witness for C8 (amended): the updates `[2, 4]`, a search text, `[3, 3]`. -/
theorem C8_rating_valid_when_updates_valid_witness :
    ValidRating (Reviews.applyChanges Reviews.initialFilters
      [Reviews.FilterChange.rating (2, 4), Reviews.FilterChange.search "good",
        Reviews.FilterChange.rating (3, 3)]).rating
    ∧ (Reviews.applyChanges Reviews.initialFilters
      [Reviews.FilterChange.rating (2, 4), Reviews.FilterChange.search "good",
        Reviews.FilterChange.rating (3, 3)]).rating = (3, 3) := by
  refine ⟨C8_rating_valid_when_updates_valid.2.2.1 _ ?_, by decide⟩
  intro v hv
  simp at hv
  rcases hv with rfl | rfl <;> decide

/-- Dropping white space from a list made of white space only leaves nothing. -/
theorem Analysis.dropWhile_whiteSpace (l : List Char)
    (h : ∀ c ∈ l, Analysis.isWhiteSpace c = true) :
    l.dropWhile Analysis.isWhiteSpace = [] := by
  induction l with
  | nil => rfl
  | cons c l ih =>
    have hc := h c (List.mem_cons_self _ _)
    simp only [List.dropWhile, hc]
    exact ih (fun d hd => h d (List.mem_cons_of_mem _ hd))

/-- C9: when the text is empty or consists only of white space, `analyzeSentiment`
sets the error message, leaves the rest of the state as it was, and sends no
request to `/api/analyze`, whatever the network would have answered. -/
theorem C9_blank_text_rejected_without_request (st : Analysis.State)
    (post : Analysis.Request → Analysis.Reply)
    (h : ∀ c ∈ st.text.data, Analysis.isWhiteSpace c = true) :
    (Analysis.analyzeSentiment st post).2 = []
    ∧ (Analysis.analyzeSentiment st post).1
        = { st with error := some "Please enter some text to analyze" } := by
  have ht : Analysis.trim st.text = "" := by
    unfold Analysis.trim
    rw [Analysis.dropWhile_whiteSpace _ h]
    rfl
  simp [Analysis.analyzeSentiment, ht]

/-- Witness for C9: the text made of a blank, a tab and a line feed. -/
theorem C9_blank_text_rejected_without_request_witness :
    (Analysis.analyzeSentiment { Analysis.initialState with text := " \t\n" }
      (fun _ => Analysis.Reply.rejected none none "Network Error")).2 = []
    ∧ (Analysis.analyzeSentiment { Analysis.initialState with text := " \t\n" }
      (fun _ => Analysis.Reply.rejected none none "Network Error")).1.error
        = some "Please enter some text to analyze" := by
  have h := C9_blank_text_rejected_without_request
    { Analysis.initialState with text := " \t\n" }
    (fun _ => Analysis.Reply.rejected none none "Network Error") (by decide)
  exact ⟨h.1, by rw [h.2]⟩

/-- C10, as stated, fails: for the ratings 6, 0 and `null`, `handleRatingChange`
sends a request carrying that rating to `/api/rate`, and when the answer reports
success it calls `onRatingChange` with it. -/
theorem C10_out_of_range_rating_sent :
    (StarRating.handleRatingChange (some 1) true (fun _ => some true) (some 6)).requests
        = [{ reviewId := some 1, rating := some 6 }]
    ∧ (StarRating.handleRatingChange (some 1) true (fun _ => some true) (some 6)).notified
        = [some 6]
    ∧ (StarRating.handleRatingChange (some 1) true (fun _ => some true) (some 0)).requests
        = [{ reviewId := some 1, rating := some 0 }]
    ∧ (StarRating.handleRatingChange (some 1) true (fun _ => some true) none).requests
        = [{ reviewId := some 1, rating := none }] := by
  decide

/-- C10, amended: `handleRatingChange` checks nothing.  For every review id and every
rating value, in 1..5 or not, it stores the value, sends exactly one request to
`/api/rate` carrying the id and the value, and calls `onRatingChange` with that
value exactly when the answer reports success (and the callback was supplied). -/
theorem C10_rating_always_sent (reviewId : Option Int) (hasCallback : Bool)
    (post : StarRating.Request → Option Bool) (newValue : Option Int) :
    (StarRating.handleRatingChange reviewId hasCallback post newValue).requests
        = [{ reviewId := reviewId, rating := newValue }]
    ∧ (StarRating.handleRatingChange reviewId hasCallback post newValue).rating = newValue
    ∧ (StarRating.handleRatingChange reviewId hasCallback post newValue).notified
        = (if post { reviewId := reviewId, rating := newValue } = some true ∧ hasCallback = true
            then [newValue] else []) := by
  refine ⟨rfl, rfl, ?_⟩
  simp only [StarRating.handleRatingChange]
  rcases hp : post { reviewId := reviewId, rating := newValue } with _ | b
  · simp
  · cases b <;> cases hasCallback <;> simp

/-! ### Analysis, review list and selections -/

/-- C11: when the payload of `/api/analyze` reports `success` false, the message that
`analyzeSentiment` stores is the payload's `details` when it is present, otherwise
the payload's `error` when it is present, otherwise `Analysis failed`; a string is
present when it is there and not empty (the empty string is falsy, like an absent
one).  The result state is left unchanged. -/
theorem C11_error_message_details_then_error (st : Analysis.State)
    (post : Analysis.Request → Analysis.Reply) (payload : Analysis.Payload)
    (htext : Analysis.trim st.text ≠ "")
    (hpost : post { text := st.text, language := st.language } = Analysis.Reply.resolved payload)
    (hfail : payload.success = false) :
    (Analysis.analyzeSentiment st post).1.result = st.result
    ∧ (∀ d, payload.details = some d → d ≠ "" →
        (Analysis.analyzeSentiment st post).1.error = some d)
    ∧ (∀ e, (payload.details = none ∨ payload.details = some "") → payload.error = some e →
        e ≠ "" → (Analysis.analyzeSentiment st post).1.error = some e)
    ∧ ((payload.details = none ∨ payload.details = some "") →
        (payload.error = none ∨ payload.error = some "") →
        (Analysis.analyzeSentiment st post).1.error = some "Analysis failed")
    ∧ (Analysis.analyzeSentiment st post).2 = [{ text := st.text, language := st.language }] := by
  refine ⟨?_, ?_, ?_, ?_, ?_⟩
  · simp [Analysis.analyzeSentiment, htext, hpost, hfail]
  · intro d hd hne
    simp [Analysis.analyzeSentiment, htext, hpost, hfail, Analysis.orElse, hd, hne]
  · intro e hd he hne
    rcases hd with hd | hd <;>
      simp [Analysis.analyzeSentiment, htext, hpost, hfail, Analysis.orElse, hd, he, hne]
  · intro hd he
    rcases hd with hd | hd <;> rcases he with he | he <;>
      simp [Analysis.analyzeSentiment, htext, hpost, hfail, Analysis.orElse, hd, he]
  · simp [Analysis.analyzeSentiment, htext]

/-- Witness for C11: a payload with both `details` and `error`. -/
theorem C11_error_message_details_then_error_witness :
    (Analysis.analyzeSentiment { Analysis.initialState with text := "fine" }
      (fun _ => Analysis.Reply.resolved
        { success := false, error := some "Analysis failed on the server",
          details := some "model not loaded", data := none })).1.error
      = some "model not loaded" := by
  have h := C11_error_message_details_then_error
    { Analysis.initialState with text := "fine" }
    (fun _ => Analysis.Reply.resolved
      { success := false, error := some "Analysis failed on the server",
        details := some "model not loaded", data := none })
    { success := false, error := some "Analysis failed on the server",
      details := some "model not loaded", data := none }
    (by decide) rfl rfl
  exact h.2.1 "model not loaded" rfl (by decide)

open Reviews in
/-- C12, as stated, fails: fetch A (answer: the review 1) is issued, then fetch B
(answer: the review 2) while A is outstanding; B ends first and A second.  The
visible list is then A's, not B's. -/
theorem C12_stale_result_overwrites :
    (fetchRun (fun _ => Number.nan) initialPage
      [FetchEvent.issued, FetchEvent.issued,
        FetchEvent.settled "t2" (successOf [reviewOf 2 (Json.number (Number.fin 5 1))]),
        FetchEvent.settled "t1" (successOf [reviewOf 1 (Json.number (Number.fin 4 1))])]).reviews
      = visibleOf (fun _ => Number.nan) "t1" (successOf [reviewOf 1 (Json.number (Number.fin 4 1))])
    ∧ visibleOf (fun _ => Number.nan) "t1" (successOf [reviewOf 1 (Json.number (Number.fin 4 1))])
      ≠ visibleOf (fun _ => Number.nan) "t2" (successOf [reviewOf 2 (Json.number (Number.fin 5 1))])
    ∧ (visibleOf (fun _ => Number.nan) "t1"
        (successOf [reviewOf 1 (Json.number (Number.fin 4 1))])).map (fun r => r.id)
      = [Json.number (Number.fin 1 1)] := by
  decide

open Reviews in
/-- C12, amended: `fetchReviews` keeps no record of which request was issued last.
When fetch A and then fetch B are issued and both end, the visible review list is
the result of the request that ended last: B's when A ends first, A's when B ends
first (then A's result overwrites B's). -/
theorem C12_last_settled_wins (stringToNumber : String → Number) (st : PageState)
    (nowA nowB : String) (resultA resultB : FetchResult) :
    (fetchRun stringToNumber st
      [FetchEvent.issued, FetchEvent.issued, FetchEvent.settled nowA resultA,
        FetchEvent.settled nowB resultB]).reviews = visibleOf stringToNumber nowB resultB
    ∧ (fetchRun stringToNumber st
      [FetchEvent.issued, FetchEvent.issued, FetchEvent.settled nowB resultB,
        FetchEvent.settled nowA resultA]).reviews = visibleOf stringToNumber nowA resultA := by
  have key : ∀ (now : String) (r : FetchResult) (s : PageState),
      (fetchSettle stringToNumber now s r).reviews = visibleOf stringToNumber now r := by
    intro now r s
    unfold visibleOf fetchSettle
    rcases r with _ | n | data
    · rfl
    · rfl
    · rcases data with ⟨success, reviews, error⟩
      cases success <;> cases reviews <;> try rfl
      rename_i elements
      simp only []
      cases mapReviews stringToNumber now elements <;> rfl
  exact ⟨key _ _ _, key _ _ _⟩

/-- C13: the call of `onFilterChange` sits in the initialiser of a `useState` call,
so it is made once, at the first render, with the initial criteria, and never
again.  After the search text is changed to `great` the criteria last passed to
`onFilterChange` still have the empty search text. -/
theorem C13_observer_not_notified :
    (∀ events : List Filters.Event,
      (Filters.mount.run events).notified = [Filters.criteria Filters.initialState])
    ∧ (Filters.mount.run [Filters.Event.searchChange "great"]).notified.getLast?
        = some { search := "", sentiments := [], rating := (1, 5), languages := [] }
    ∧ Filters.criteria (Filters.mount.run [Filters.Event.searchChange "great"]).state
        = { search := "great", sentiments := [], rating := (1, 5), languages := [] } := by
  refine ⟨?_, by decide, by decide⟩
  intro events
  have key : ∀ (es : List Filters.Event) (c : Filters.Mounted),
      (c.run es).notified = c.notified := by
    intro es
    induction es with
    | nil => intro c; rfl
    | cons e es ih =>
      intro c
      have := ih (c.dispatch e)
      simpa [Filters.Mounted.run, Filters.Mounted.dispatch] using this
  exact key events Filters.mount

/-- On an array without `null` the callback is applied to every element. -/
theorem Reviews.mapReviews_map_some (stringToNumber : String → Number) (now : String)
    (reviews : List Reviews.RawReview) :
    Reviews.mapReviews stringToNumber now (reviews.map some)
      = some (reviews.map (Reviews.normalizeReview stringToNumber now)) := by
  induction reviews with
  | nil => rfl
  | cons r rest ih => simp [Reviews.mapReviews, ih]

/-- On an array with a `null` element the mapping throws. -/
theorem Reviews.mapReviews_null (stringToNumber : String → Number) (now : String) :
    ∀ elements : List (Option Reviews.RawReview), none ∈ elements →
      Reviews.mapReviews stringToNumber now elements = none := by
  intro elements
  induction elements with
  | nil => intro h; simp at h
  | cons e rest ih =>
    intro h
    cases e with
    | none => rfl
    | some r =>
      have h2 : none ∈ rest := by simpa using h
      simp [Reviews.mapReviews, ih h2]

/-- An array without a `null` element is a list of reviews. -/
theorem Reviews.elements_without_null :
    ∀ elements : List (Option Reviews.RawReview), none ∉ elements →
      ∃ reviews : List Reviews.RawReview, elements = reviews.map some := by
  intro elements
  induction elements with
  | nil => intro _; exact ⟨[], rfl⟩
  | cons e rest ih =>
    intro h
    have h1 : none ∉ rest := fun hm => h (List.mem_cons_of_mem _ hm)
    obtain ⟨rs, hrs⟩ := ih h1
    cases e with
    | none => exact absurd (List.mem_cons_self _ _) h
    | some r => exact ⟨r :: rs, by rw [hrs]; rfl⟩

open Reviews in
/-- C14, as stated, fails: the response `{success: true, reviews: [{id: 1,
star_rating: 4}, null]}` has `success` true and an array of length 2, and the
visible list after it is empty, with the error message set: the callback of `map`
throws on the `null` element and the `catch` block runs. -/
theorem C14_null_element_empties_list :
    fetchReviews (fun _ => Number.nan) "now" initialPage
        (responseOf [some (reviewOf 1 (Json.number (Number.fin 4 1))), none])
      = { reviews := [], loading := false,
          error := some "Unable to load reviews. Please try again later." }
    ∧ (fetchReviews (fun _ => Number.nan) "now" initialPage
        (responseOf [some (reviewOf 1 (Json.number (Number.fin 4 1))), none])).reviews.length
      ≠ [some (reviewOf 1 (Json.number (Number.fin 4 1))), none].length := by
  decide

open Reviews in
/-- C14, amended: for a successful response (`success` true, `reviews` an array)
none of whose elements is `null`, the visible list set by `fetchReviews` has the
length of the response list and its i-th element has the id of the i-th review of
the response; no error is set and loading ends; an empty response list gives an
empty visible list.  When an element of the array is `null` the visible list is
empty and the error message is set.  Every array is of one of these two kinds. -/
theorem C14_visible_list_matches_response (stringToNumber : String → Number) (now : String)
    (st : PageState) (data : ReviewsData) (elements : List (Option RawReview))
    (hs : data.success = true) (hr : data.reviews = some elements) :
    (∀ reviews : List RawReview, elements = reviews.map some →
      (fetchReviews stringToNumber now st (FetchResult.json data)).reviews.length
          = reviews.length
      ∧ (∀ i : Nat,
          ((fetchReviews stringToNumber now st (FetchResult.json data)).reviews[i]?).map
            (fun r => r.id) = (reviews[i]?).map (fun r => r.id))
      ∧ (fetchReviews stringToNumber now st (FetchResult.json data)).error = none
      ∧ (fetchReviews stringToNumber now st (FetchResult.json data)).loading = false
      ∧ (reviews = [] →
          (fetchReviews stringToNumber now st (FetchResult.json data)).reviews = []))
    ∧ (none ∈ elements →
      (fetchReviews stringToNumber now st (FetchResult.json data)).reviews = []
      ∧ (fetchReviews stringToNumber now st (FetchResult.json data)).error
          = some "Unable to load reviews. Please try again later."
      ∧ (fetchReviews stringToNumber now st (FetchResult.json data)).loading = false)
    ∧ (none ∉ elements → ∃ reviews : List RawReview, elements = reviews.map some) := by
  refine ⟨?_, ?_, elements_without_null elements⟩
  · intro reviews he
    have h : fetchReviews stringToNumber now st (FetchResult.json data) =
        { reviews := reviews.map (normalizeReview stringToNumber now), loading := false,
          error := none } := by
      simp [fetchReviews, fetchSettle, fetchStart, hs, hr, he, mapReviews_map_some]
    rw [h]
    refine ⟨by simp, ?_, rfl, rfl, ?_⟩
    · intro i
      simp only [List.getElem?_map, Option.map_map]
      rfl
    · intro hempty
      simp [hempty]
  · intro hnull
    have h : fetchReviews stringToNumber now st (FetchResult.json data) =
        { reviews := [], loading := false,
          error := some "Unable to load reviews. Please try again later." } := by
      simp [fetchReviews, fetchSettle, fetchStart, hs, hr,
        mapReviews_null stringToNumber now elements hnull]
    rw [h]
    exact ⟨rfl, rfl, rfl⟩

open Reviews in
/-- Witness for C14 (amended): a response with two reviews, and the empty response. -/
theorem C14_visible_list_matches_response_witness :
    (fetchReviews (fun _ => Number.nan) "now" initialPage
      (successOf [reviewOf 7 (Json.number (Number.fin 4 1)), reviewOf 3 Json.undefined])
      ).reviews.length = 2
    ∧ (fetchReviews (fun _ => Number.nan) "now" initialPage (successOf [])).reviews = [] := by
  constructor
  · exact ((C14_visible_list_matches_response (fun _ => Number.nan) "now" initialPage
      { success := true
        reviews := some [some (reviewOf 7 (Json.number (Number.fin 4 1))),
          some (reviewOf 3 Json.undefined)]
        error := none }
      [some (reviewOf 7 (Json.number (Number.fin 4 1))), some (reviewOf 3 Json.undefined)]
      rfl rfl).1
      [reviewOf 7 (Json.number (Number.fin 4 1)), reviewOf 3 Json.undefined] rfl).1
  · exact ((C14_visible_list_matches_response (fun _ => Number.nan) "now" initialPage
      { success := true, reviews := some [], error := none } [] rfl rfl).1
      [] rfl).2.2.2.2 rfl

/-- The number 0 is not an integer from 1 to 5. -/
theorem not_isStarRating_zero : ¬ IsStarRating (Number.fin 0 1) := by
  rintro ⟨k, h1, _, _, hv⟩
  simp only [Number.value, Int.cast_zero, Nat.cast_one, div_one] at hv
  have : k = 0 := by exact_mod_cast hv.symm
  omega

/-- An integer from 1 to 5 is truthy. -/
theorem truthy_of_isStarRating (x : Number) (h : IsStarRating x) : truthy x = true := by
  obtain ⟨k, h1, _, hf, hv⟩ := h
  cases x with
  | nan => exact absurd hf (by simp [Number.IsFinite])
  | inf s => exact absurd hf (by simp [Number.IsFinite])
  | fin a b =>
    simp only [truthy, decide_eq_true_eq]
    rintro rfl
    simp only [Number.value, Int.cast_zero, zero_div] at hv
    have : k = 0 := by exact_mod_cast hv.symm
    omega

/-- The expression `x || 0` is never `NaN`. -/
theorem orZero_ne_nan (x : Number) : orZero x ≠ Number.nan := by
  unfold orZero
  cases x with
  | nan => simp [truthy]
  | inf s => simp [truthy]
  | fin a b => by_cases h : a = 0 <;> simp [truthy, h]

open Reviews in
/-- C16, as stated, fails: a review whose `star_rating` is missing from the payload,
and one whose `star_rating` is the text `five`, are placed in the visible list with
the star rating 0, which is not in 1..5; a payload value 7 is kept as 7. -/
theorem C16_missing_star_rating_is_zero :
    (fetchReviews (fun _ => Number.nan) "now" initialPage
      (successOf [reviewOf 1 Json.undefined, reviewOf 2 (Json.string "five"),
        reviewOf 3 (Json.number (Number.fin 7 1))])).reviews.map (fun r => r.star_rating)
      = [Number.fin 0 1, Number.fin 0 1, Number.fin 7 1]
    ∧ ¬ IsStarRating (Number.fin 0 1) := by
  exact ⟨by decide, not_isStarRating_zero⟩

open Reviews in
/-- C16, amended: for every successful response, every review that `fetchReviews`
places in the visible list comes from a review of the payload and has a
`star_rating` that is a number other than `NaN`: the payload's `star_rating`
converted by `Number`, or 0 when the conversion gives `NaN` or 0, as it does for a
missing value.  It is an integer from 1 to 5 exactly when the converted payload
value is one. -/
theorem C16_star_rating_number_or_zero (stringToNumber : String → Number) (now : String)
    (st : PageState) (data : ReviewsData) (elements : List (Option RawReview))
    (hs : data.success = true) (hr : data.reviews = some elements) :
    ∀ r ∈ (fetchReviews stringToNumber now st (FetchResult.json data)).reviews,
      ∃ raw, some raw ∈ elements ∧ r.id = raw.id
        ∧ r.star_rating ≠ Number.nan
        ∧ (truthy (raw.star_rating.toNumber stringToNumber) = true →
            r.star_rating = raw.star_rating.toNumber stringToNumber)
        ∧ (truthy (raw.star_rating.toNumber stringToNumber) = false →
            r.star_rating = Number.fin 0 1)
        ∧ (raw.star_rating = Json.undefined → r.star_rating = Number.fin 0 1)
        ∧ (IsStarRating r.star_rating ↔
            IsStarRating (raw.star_rating.toNumber stringToNumber)) := by
  intro r hmem
  have hraw : ∃ raw, some raw ∈ elements ∧ r = normalizeReview stringToNumber now raw := by
    by_cases hnull : none ∈ elements
    · have h : (fetchReviews stringToNumber now st (FetchResult.json data)).reviews = [] := by
        simp [fetchReviews, fetchSettle, fetchStart, hs, hr,
          mapReviews_null stringToNumber now elements hnull]
      rw [h] at hmem
      simp at hmem
    · obtain ⟨reviews, he⟩ := elements_without_null elements hnull
      have h : (fetchReviews stringToNumber now st (FetchResult.json data)).reviews =
          reviews.map (normalizeReview stringToNumber now) := by
        simp [fetchReviews, fetchSettle, fetchStart, hs, hr, he, mapReviews_map_some]
      rw [h] at hmem
      obtain ⟨raw, hr1, hr2⟩ := List.mem_map.mp hmem
      exact ⟨raw, by rw [he]; exact List.mem_map.mpr ⟨raw, hr1, rfl⟩, hr2.symm⟩
  obtain ⟨raw, hraw, rfl⟩ := hraw
  refine ⟨raw, hraw, rfl, orZero_ne_nan _, ?_, ?_, ?_, ?_⟩
  · intro ht
    simp [normalizeReview, orZero, ht]
  · intro ht
    simp [normalizeReview, orZero, ht]
  · intro hu
    simp [normalizeReview, orZero, hu, Json.toNumber, truthy]
  · constructor
    · intro hstar
      by_cases ht : truthy (raw.star_rating.toNumber stringToNumber) = true
      · simpa [normalizeReview, orZero, ht] using hstar
      · exfalso
        have : (normalizeReview stringToNumber now raw).star_rating = Number.fin 0 1 := by
          simp [normalizeReview, orZero, ht]
        rw [this] at hstar
        exact not_isStarRating_zero hstar
    · intro hstar
      have ht := truthy_of_isStarRating _ hstar
      simpa [normalizeReview, orZero, ht] using hstar

open Reviews in
/-- Witness for C16 (amended): a review with the star rating 4 and one without. -/
theorem C16_star_rating_number_or_zero_witness :
    normalizeReview (fun _ => Number.nan) "now" (reviewOf 3 Json.undefined)
        ∈ (fetchReviews (fun _ => Number.nan) "now" initialPage
            (successOf [reviewOf 7 (Json.number (Number.fin 4 1)),
              reviewOf 3 Json.undefined])).reviews
    ∧ (normalizeReview (fun _ => Number.nan) "now" (reviewOf 3 Json.undefined)).star_rating
        ≠ Number.nan := by
  have hmem : normalizeReview (fun _ => Number.nan) "now" (reviewOf 3 Json.undefined)
      ∈ (fetchReviews (fun _ => Number.nan) "now" initialPage
          (successOf [reviewOf 7 (Json.number (Number.fin 4 1)),
            reviewOf 3 Json.undefined])).reviews := by
    simp [fetchReviews, fetchSettle, fetchStart, successOf, responseOf, mapReviews]
  obtain ⟨_, _, _, h, _⟩ := C16_star_rating_number_or_zero (fun _ => Number.nan) "now"
    initialPage
    { success := true
      reviews := some [some (reviewOf 7 (Json.number (Number.fin 4 1))),
        some (reviewOf 3 Json.undefined)]
      error := none }
    [some (reviewOf 7 (Json.number (Number.fin 4 1))), some (reviewOf 3 Json.undefined)]
    rfl rfl _ hmem
  exact ⟨hmem, h⟩

/-- A toggle keeps a selection free of duplicates. -/
theorem Reviews.toggle_nodup (xs : List String) (x : String) (h : xs.Nodup) :
    (Reviews.toggle xs x).Nodup := by
  unfold Reviews.toggle
  by_cases hx : x ∈ xs
  · have : xs.contains x = true := by simpa using hx
    rw [if_pos this]
    exact h.filter _
  · have : ¬ xs.contains x = true := by simpa using hx
    rw [if_neg this]
    exact List.nodup_append.mpr ⟨h, List.nodup_singleton x, by simpa using hx⟩

/-- C17: starting from the empty selections, after any sequence of clicks on the
sentiment and language buttons of the Reviews page, and after any sequence of
actions on the Filters component, no label occurs twice in the sentiment selection
or in the language selection. -/
theorem C17_selections_have_no_duplicates :
    (∀ clicks : List Reviews.Click,
      (clicks.foldl Reviews.click Reviews.initialFilters).sentiments.Nodup
      ∧ (clicks.foldl Reviews.click Reviews.initialFilters).languages.Nodup)
    ∧ (∀ events : List Filters.Event,
      (events.foldl Filters.handle Filters.initialState).selectedSentiments.Nodup
      ∧ (events.foldl Filters.handle Filters.initialState).selectedLanguages.Nodup) := by
  constructor
  · have key : ∀ (cs : List Reviews.Click) (f : Reviews.FilterState),
        f.sentiments.Nodup ∧ f.languages.Nodup →
        (cs.foldl Reviews.click f).sentiments.Nodup ∧ (cs.foldl Reviews.click f).languages.Nodup := by
      intro cs
      induction cs with
      | nil => intro f hf; exact hf
      | cons c cs ih =>
        intro f hf
        apply ih
        cases c with
        | sentiment l => exact ⟨Reviews.toggle_nodup _ _ hf.1, hf.2⟩
        | language l => exact ⟨hf.1, Reviews.toggle_nodup _ _ hf.2⟩
    exact fun clicks => key clicks _ ⟨List.nodup_nil, List.nodup_nil⟩
  · have key : ∀ (es : List Filters.Event) (s : Filters.State),
        s.selectedSentiments.Nodup ∧ s.selectedLanguages.Nodup →
        (es.foldl Filters.handle s).selectedSentiments.Nodup
          ∧ (es.foldl Filters.handle s).selectedLanguages.Nodup := by
      intro es
      induction es with
      | nil => intro s hs; exact hs
      | cons e es ih =>
        intro s hs
        apply ih
        cases e with
        | sentimentClick l => exact ⟨Reviews.toggle_nodup _ _ hs.1, hs.2⟩
        | languageClick l => exact ⟨hs.1, Reviews.toggle_nodup _ _ hs.2⟩
        | searchChange v => exact hs
        | ratingChange v => exact hs
    exact fun events => key events _ ⟨List.nodup_nil, List.nodup_nil⟩

open Reviews in
/-- C18: toggling `x` flips the membership of `x` and of no other label: `x` is in
the new selection if and only if it was not in the old one, every other label is in
the new selection if and only if it was in the old one, and the labels other than
`x` keep their order.  Toggling `x` twice gives a selection with the members of the
first. -/
theorem C18_toggle_flips_one_label (s : List String) (x : String) :
    (x ∈ toggle s x ↔ x ∉ s)
    ∧ (∀ y, y ≠ x → (y ∈ toggle s x ↔ y ∈ s))
    ∧ (toggle s x).filter (fun y => y != x) = s.filter (fun y => y != x)
    ∧ (∀ y, y ∈ toggle (toggle s x) x ↔ y ∈ s) := by
  have h1 : ∀ (t : List String), (x ∈ toggle t x ↔ x ∉ t) := by
    intro t
    unfold toggle
    by_cases hx : x ∈ t <;> simp [hx]
  have h2 : ∀ (t : List String) (y : String), y ≠ x → (y ∈ toggle t x ↔ y ∈ t) := by
    intro t y hy
    unfold toggle
    by_cases hx : x ∈ t <;> simp [hx, hy]
  refine ⟨h1 s, h2 s, ?_, ?_⟩
  · unfold toggle
    by_cases hx : x ∈ s
    · simp [hx, List.filter_filter]
    · simp [hx, List.filter_append]
  · intro y
    by_cases hy : y = x
    · subst hy
      rw [h1 (toggle s y), h1 s, not_not]
    · rw [h2 _ y hy, h2 _ y hy]

/-! ### Range of the percentages -/

namespace JS

/-- The result of `roundEven` is the truncated quotient or its successor. -/
theorem roundEven_cases (A B : Nat) :
    roundEven A B = A / B ∨ roundEven A B = A / B + 1 := by
  unfold roundEven
  simp only []
  split_ifs
  · exact Or.inl rfl
  · exact Or.inr rfl
  · rcases Nat.mod_two_eq_zero_or_one (A / B) with h | h <;> rw [h] <;> simp

/-- An upper bound on the quotient bounds `roundEven`. -/
theorem roundEven_le (A B U : Nat) (hB : 0 < B) (h : A ≤ U * B) : roundEven A B ≤ U := by
  obtain ⟨_, s2⟩ := roundEven_spec A B hB
  by_contra hc
  push_neg at hc
  have h1 : (U + 1) * B ≤ roundEven A B * B := Nat.mul_le_mul_right B hc
  have h2 : (U + 1) * B = U * B + B := by ring
  omega

/-- A lower bound on the quotient bounds `roundEven`. -/
theorem roundEven_ge (A B L : Nat) (hB : 0 < B) (h : L * B ≤ A) : L ≤ roundEven A B := by
  obtain ⟨s1, _⟩ := roundEven_spec A B hB
  by_contra hc
  push_neg at hc
  have h1 : (roundEven A B + 1) * B ≤ L * B := Nat.mul_le_mul_right B hc
  have h2 : (roundEven A B + 1) * B = roundEven A B * B + B := by ring
  omega

/-- The function `roundEven` is monotone in the numerator. -/
theorem roundEven_mono (A A' B : Nat) (h : A ≤ A') :
    roundEven A B ≤ roundEven A' B := by
  have hq : A / B ≤ A' / B := Nat.div_le_div_right h
  have hge : A' / B ≤ roundEven A' B := by
    rcases roundEven_cases A' B with e | e <;> omega
  rcases Nat.lt_or_ge (A / B) (A' / B) with hlt | hge'
  · rcases roundEven_cases A B with e | e <;> omega
  · have hqe : A / B = A' / B := le_antisymm hq hge'
    have d1 := Nat.div_add_mod A B
    have d2 := Nat.div_add_mod A' B
    have hr : A % B ≤ A' % B := by
      rw [hqe] at d1
      omega
    unfold roundEven
    simp only []
    rw [hqe]
    split_ifs <;> omega

/-- A positive quotient that is at most `K`, for a natural `K` below `2 ^ 52`, is
rounded to a finite number that is at most `K`; this holds for subnormal results
as well. -/
theorem roundRat_le (n d K : Nat) (hn : 0 < n) (hd : 0 < d) (hK : K < 2 ^ 52)
    (h : n ≤ K * d) :
    ∃ a b : Nat, roundRat false n d = Number.fin (a : Int) b ∧ 0 < b ∧ a ≤ K * b := by
  obtain ⟨h1, _⟩ := floorLog2_spec n d hn hd
  have hd' : (0 : ℚ) < d := by exact_mod_cast hd
  have hq : (n : ℚ) / d ≤ K := by
    rw [div_le_iff₀ hd']
    exact_mod_cast h
  have hK' : (K : ℚ) < (2 : ℚ) ^ (52 : Int) := by
    rw [show (52 : Int) = ((52 : Nat) : Int) by rfl, zpow_natCast]
    exact_mod_cast hK
  have he0 : floorLog2 n d < 52 := by
    by_contra hc
    push_neg at hc
    have : (2 : ℚ) ^ (52 : Int) ≤ (2 : ℚ) ^ floorLog2 n d :=
      zpow_le_zpow_right₀ (by norm_num) hc
    exact absurd (lt_of_le_of_lt (le_trans this (le_trans h1 hq)) hK') (lt_irrefl _)
  unfold roundRat
  simp only []
  generalize floorLog2 n d = e0 at he0
  rw [if_neg (by omega)]
  have hmax : max e0 (-1022) - 52 < 0 := by
    rcases le_total e0 (-1022) with hle | hle
    · rw [max_eq_right hle]; norm_num
    · rw [max_eq_left hle]; omega
  generalize max e0 (-1022) - 52 = e at hmax
  have hkp : e.toNat = 0 := by omega
  rw [if_neg (by omega), hkp]
  simp only [pow_zero, Nat.mul_one, if_false, Bool.false_eq_true, one_mul]
  refine ⟨_, _, rfl, pow_pos (by norm_num) _, ?_⟩
  apply roundEven_le _ _ _ hd
  calc n * 2 ^ (-e).toNat ≤ K * d * 2 ^ (-e).toNat := Nat.mul_le_mul_right _ h
    _ = K * 2 ^ (-e).toNat * d := by ring

/-- A non-negative quotient that is at most `K`, for a natural `K` below `2 ^ 52`,
is rounded to a finite non-negative number that is at most `K`. -/
theorem round_le (num : Int) (den K : Nat) (h0 : 0 ≤ num) (hd : 0 < den) (hK : K < 2 ^ 52)
    (h : num ≤ (K : Int) * den) :
    ∃ a b : Nat, round num den = Number.fin (a : Int) b ∧ 0 < b ∧ a ≤ K * b := by
  unfold round
  by_cases hz : num = 0
  · rw [if_pos hz]
    exact ⟨0, 1, rfl, by norm_num, by omega⟩
  · rw [if_neg hz]
    have hneg : decide (num < 0) = false := by simpa using h0
    rw [hneg]
    apply roundRat_le _ _ K (Int.natAbs_pos.mpr hz) hd hK
    have : (num.natAbs : Int) ≤ ((K * den : Nat) : Int) := by
      rw [Int.natAbs_of_nonneg h0]; push_cast; exact h
    exact_mod_cast this

end JS

namespace JS

/-- The function `log2` is monotone on positive numbers. -/
theorem log2_mono (p t : Nat) (hp : 0 < p) (h : p ≤ t) : log2 p ≤ log2 t := by
  obtain ⟨a1, _⟩ := log2_spec p hp
  obtain ⟨_, b2⟩ := log2_spec t (by omega)
  have : 2 ^ log2 p < 2 ^ (log2 t + 1) := by omega
  have := (Nat.pow_lt_pow_iff_right (by norm_num : 1 < 2)).mp this
  omega

/-- For a natural number the quotient by 1 has the logarithm of the number. -/
theorem floorLog2_one (n : Nat) (hn : 0 < n) : floorLog2 n 1 = (log2 n : Int) := by
  obtain ⟨a1, _⟩ := log2_spec n hn
  have h1 : log2 1 = 0 := by decide
  unfold floorLog2
  simp only [h1, Nat.cast_zero, sub_zero, Int.toNat_ofNat, one_mul]
  have : (-(log2 n : Int)).toNat = 0 := by omega
  rw [this, pow_zero, mul_one, if_pos a1]

/-- The binary64 value of a positive natural number: infinite from `2 ^ 1024` on and
when the significand rounds up to `2 ^ 1024`, otherwise significand times unit. -/
theorem ofInt_nat (n : Nat) (hn : 0 < n) :
    ofInt (n : Int) =
      if 1024 ≤ (log2 n : Int) ∨ (971 ≤ natExp n ∧ 2 ^ 53 ≤ natMant n) then Number.inf false
      else Number.fin ((natMant n * 2 ^ (natExp n).toNat : Nat) : Int)
        (2 ^ (-natExp n).toNat) := by
  have hne : (n : Int) ≠ 0 := by omega
  have hneg : decide ((n : Int) < 0) = false := by simp
  unfold ofInt round
  rw [if_neg hne, hneg, Int.natAbs_ofNat]
  unfold roundRat
  have hmax : max (log2 n : Int) (-1022) = (log2 n : Int) := max_eq_left (by omega)
  simp only [natExp, natMant, floorLog2_one n hn, hmax, one_mul]
  by_cases h1 : 1024 ≤ (log2 n : Int)
  · rw [if_pos h1, if_pos (Or.inl h1)]
  · rw [if_neg h1]
    by_cases h2 : 971 ≤ (log2 n : Int) - 52 ∧ 2 ^ 53 ≤
        roundEven (n * 2 ^ (-((log2 n : Int) - 52)).toNat) (2 ^ ((log2 n : Int) - 52).toNat)
    · rw [if_pos h2, if_pos (Or.inr h2)]
    · rw [if_neg h2, if_neg (not_or.mpr ⟨h1, h2⟩)]
      simp

/-- The significand of a positive natural number lies between `2 ^ 52` and `2 ^ 53`. -/
theorem natMant_bounds (n : Nat) (hn : 0 < n) : 2 ^ 52 ≤ natMant n ∧ natMant n ≤ 2 ^ 53 := by
  obtain ⟨a1, a2⟩ := log2_spec n hn
  unfold natMant natExp
  generalize log2 n = L at a1 a2
  have hB : 0 < 2 ^ ((L : Int) - 52).toNat := pow_pos (by norm_num) _
  rcases Nat.lt_or_ge L 52 with hL | hL
  · have kp : ((L : Int) - 52).toNat = 0 := by omega
    have kn : (-((L : Int) - 52)).toNat = 52 - L := by omega
    rw [kp, kn, pow_zero]
    have e1 : 2 ^ L * 2 ^ (52 - L) = 2 ^ 52 := by
      rw [← pow_add]; congr 1; omega
    have e2 : 2 ^ (L + 1) * 2 ^ (52 - L) = 2 ^ 53 := by
      rw [← pow_add]; congr 1; omega
    constructor
    · apply roundEven_ge _ _ _ (by norm_num)
      rw [mul_one, ← e1]
      exact Nat.mul_le_mul_right _ a1
    · apply roundEven_le _ _ _ (by norm_num)
      rw [mul_one, ← e2]
      exact Nat.mul_le_mul_right _ a2.le
  · have kp : ((L : Int) - 52).toNat = L - 52 := by omega
    have kn : (-((L : Int) - 52)).toNat = 0 := by omega
    rw [kp, kn, pow_zero, mul_one]
    have e1 : 2 ^ 52 * 2 ^ (L - 52) = 2 ^ L := by
      rw [← pow_add]; congr 1; omega
    have e2 : 2 ^ 53 * 2 ^ (L - 52) = 2 ^ (L + 1) := by
      rw [← pow_add]; congr 1; omega
    constructor
    · apply roundEven_ge _ _ _ (pow_pos (by norm_num) _)
      rw [e1]; exact a1
    · apply roundEven_le _ _ _ (pow_pos (by norm_num) _)
      rw [e2]; exact a2.le

/-- Reading natural numbers is monotone: for `0 < p ≤ t`, either `t` is read as
`Infinity`, or both are read as finite positive numbers, in the same order. -/
theorem ofInt_mono (p t : Nat) (hp : 0 < p) (h : p ≤ t) :
    ofInt (t : Int) = Number.inf false ∨
    ∃ a1 b1 a2 b2 : Nat, ofInt (p : Int) = Number.fin (a1 : Int) b1
      ∧ ofInt (t : Int) = Number.fin (a2 : Int) b2
      ∧ 0 < b1 ∧ 0 < b2 ∧ 0 < a1 ∧ a1 * b2 ≤ a2 * b1 := by
  have ht : 0 < t := by omega
  have hL := log2_mono p t hp h
  obtain ⟨mp1, mp2⟩ := natMant_bounds p hp
  obtain ⟨mt1, mt2⟩ := natMant_bounds t ht
  rw [ofInt_nat p hp, ofInt_nat t ht]
  by_cases ct : 1024 ≤ (log2 t : Int) ∨ (971 ≤ natExp t ∧ 2 ^ 53 ≤ natMant t)
  · left
    rw [if_pos ct]
  · right
    have hmono : log2 p = log2 t → natMant p ≤ natMant t := by
      intro he
      unfold natMant natExp
      rw [he]
      exact roundEven_mono _ _ _ (Nat.mul_le_mul_right _ h)
    have cp : ¬ (1024 ≤ (log2 p : Int) ∨ (971 ≤ natExp p ∧ 2 ^ 53 ≤ natMant p)) := by
      rintro (c | ⟨c1, c2⟩)
      · exact ct (Or.inl (by omega))
      · unfold natExp at c1
        have hLt : ¬ 1024 ≤ (log2 t : Int) := fun hh => ct (Or.inl hh)
        have he : log2 p = log2 t := by omega
        have := hmono he
        exact ct (Or.inr ⟨by unfold natExp; omega, by omega⟩)
    rw [if_neg ct, if_neg cp]
    refine ⟨_, _, _, _, rfl, rfl, pow_pos (by norm_num) _, pow_pos (by norm_num) _,
      Nat.mul_pos (by omega) (pow_pos (by norm_num) _), ?_⟩
    rcases Nat.lt_or_ge (log2 p) (log2 t) with hlt | hge
    · have e1 : natMant p * 2 ^ (natExp p).toNat * 2 ^ (-natExp t).toNat
          ≤ 2 ^ 53 * 2 ^ (natExp p).toNat * 2 ^ (-natExp t).toNat :=
        Nat.mul_le_mul_right _ (Nat.mul_le_mul_right _ mp2)
      have e2 : 2 ^ 52 * 2 ^ (natExp t).toNat * 2 ^ (-natExp p).toNat
          ≤ natMant t * 2 ^ (natExp t).toNat * 2 ^ (-natExp p).toNat :=
        Nat.mul_le_mul_right _ (Nat.mul_le_mul_right _ mt1)
      have e3 : 2 ^ 53 * 2 ^ (natExp p).toNat * 2 ^ (-natExp t).toNat
          ≤ 2 ^ 52 * 2 ^ (natExp t).toNat * 2 ^ (-natExp p).toNat := by
        rw [← pow_add, ← pow_add, ← pow_add, ← pow_add]
        apply Nat.pow_le_pow_right (by norm_num)
        unfold natExp
        omega
      exact le_trans e1 (le_trans e3 e2)
    · have he : log2 p = log2 t := le_antisymm hL hge
      have hm := hmono he
      have hE : natExp p = natExp t := by unfold natExp; rw [he]
      rw [hE]
      exact Nat.mul_le_mul_right _ (Nat.mul_le_mul_right _ hm)

end JS

namespace JS

/-- The number that 100 denotes. -/
theorem ofInt_hundred : ofInt 100 = Number.fin 7036874417766400 70368744177664 := by
  decide

/-- A quotient divided by `Infinity` is zero or `NaN`. -/
theorem div_inf (x : Number) (s : Bool) :
    div x (Number.inf s) = Number.nan ∨ div x (Number.inf s) = Number.fin 0 1 := by
  cases x <;> simp [div]

/-- Zero divided by any number is zero or `NaN`. -/
theorem zero_div_cases (y : Number) :
    div (Number.fin 0 1) y = Number.nan ∨ div (Number.fin 0 1) y = Number.fin 0 1 := by
  cases y with
  | nan => simp [div]
  | inf s => simp [div]
  | fin a b =>
    by_cases h : a = 0
    · simp [div, h]
    · simp [div, h, round]

/-- The last steps of the percentage, times 100, `Math.round` and `|| 0`, take
`NaN` and every finite number between 0 and 1 to an integer from 0 to 100. -/
theorem percentage_tail (x : Number)
    (hx : x = Number.nan ∨ ∃ a b : Nat, x = Number.fin (a : Int) b ∧ 0 < b ∧ a ≤ b) :
    ∃ k : Int, 0 ≤ k ∧ k ≤ 100 ∧ orZero (mathRound (mul x (ofInt 100))) = Number.fin k 1 := by
  rcases hx with rfl | ⟨a, b, rfl, hb, hab⟩
  · exact ⟨0, le_refl _, by norm_num, by simp [mul, mathRound, orZero, truthy]⟩
  · rw [ofInt_hundred]
    simp only [mul]
    obtain ⟨a', b', hr, hb', hle⟩ := round_le ((a : Int) * 7036874417766400)
      (b * 70368744177664) 100 (by positivity) (by omega) (by norm_num) (by push_cast; omega)
    rw [hr]
    simp only [mathRound]
    have hk0 : (0 : Int) ≤ (2 * (a' : Int) + (b' : Int)) / (2 * (b' : Int)) :=
      Int.ediv_nonneg (by positivity) (by positivity)
    have hk1 : (2 * (a' : Int) + (b' : Int)) / (2 * (b' : Int)) < 101 := by
      apply Int.ediv_lt_of_lt_mul (by omega)
      have : (a' : Int) ≤ 100 * (b' : Int) := by exact_mod_cast hle
      omega
    generalize (2 * (a' : Int) + (b' : Int)) / (2 * (b' : Int)) = k at hk0 hk1
    refine ⟨k, hk0, by omega, ?_⟩
    unfold orZero
    by_cases hk : k = 0
    · simp [truthy, hk]
    · simp [truthy, hk]

end JS

open JS Dashboard in
/-- For a count that is absent or between 0 and the total, the percentage that
`fetchStats` computes is an integer from 0 to 100, whatever the magnitudes. -/
theorem Dashboard.percentage_range (c : Option Int) (t : Int) (h0 : 0 ≤ c.getD 0)
    (h1 : c.getD 0 ≤ t) :
    ∃ k : Int, 0 ≤ k ∧ k ≤ 100 ∧ percentage (count c) (ofInt t) = Number.fin k 1 := by
  unfold percentage
  apply percentage_tail
  have hzero : count c = Number.fin 0 1 →
      (div (count c) (ofInt t) = Number.nan ∨
        ∃ a b : Nat, div (count c) (ofInt t) = Number.fin (a : Int) b ∧ 0 < b ∧ a ≤ b) := by
    intro hc
    rw [hc]
    rcases zero_div_cases (ofInt t) with e | e
    · exact Or.inl e
    · exact Or.inr ⟨0, 1, by rw [e]; rfl, by norm_num, by norm_num⟩
  cases c with
  | none => exact hzero rfl
  | some p =>
    simp only [Option.getD_some] at h0 h1
    by_cases hp : p = 0
    · subst hp
      exact hzero (by decide)
    · obtain ⟨pn, rfl⟩ := Int.eq_ofNat_of_zero_le h0
      obtain ⟨tn, rfl⟩ := Int.eq_ofNat_of_zero_le (le_trans h0 h1)
      have hpn : 0 < pn := by omega
      have hle : pn ≤ tn := by exact_mod_cast h1
      simp only [count]
      rcases ofInt_mono pn tn hpn hle with hinf | ⟨a1, b1, a2, b2, e1, e2, hb1, hb2, ha1, hcmp⟩
      · rw [hinf]
        rcases div_inf (orZero (ofInt (pn : Int))) false with e | e
        · exact Or.inl e
        · exact Or.inr ⟨0, 1, by rw [e]; rfl, by norm_num, by norm_num⟩
      · have ha2 : 0 < a2 := by
          by_contra hc
          have : a2 = 0 := by omega
          rw [this, Nat.zero_mul] at hcmp
          have := Nat.mul_pos ha1 hb2
          omega
        have hor : orZero (Number.fin (a1 : Int) b1) = Number.fin (a1 : Int) b1 := by
          have : (a1 : Int) ≠ 0 := by omega
          simp [orZero, truthy, this]
        rw [e1, e2, hor]
        have hdiv : div (Number.fin (a1 : Int) b1) (Number.fin (a2 : Int) b2)
            = round ((a1 : Int) * (b2 : Int)) (b1 * a2) := by
          have h2 : (a2 : Int) ≠ 0 := by omega
          have h3 : ¬ (a2 : Int) < 0 := by omega
          simp only [div, if_neg h2, if_neg h3, mul_one, Int.natAbs_ofNat]
        rw [hdiv]
        obtain ⟨a, b, hr, hb, hab⟩ := round_le ((a1 : Int) * (b2 : Int)) (b1 * a2) 1
          (by positivity) (Nat.mul_pos hb1 ha2) (by norm_num)
          (by
            have : ((a1 * b2 : Nat) : Int) ≤ ((a2 * b1 : Nat) : Int) := by exact_mod_cast hcmp
            push_cast at this ⊢
            linarith)
        exact Or.inr ⟨a, b, hr, hb, by omega⟩

open JS Dashboard in
/-- C15: for every stats response with well-formed counts (the positive and the
negative count are non-negative and at most `total_reviews`, an absent count being
0), the `positivePercentage` and `negativePercentage` that `fetchStats` computes are
integers from 0 to 100. -/
theorem C15_percentages_between_0_and_100 (prev : Metrics) (data : StatsData)
    (dist : SentimentDistribution) (t : Int)
    (hdist : data.sentiment_distribution = some dist) (htot : data.total_reviews = some t)
    (hp0 : 0 ≤ dist.positive.getD 0) (hp1 : dist.positive.getD 0 ≤ t)
    (hn0 : 0 ≤ dist.negative.getD 0) (hn1 : dist.negative.getD 0 ≤ t) :
    ∃ k1 k2 : Int, 0 ≤ k1 ∧ k1 ≤ 100 ∧ 0 ≤ k2 ∧ k2 ≤ 100
      ∧ (fetchStats prev (some data)).positivePercentage = Number.fin k1 1
      ∧ (fetchStats prev (some data)).negativePercentage = Number.fin k2 1 := by
  obtain ⟨k1, a1, b1, e1⟩ := Dashboard.percentage_range dist.positive t hp0 hp1
  obtain ⟨k2, a2, b2, e2⟩ := Dashboard.percentage_range dist.negative t hn0 hn1
  refine ⟨k1, k2, a1, b1, a2, b2, ?_, ?_⟩
  · rw [← e1]
    simp [fetchStats, computeMetrics, hdist, htot, total]
  · rw [← e2]
    simp [fetchStats, computeMetrics, hdist, htot, total]

set_option maxRecDepth 100000 in
open JS Dashboard in
/-- Witness for C15: 23 positive and no negative reviews of 40, where the
percentages are 57 and 0; and a total of 0. -/
theorem C15_percentages_between_0_and_100_witness :
    (∃ k1 k2 : Int, 0 ≤ k1 ∧ k1 ≤ 100 ∧ 0 ≤ k2 ∧ k2 ≤ 100
      ∧ (fetchStats initialMetrics (some (statsOf 23 17 0 40))).positivePercentage
          = Number.fin k1 1
      ∧ (fetchStats initialMetrics (some (statsOf 23 17 0 40))).negativePercentage
          = Number.fin k2 1)
    ∧ (fetchStats initialMetrics (some (statsOf 23 17 0 40))).positivePercentage
        = Number.fin 57 1 :=
  ⟨C15_percentages_between_0_and_100 initialMetrics (statsOf 23 17 0 40)
    { positive := some 23, negative := some 0, neutral := some 17 } 40 rfl rfl
    (by decide) (by decide) (by decide) (by decide), by decide⟩

/-! ### Range of the average rating -/

namespace JS

/-- The unit roundoff of binary64 is below one thousandth. -/
theorem unit_roundoff_le : (2 : ℚ) ^ (-53 : Int) ≤ 1 / 1000 := by
  rw [zpow_neg, show (53 : Int) = ((53 : Nat) : Int) by rfl, zpow_natCast]
  norm_num

/-- A non-negative quotient that is zero or between `1 / 2` and `2 ^ 1010` is
rounded to a finite number within one thousandth of it, relatively. -/
theorem round_near (num : Int) (den : Nat) (hden : 0 < den) (h0 : 0 ≤ num)
    (hsmall : num = 0 ∨ (1 / 2 : ℚ) ≤ (num : ℚ) / den)
    (hbig : (num : ℚ) / den ≤ (2 : ℚ) ^ (1010 : Int)) :
    (round num den).IsFinite
      ∧ 999 / 1000 * ((num : ℚ) / den) ≤ (round num den).value
      ∧ (round num den).value ≤ 1001 / 1000 * ((num : ℚ) / den) := by
  by_cases hz : num = 0
  · subst hz
    simp [round, Number.IsFinite, Number.value]
  · have hq : (1 / 2 : ℚ) ≤ (num : ℚ) / den := by
      rcases hsmall with h | h
      · exact absurd h hz
      · exact h
    have habs : ((num.natAbs : Nat) : ℚ) = (num : ℚ) := by
      rw [Nat.cast_natAbs, abs_of_nonneg h0]
    have hlo : (2 : ℚ) ^ (-1022 : Int) ≤ (num.natAbs : ℚ) / den := by
      rw [habs]
      have : (2 : ℚ) ^ (-1022 : Int) ≤ (2 : ℚ) ^ (-1 : Int) :=
        zpow_le_zpow_right₀ (by norm_num) (by norm_num)
      have h2 : (2 : ℚ) ^ (-1 : Int) = 1 / 2 := by norm_num
      rw [h2] at this
      exact le_trans this hq
    have hhi : (num.natAbs : ℚ) / den < (2 : ℚ) ^ (1023 : Int) := by
      rw [habs]
      have : (2 : ℚ) ^ (1010 : Int) < (2 : ℚ) ^ (1023 : Int) :=
        zpow_lt_zpow_right₀ (by norm_num) (by norm_num)
      exact lt_of_le_of_lt hbig this
    obtain ⟨M, b, e1, e2, e3, _⟩ := round_struct num den hz hden hlo hhi
    have hpos : ¬ num < 0 := not_lt.mpr h0
    rw [if_neg hpos, one_mul] at e1
    rw [habs] at e3
    rw [e1]
    simp only [Number.IsFinite, Number.value, Int.cast_natCast]
    obtain ⟨l1, l2⟩ := abs_le.mp e3
    have hqpos : (0 : ℚ) ≤ (num : ℚ) / den := le_trans (by norm_num) hq
    have hu := mul_le_mul_of_nonneg_left unit_roundoff_le hqpos
    refine ⟨e2, ?_, ?_⟩ <;> linarith

/-- The text that `toFixed(1)` gives for a finite number from 0.95 up to, but not
including, 5.05 has the digits of a number from 1.0 to 5.0. -/
theorem toFixed1_range (x : Number) (hf : x.IsFinite) (h1 : 19 / 20 ≤ x.value)
    (h2 : x.value < 101 / 20) :
    ∃ k : Nat, toFixed1 x = NumText.fixed false k ∧ 10 ≤ k ∧ k ≤ 50 := by
  obtain ⟨A, B, rfl, hB⟩ := isFinite_cases x hf
  simp only [Number.value] at h1 h2
  have hB' : (0 : ℚ) < B := by exact_mod_cast hB
  rw [le_div_iff₀ hB'] at h1
  rw [div_lt_iff₀ hB'] at h2
  have hA : 0 < A := by
    have : (0 : ℚ) < A := by linarith
    exact_mod_cast this
  obtain ⟨a, rfl⟩ := Int.eq_ofNat_of_zero_le hA.le
  have g1 : 19 * B ≤ 20 * a := by
    have : (19 * B : ℚ) ≤ 20 * a := by push_cast at h1; linarith
    exact_mod_cast this
  have g2 : 20 * a < 101 * B := by
    have : (20 * a : ℚ) < 101 * B := by push_cast at h2; linarith
    exact_mod_cast this
  have hsmall : ¬ 10 ^ 21 * B ≤ a := by
    intro hc
    have : 101 * B ≤ 10 ^ 21 * B := Nat.mul_le_mul_right _ (by norm_num)
    omega
  have hneg : isNeg (a : Int) = false := by simp [isNeg]
  simp only [toFixed1, Int.natAbs_ofNat, if_neg hsmall, hneg]
  refine ⟨_, rfl, ?_, ?_⟩
  · apply (Nat.le_div_iff_mul_le (by omega)).mpr
    omega
  · apply Nat.le_of_lt_succ
    apply (Nat.div_lt_iff_lt_mul (by omega)).mpr
    omega

/-- Nine times `10 ^ 250` is below `2 ^ 1005`. -/
theorem ten_pow_le : 9 * (10 : ℚ) ^ 250 ≤ (2 : ℚ) ^ (1005 : Int) := by
  have h1 : (10 : ℚ) ^ 250 ≤ (16 : ℚ) ^ 250 := pow_le_pow_left₀ (by norm_num) (by norm_num) _
  have h2 : (16 : ℚ) ^ 250 = (2 : ℚ) ^ (1000 : Int) := by
    rw [show (16 : ℚ) = 2 ^ 4 by norm_num, ← pow_mul, ← zpow_natCast]
    norm_num
  have h3 : (2 : ℚ) ^ (1005 : Int) = (2 : ℚ) ^ (1000 : Int) * 32 := by
    rw [show (1005 : Int) = 1000 + 5 by norm_num, zpow_add₀ (by norm_num : (2 : ℚ) ≠ 0)]
    norm_num
  have h4 : (0 : ℚ) < (2 : ℚ) ^ (1000 : Int) := zpow_pos (by norm_num) _
  rw [h3]
  linarith

/-- Rounding a non-negative quotient that lies between `a * v` and `b * v` gives a
number near `v`, with the factors widened by one thousandth. -/
theorem near_of_round (num : Int) (den : Nat) (hden : 0 < den) (h0 : 0 ≤ num) (v a b : ℚ)
    (hv : v = 0 ∨ 1 ≤ v) (ha : 1 / 2 ≤ a) (hb : b ≤ 2) (hbig : v ≤ (2 : ℚ) ^ (1005 : Int))
    (h1 : a * v ≤ (num : ℚ) / den) (h2 : (num : ℚ) / den ≤ b * v) :
    Near (round num den) v (999 / 1000 * a) (1001 / 1000 * b) := by
  have hden' : (0 : ℚ) < den := by exact_mod_cast hden
  have hv0 : 0 ≤ v := by rcases hv with h | h <;> linarith
  have hsmall : num = 0 ∨ (1 / 2 : ℚ) ≤ (num : ℚ) / den := by
    rcases hv with h | h
    · left
      rw [h, mul_zero] at h2
      have hq : (0 : ℚ) ≤ (num : ℚ) / den := div_nonneg (by exact_mod_cast h0) hden'.le
      have hq0 : (num : ℚ) / den = 0 := le_antisymm h2 hq
      rcases div_eq_zero_iff.mp hq0 with h' | h'
      · exact_mod_cast h'
      · exact absurd h' hden'.ne'
    · right
      have : 1 / 2 * 1 ≤ a * v := mul_le_mul ha h (by norm_num) (by linarith)
      linarith
  have hbig' : (num : ℚ) / den ≤ (2 : ℚ) ^ (1010 : Int) := by
    have e1 : b * v ≤ 2 * (2 : ℚ) ^ (1005 : Int) := mul_le_mul hb hbig hv0 (by norm_num)
    have e2 : 2 * (2 : ℚ) ^ (1005 : Int) = (2 : ℚ) ^ (1006 : Int) := by
      rw [show (1006 : Int) = 1005 + 1 by norm_num, zpow_add_one₀ (by norm_num : (2 : ℚ) ≠ 0)]
      ring
    have e3 : (2 : ℚ) ^ (1006 : Int) ≤ (2 : ℚ) ^ (1010 : Int) :=
      zpow_le_zpow_right₀ (by norm_num) (by norm_num)
    linarith
  obtain ⟨f, l, u⟩ := round_near num den hden h0 hsmall hbig'
  refine ⟨f, ?_, ?_⟩
  · have := mul_le_mul_of_nonneg_left h1 (by norm_num : (0 : ℚ) ≤ 999 / 1000)
    rw [mul_assoc]
    linarith
  · have := mul_le_mul_of_nonneg_left h2 (by norm_num : (0 : ℚ) ≤ 1001 / 1000)
    rw [mul_assoc]
    linarith

/-- The factors of `Near` can be widened. -/
theorem Near.widen {x : Number} {v a b : ℚ} (h : Near x v a b) (a' b' : ℚ) (hv : 0 ≤ v)
    (ha : a' ≤ a) (hb : b ≤ b') : Near x v a' b' :=
  ⟨h.1, le_trans (mul_le_mul_of_nonneg_right ha hv) h.2.1,
    le_trans h.2.2 (mul_le_mul_of_nonneg_right hb hv)⟩

/-- A product by a positive integer constant below `2 ^ 53` stays near. -/
theorem near_mul_const (x : Number) (v a b : ℚ) (c : Int) (hc : 0 < c) (hc2 : c < 2 ^ 53)
    (hx : Near x v a b) (hv : v = 0 ∨ 1 ≤ v) (ha : 1 / 2 ≤ a) (hb : b ≤ 2)
    (hbig : (c : ℚ) * v ≤ (2 : ℚ) ^ (1005 : Int)) :
    Near (mul x (ofInt c)) ((c : ℚ) * v) (999 / 1000 * a) (1001 / 1000 * b) := by
  obtain ⟨hf, l, u⟩ := hx
  obtain ⟨a1, b1, rfl, hb1⟩ := isFinite_cases x hf
  obtain ⟨fc, vc⟩ := ofInt_exact c (by omega)
  obtain ⟨a2, b2, ec, hb2⟩ := isFinite_cases _ fc
  rw [ec] at vc ⊢
  simp only [Number.value] at l u vc
  have hb1' : (0 : ℚ) < b1 := by exact_mod_cast hb1
  have hb2' : (0 : ℚ) < b2 := by exact_mod_cast hb2
  have hc' : (1 : ℚ) ≤ c := by exact_mod_cast hc
  have hv0 : 0 ≤ v := by rcases hv with h | h <;> linarith
  have hx0 : (0 : ℚ) ≤ (a1 : ℚ) / b1 := le_trans (mul_nonneg (by linarith) hv0) l
  have ha1 : 0 ≤ a1 := by
    have : (0 : ℚ) ≤ a1 := by
      have := mul_nonneg hx0 hb1'.le
      rwa [div_mul_cancel₀ _ hb1'.ne'] at this
    exact_mod_cast this
  have ha2 : 0 ≤ a2 := by
    have h2 : (0 : ℚ) ≤ (a2 : ℚ) / b2 := by rw [vc]; linarith
    have : (0 : ℚ) ≤ a2 := by
      have := mul_nonneg h2 hb2'.le
      rwa [div_mul_cancel₀ _ hb2'.ne'] at this
    exact_mod_cast this
  have hq : (((a1 * a2 : Int)) : ℚ) / ((b1 * b2 : Nat) : ℚ) = (c : ℚ) * ((a1 : ℚ) / b1) := by
    have : (a2 : ℚ) = c * b2 := by
      rw [div_eq_iff hb2'.ne'] at vc
      rw [vc]
    push_cast
    rw [this]
    field_simp
    ring
  simp only [mul]
  have hv' : (c : ℚ) * v = 0 ∨ 1 ≤ (c : ℚ) * v := by
    rcases hv with h | h
    · left; rw [h, mul_zero]
    · right; nlinarith
  apply near_of_round _ _ (Nat.mul_pos hb1 hb2) (mul_nonneg ha1 ha2) _ _ _ hv' ha hb hbig
  · rw [hq]
    have := mul_le_mul_of_nonneg_left l (by linarith : (0 : ℚ) ≤ c)
    linarith
  · rw [hq]
    have := mul_le_mul_of_nonneg_left u (by linarith : (0 : ℚ) ≤ c)
    linarith

/-- A sum of two numbers that are near with the same factors stays near. -/
theorem near_add (x y : Number) (v w a b : ℚ) (hx : Near x v a b) (hy : Near y w a b)
    (hv : v = 0 ∨ 1 ≤ v) (hw : w = 0 ∨ 1 ≤ w) (ha : 1 / 2 ≤ a) (hb : b ≤ 2)
    (hbig : v + w ≤ (2 : ℚ) ^ (1005 : Int)) :
    Near (add x y) (v + w) (999 / 1000 * a) (1001 / 1000 * b) := by
  obtain ⟨hf1, l1, u1⟩ := hx
  obtain ⟨hf2, l2, u2⟩ := hy
  obtain ⟨a1, b1, rfl, hb1⟩ := isFinite_cases x hf1
  obtain ⟨a2, b2, rfl, hb2⟩ := isFinite_cases y hf2
  simp only [Number.value] at l1 u1 l2 u2
  have hb1' : (0 : ℚ) < b1 := by exact_mod_cast hb1
  have hb2' : (0 : ℚ) < b2 := by exact_mod_cast hb2
  have hv0 : 0 ≤ v := by rcases hv with h | h <;> linarith
  have hw0 : 0 ≤ w := by rcases hw with h | h <;> linarith
  have hx0 : (0 : ℚ) ≤ (a1 : ℚ) / b1 := le_trans (mul_nonneg (by linarith) hv0) l1
  have hy0 : (0 : ℚ) ≤ (a2 : ℚ) / b2 := le_trans (mul_nonneg (by linarith) hw0) l2
  have ha1 : 0 ≤ a1 := by
    have : (0 : ℚ) ≤ a1 := by
      have := mul_nonneg hx0 hb1'.le
      rwa [div_mul_cancel₀ _ hb1'.ne'] at this
    exact_mod_cast this
  have ha2 : 0 ≤ a2 := by
    have : (0 : ℚ) ≤ a2 := by
      have := mul_nonneg hy0 hb2'.le
      rwa [div_mul_cancel₀ _ hb2'.ne'] at this
    exact_mod_cast this
  have hq : (((a1 * (b2 : Int) + a2 * (b1 : Int) : Int)) : ℚ) / ((b1 * b2 : Nat) : ℚ)
      = (a1 : ℚ) / b1 + (a2 : ℚ) / b2 := by
    push_cast
    field_simp
  simp only [add]
  have hvw : v + w = 0 ∨ 1 ≤ v + w := by
    rcases hv with h | h
    · rcases hw with h' | h'
      · left; rw [h, h']; norm_num
      · right; linarith
    · right; linarith
  apply near_of_round _ _ (Nat.mul_pos hb1 hb2)
    (add_nonneg (mul_nonneg ha1 (by positivity)) (mul_nonneg ha2 (by positivity)))
    _ _ _ hvw ha hb hbig
  · rw [hq]; linarith
  · rw [hq]; linarith

end JS

open JS Dashboard in
/-- A non-negative count of at most `10 ^ 250`, or an absent one, is read as a number
within one thousandth of it, relatively. -/
theorem Dashboard.near_count (c : Option Int) (h0 : 0 ≤ c.getD 0)
    (hbig : c.getD 0 ≤ 10 ^ 250) :
    Near (count c) ((c.getD 0 : Int) : ℚ) (999 / 1000) (1001 / 1000) := by
  cases c with
  | none => simp [count, Near, Number.IsFinite, Number.value]
  | some i =>
    simp only [Option.getD_some] at h0 hbig ⊢
    have hi : ((i : Int) : ℚ) ≤ (2 : ℚ) ^ (1005 : Int) := by
      have h1 : ((i : Int) : ℚ) ≤ (10 : ℚ) ^ 250 := by exact_mod_cast hbig
      linarith [ten_pow_le]
    have hv : ((i : Int) : ℚ) = 0 ∨ 1 ≤ ((i : Int) : ℚ) := by
      rcases eq_or_lt_of_le h0 with h | h
      · left; rw [← h]; simp
      · right; exact_mod_cast h
    have hn := near_of_round i 1 (by norm_num) h0 (i : ℚ) 1 1 hv (by norm_num) (by norm_num) hi
      (by simp) (by simp)
    obtain ⟨f, l, u⟩ := hn
    obtain ⟨f2, v2⟩ := orZero_exact _ f
    have hc : count (some i) = orZero (JS.round i 1) := rfl
    rw [hc]
    refine ⟨f2, ?_, ?_⟩
    · rw [v2]; simpa using l
    · rw [v2]; simpa using u

open JS Dashboard in
/-- For non-negative counts of at most `10 ^ 250` whose sum is the positive total,
the average rating is the text of a number from 1.0 to 5.0. -/
theorem Dashboard.averageRating_range (pc nc gc : Option Int) (t : Int)
    (hp0 : 0 ≤ pc.getD 0) (hp1 : pc.getD 0 ≤ 10 ^ 250)
    (hn0 : 0 ≤ nc.getD 0) (hn1 : nc.getD 0 ≤ 10 ^ 250)
    (hg0 : 0 ≤ gc.getD 0) (hg1 : gc.getD 0 ≤ 10 ^ 250)
    (ht : t = pc.getD 0 + nc.getD 0 + gc.getD 0) (htpos : 0 < t) :
    ∃ k : Nat, averageRating (count pc) (count nc) (count gc) (ofInt t)
        = Value.text (NumText.fixed false k) ∧ 10 ≤ k ∧ k ≤ 50 := by
  have hP := Dashboard.near_count pc hp0 hp1
  have hN := Dashboard.near_count nc hn0 hn1
  have hG := Dashboard.near_count gc hg0 hg1
  generalize pc.getD 0 = p at *
  generalize nc.getD 0 = n at *
  generalize gc.getD 0 = g at *
  have zo : ∀ i : Int, 0 ≤ i → ((i : ℚ) = 0 ∨ 1 ≤ (i : ℚ)) := by
    intro i hi
    rcases eq_or_lt_of_le hi with h | h
    · left; rw [← h]; simp
    · right; exact_mod_cast h
  have qp0 : (0 : ℚ) ≤ p := by exact_mod_cast hp0
  have qn0 : (0 : ℚ) ≤ n := by exact_mod_cast hn0
  have qg0 : (0 : ℚ) ≤ g := by exact_mod_cast hg0
  have qp1 : (p : ℚ) ≤ (10 : ℚ) ^ 250 := by exact_mod_cast hp1
  have qn1 : (n : ℚ) ≤ (10 : ℚ) ^ 250 := by exact_mod_cast hn1
  have qg1 : (g : ℚ) ≤ (10 : ℚ) ^ 250 := by exact_mod_cast hg1
  have hB := ten_pow_le
  have X1 := near_mul_const _ _ _ _ 5 (by norm_num) (by norm_num) hP (zo p hp0) (by norm_num)
    (by norm_num) (by push_cast; linarith)
  have X2 := near_mul_const _ _ _ _ 3 (by norm_num) (by norm_num) hN (zo n hn0) (by norm_num)
    (by norm_num) (by push_cast; linarith)
  have X3 := near_mul_const _ _ _ _ 1 (by norm_num) (by norm_num) hG (zo g hg0) (by norm_num)
    (by norm_num) (by push_cast; linarith)
  have z1 : ((5 : Int) : ℚ) * (p : ℚ) = 0 ∨ 1 ≤ ((5 : Int) : ℚ) * (p : ℚ) := by
    have := zo (5 * p) (by omega)
    push_cast at this ⊢
    exact this
  have z2 : ((3 : Int) : ℚ) * (n : ℚ) = 0 ∨ 1 ≤ ((3 : Int) : ℚ) * (n : ℚ) := by
    have := zo (3 * n) (by omega)
    push_cast at this ⊢
    exact this
  have z3 : ((1 : Int) : ℚ) * (g : ℚ) = 0 ∨ 1 ≤ ((1 : Int) : ℚ) * (g : ℚ) := by
    have := zo (1 * g) (by omega)
    push_cast at this ⊢
    exact this
  have z12 : ((5 : Int) : ℚ) * (p : ℚ) + ((3 : Int) : ℚ) * (n : ℚ) = 0
      ∨ 1 ≤ ((5 : Int) : ℚ) * (p : ℚ) + ((3 : Int) : ℚ) * (n : ℚ) := by
    have := zo (5 * p + 3 * n) (by omega)
    push_cast at this ⊢
    exact this
  have S1 := near_add _ _ _ _ _ _ X1 X2 z1 z2 (by norm_num) (by norm_num)
    (by push_cast; linarith)
  have X3' := X3.widen (999 / 1000 * (999 / 1000 * (999 / 1000)))
    (1001 / 1000 * (1001 / 1000 * (1001 / 1000))) (by push_cast; linarith) (by norm_num)
    (by norm_num)
  have S2 := near_add _ _ _ _ _ _ S1 X3' z12 z3 (by norm_num) (by norm_num)
    (by push_cast; linarith)
  have hT : Near (ofInt t) (t : ℚ) (999 / 1000) (1001 / 1000) := by
    have := near_of_round t 1 (by norm_num) htpos.le (t : ℚ) 1 1 (zo t htpos.le) (by norm_num)
      (by norm_num) (by rw [ht]; push_cast; linarith) (by simp) (by simp)
    simpa [ofInt] using this
  obtain ⟨fs, ls, us⟩ := S2
  obtain ⟨ftt, lt, ut⟩ := hT
  have qt : (t : ℚ) = p + n + g := by rw [ht]; push_cast; ring
  have qt1 : (1 : ℚ) ≤ t := by exact_mod_cast htpos
  unfold averageRating
  generalize add (add (mul (count pc) (ofInt 5)) (mul (count nc) (ofInt 3)))
    (mul (count gc) (ofInt 1)) = s at fs ls us
  generalize ofInt t = tt at ftt lt ut
  obtain ⟨a1, b1, rfl, hb1⟩ := isFinite_cases s fs
  obtain ⟨a2, b2, rfl, hb2⟩ := isFinite_cases tt ftt
  simp only [Number.value] at ls us lt ut
  push_cast at ls us
  have hb1' : (0 : ℚ) < b1 := by exact_mod_cast hb1
  have hb2' : (0 : ℚ) < b2 := by exact_mod_cast hb2
  set S : ℚ := (a1 : ℚ) / b1 with hS
  set T : ℚ := (a2 : ℚ) / b2 with hT'
  have hTpos : 0 < T := by linarith
  have hSpos : 0 < S := by linarith
  have ha2 : 0 < a2 := by
    have : (0 : ℚ) < a2 := by
      have := mul_pos hTpos hb2'
      rwa [hT', div_mul_cancel₀ _ hb2'.ne'] at this
    exact_mod_cast this
  have ha1 : 0 < a1 := by
    have : (0 : ℚ) < a1 := by
      have := mul_pos hSpos hb1'
      rwa [hS, div_mul_cancel₀ _ hb1'.ne'] at this
    exact_mod_cast this
  have hdiv : div (Number.fin a1 b1) (Number.fin a2 b2)
      = JS.round (a1 * (b2 : Int)) (b1 * a2.natAbs) := by
    simp only [div, if_neg ha2.ne', if_neg (not_lt.mpr ha2.le), mul_one]
  have hq : (((a1 * (b2 : Int) : Int)) : ℚ) / ((b1 * a2.natAbs : Nat) : ℚ) = S / T := by
    have : ((a2.natAbs : Nat) : ℚ) = (a2 : ℚ) := by
      rw [Nat.cast_natAbs, abs_of_pos ha2]
    push_cast
    rw [this, hS, hT']
    field_simp
  have hq1 : 99 / 100 ≤ S / T := by
    rw [le_div_iff₀ hTpos]
    linarith
  have hq2 : S / T ≤ 503 / 100 := by
    rw [div_le_iff₀ hTpos]
    linarith
  have hbig : S / T ≤ (2 : ℚ) ^ (1010 : Int) := by
    have : (8 : ℚ) ≤ (2 : ℚ) ^ (1010 : Int) := by
      have h3 : (2 : ℚ) ^ (3 : Int) ≤ (2 : ℚ) ^ (1010 : Int) :=
        zpow_le_zpow_right₀ (by norm_num) (by norm_num)
      have h4 : (2 : ℚ) ^ (3 : Int) = 8 := by norm_num
      linarith
    linarith
  obtain ⟨fr, lr, ur⟩ := round_near (a1 * (b2 : Int)) (b1 * a2.natAbs)
    (Nat.mul_pos hb1 (Int.natAbs_pos.mpr ha2.ne')) (mul_nonneg ha1.le (by positivity))
    (Or.inr (by rw [hq]; linarith)) (by rw [hq]; exact hbig)
  rw [hq] at lr ur
  obtain ⟨k, hk, k1, k2⟩ := toFixed1_range _ fr (by linarith) (by linarith)
  refine ⟨k, ?_, k1, k2⟩
  rw [hdiv, hk]
  simp [textOrZero, NumText.truthy]

set_option maxRecDepth 100000 in
set_option exponentiation.threshold 1100 in
open JS Dashboard in
/-- C19, as stated, fails: for 9 * 10^307 positive reviews and nothing else, the
product by 5 exceeds the largest binary64 value, and `averageRating` is the text
`Infinity`. -/
theorem C19_overflow_gives_infinity :
    (fetchStats initialMetrics
      (some (statsOf (9 * 10 ^ 250 * 10 ^ 57) 0 0 (9 * 10 ^ 250 * 10 ^ 57)))).averageRating
      = Value.text (NumText.infinity false)
    ∧ (NumText.infinity false).render = some "Infinity" := by
  decide

set_option maxRecDepth 100000 in
open JS Dashboard in
/-- C19, amended: for every stats response with category counts from 0 to 10^250 (an
absent count being 0) and `total_reviews` equal to their sum and positive, the
`averageRating` that `fetchStats` computes is the text of a number from 1.0 to 5.0:
a decimal with one fractional digit, `k / 10` with `10 ≤ k ≤ 50`.  When
`total_reviews` exceeds the sum the lower bound fails: one negative review and a
total of 2 give `0.5`. -/
theorem C19_averageRating_between_1_and_5 :
    (∀ (prev : Metrics) (data : StatsData) (dist : SentimentDistribution) (t : Int),
      data.sentiment_distribution = some dist → data.total_reviews = some t →
      0 ≤ dist.positive.getD 0 → dist.positive.getD 0 ≤ 10 ^ 250 →
      0 ≤ dist.neutral.getD 0 → dist.neutral.getD 0 ≤ 10 ^ 250 →
      0 ≤ dist.negative.getD 0 → dist.negative.getD 0 ≤ 10 ^ 250 →
      t = dist.positive.getD 0 + dist.neutral.getD 0 + dist.negative.getD 0 → 0 < t →
      ∃ k : Nat, (fetchStats prev (some data)).averageRating
          = Value.text (NumText.fixed false k) ∧ 10 ≤ k ∧ k ≤ 50)
    ∧ (fetchStats initialMetrics (some (statsOf 0 0 1 2))).averageRating
        = Value.text (NumText.fixed false 5)
    ∧ (NumText.fixed false 5).render = some "0.5" := by
  refine ⟨?_, by decide, by decide⟩
  intro prev data dist t hdist htot hp0 hp1 hn0 hn1 hg0 hg1 ht htpos
  obtain ⟨k, hk, k1, k2⟩ := Dashboard.averageRating_range dist.positive dist.neutral
    dist.negative t hp0 hp1 hn0 hn1 hg0 hg1 ht htpos
  refine ⟨k, ?_, k1, k2⟩
  rw [← hk]
  simp [fetchStats, computeMetrics, hdist, htot, total]

set_option maxRecDepth 100000 in
open JS Dashboard in
/-- Witness for C19 (amended): 6 positive, 3 neutral and 1 negative review, total 10. -/
theorem C19_averageRating_between_1_and_5_witness :
    (∃ k : Nat, (fetchStats initialMetrics (some (statsOf 6 3 1 10))).averageRating
        = Value.text (NumText.fixed false k) ∧ 10 ≤ k ∧ k ≤ 50)
    ∧ (fetchStats initialMetrics (some (statsOf 6 3 1 10))).averageRating
        = Value.text (NumText.fixed false 40) :=
  ⟨C19_averageRating_between_1_and_5.1 initialMetrics (statsOf 6 3 1 10)
    { positive := some 6, negative := some 1, neutral := some 3 } 10 rfl rfl
    (by norm_num) (by norm_num) (by norm_num) (by norm_num) (by norm_num) (by norm_num)
    (by norm_num) (by norm_num), by decide⟩

/-! ### Integers as text -/

namespace JS

/-- The result of the search is read as the same Number as `x`. -/
theorem shortestFuel_reads (x d : Nat) : ∀ (fuel k : Nat),
    ofInt ((shortestFuel x d fuel k : Nat) : Int) = ofInt (x : Int) := by
  intro fuel
  induction fuel with
  | zero => intro k; rfl
  | succ fuel ih =>
    intro k
    unfold shortestFuel
    simp only []
    split_ifs with h1 h2 h3 h4 h5 h6
    all_goals first
      | exact ih (k + 1)
      | (simp only [Bool.and_eq_true, decide_eq_true_eq] at h1; first | exact h1.1 | exact h1.2)
      | (simp only [decide_eq_true_eq] at *; assumption)

/-- The number chosen by Number::toString is read as the same Number as `x`. -/
theorem shortest_reads (x : Nat) : ofInt ((shortest x : Nat) : Int) = ofInt (x : Int) :=
  shortestFuel_reads x _ _ _

/-- The binary logarithm is determined by the two powers of two around `n`. -/
theorem log2_unique (n k : Nat) (h1 : 2 ^ k ≤ n) (h2 : n < 2 ^ (k + 1)) : log2 n = k := by
  have hn : 0 < n := lt_of_lt_of_le (pow_pos (by norm_num) k) h1
  obtain ⟨a1, a2⟩ := log2_spec n hn
  rcases Nat.lt_trichotomy (log2 n) k with h | h | h
  · exfalso
    have : 2 ^ (log2 n + 1) ≤ 2 ^ k := Nat.pow_le_pow_right (by norm_num) h
    omega
  · exact h
  · exfalso
    have : 2 ^ (k + 1) ≤ 2 ^ log2 n := Nat.pow_le_pow_right (by norm_num) h
    omega

/-- Changing the sign that is given to `roundRat` changes the sign of the result. -/
theorem roundRat_flip (s : Bool) (n d : Nat) (a : Int) (b : Nat)
    (h : roundRat s n d = Number.fin a b) : roundRat (!s) n d = Number.fin (-a) b := by
  cases s
  all_goals
    unfold roundRat at h ⊢
    simp only [Bool.not_false, Bool.not_true, if_true, Bool.false_eq_true, if_false] at h ⊢
    split_ifs at h ⊢ with h1 h2
    simp only [Number.fin.injEq] at h ⊢
    obtain ⟨ha, hb⟩ := h
    refine ⟨?_, hb⟩
    rw [← ha]
    ring

/-- The Number read from `-i` is the negative of the Number read from `i`. -/
theorem ofInt_neg (i : Int) (a : Int) (b : Nat) (h : ofInt i = Number.fin a b) :
    ofInt (-i) = Number.fin (-a) b := by
  unfold ofInt round at h ⊢
  by_cases h0 : i = 0
  · subst h0
    simp only [if_true, Number.fin.injEq] at h
    simp [← h.1, ← h.2]
  · have h0' : -i ≠ 0 := by omega
    rw [if_neg h0] at h
    rw [if_neg h0', Int.natAbs_neg]
    have hs : decide (-i < 0) = !decide (i < 0) := by
      by_cases hi : i < 0
      · have : ¬ (-i < 0) := by omega
        simp [hi, this]
      · have : -i < 0 := by omega
        simp [hi, this]
    rw [hs]
    exact roundRat_flip _ _ _ _ _ h

/-- No integer is read as `NaN`. -/
theorem ofInt_ne_nan (i : Int) : ofInt i ≠ Number.nan := by
  unfold ofInt round roundRat
  simp only []
  split_ifs <;> simp

end JS

namespace JS

/-- The Number read from a natural number has a non-negative integer value, and
that value is read as the same Number. -/
theorem ofInt_natValue (n : Nat) (a : Int) (b : Nat)
    (h : ofInt (n : Int) = Number.fin a b) :
    0 ≤ a ∧ (0 < n → 0 < a) ∧ ofInt ((a.natAbs / b : Nat) : Int) = Number.fin a b := by
  rcases Nat.eq_zero_or_pos n with rfl | hn
  · have h0 : ofInt ((0 : Nat) : Int) = Number.fin 0 1 := rfl
    rw [h0] at h
    simp only [Number.fin.injEq] at h
    obtain ⟨rfl, rfl⟩ := h
    exact ⟨le_refl _, fun hpos => absurd hpos (by omega), rfl⟩
  · have hnat := ofInt_nat n hn
    rw [h] at hnat
    split_ifs at hnat with hc
    simp only [Number.fin.injEq] at hnat
    obtain ⟨ha, hb⟩ := hnat
    obtain ⟨m1, m2⟩ := natMant_bounds n hn
    obtain ⟨l1, l2⟩ := log2_spec n hn
    have hapos : 0 < natMant n * 2 ^ (natExp n).toNat :=
      Nat.mul_pos (by omega) (pow_pos (by norm_num) _)
    refine ⟨by rw [ha]; exact Int.ofNat_nonneg _,
      fun _ => by rw [ha]; exact_mod_cast hapos, ?_⟩
    rw [ha, hb, Int.natAbs_ofNat]
    rcases Nat.lt_or_ge (log2 n) 52 with hL | hL
    · have kp : (natExp n).toNat = 0 := by unfold natExp; omega
      have kn : (-natExp n).toNat = 52 - log2 n := by unfold natExp; omega
      have hM : natMant n = n * 2 ^ (52 - log2 n) := by
        unfold natMant
        rw [kp, kn, pow_zero]
        have := roundEven_exact (n * 2 ^ (52 - log2 n)) 1 (by norm_num) (one_dvd _)
        simpa using this
      have hV : natMant n * 2 ^ (natExp n).toNat / 2 ^ (-natExp n).toNat = n := by
        rw [kp, kn, pow_zero, mul_one, hM]
        exact Nat.mul_div_cancel _ (pow_pos (by norm_num) _)
      rw [hV, h, ha, hb]
    · have kp : (natExp n).toNat = log2 n - 52 := by unfold natExp; omega
      have kn : (-natExp n).toNat = 0 := by unfold natExp; omega
      have hP : 0 < 2 ^ (log2 n - 52) := pow_pos (by norm_num) _
      rw [kp, kn, pow_zero, Nat.div_one]
      have hVpos : 0 < natMant n * 2 ^ (log2 n - 52) := Nat.mul_pos (by omega) hP
      rw [ofInt_nat _ hVpos]
      rcases Nat.lt_or_ge (natMant n) (2 ^ 53) with hlt | hge
      · have hlog : log2 (natMant n * 2 ^ (log2 n - 52)) = log2 n := by
          apply log2_unique
          · calc 2 ^ log2 n = 2 ^ 52 * 2 ^ (log2 n - 52) := by
                  rw [← pow_add]; congr 1; omega
              _ ≤ natMant n * 2 ^ (log2 n - 52) := Nat.mul_le_mul_right _ m1
          · calc natMant n * 2 ^ (log2 n - 52) < 2 ^ 53 * 2 ^ (log2 n - 52) :=
                  Nat.mul_lt_mul_of_pos_right hlt hP
              _ = 2 ^ (log2 n + 1) := by rw [← pow_add]; congr 1; omega
        have hexp : natExp (natMant n * 2 ^ (log2 n - 52)) = natExp n := by
          unfold natExp; rw [hlog]
        have hmant : natMant (natMant n * 2 ^ (log2 n - 52)) = natMant n := by
          have e : natMant (natMant n * 2 ^ (log2 n - 52))
              = roundEven (natMant n * 2 ^ (log2 n - 52)) (2 ^ (log2 n - 52)) := by
            rw [natMant, hexp, kp, kn, pow_zero, mul_one]
          rw [e]
          have := roundEven_exact (natMant n * 2 ^ (log2 n - 52)) (2 ^ (log2 n - 52)) hP
            (Dvd.intro_left _ rfl)
          exact Nat.eq_of_mul_eq_mul_right hP this
        rw [hexp, hmant, hlog, if_neg hc, kp, kn, pow_zero]
      · have hM53 : natMant n = 2 ^ 53 := le_antisymm m2 hge
        have hE : log2 n - 52 < 971 := by
          by_contra hcon
          apply hc
          right
          exact ⟨by unfold natExp; omega, hge⟩
        have hV : natMant n * 2 ^ (log2 n - 52) = 2 ^ (log2 n + 1) := by
          rw [hM53, ← pow_add]; congr 1; omega
        have hlog : log2 (natMant n * 2 ^ (log2 n - 52)) = log2 n + 1 := by
          apply log2_unique
          · rw [hV]
          · rw [hV]; exact Nat.pow_lt_pow_right (by norm_num) (by omega)
        have hexp : natExp (natMant n * 2 ^ (log2 n - 52)) = natExp n + 1 := by
          unfold natExp; rw [hlog]; push_cast; ring
        have kp2 : (natExp n + 1).toNat = log2 n - 52 + 1 := by unfold natExp; omega
        have kn2 : (-(natExp n + 1)).toNat = 0 := by unfold natExp; omega
        have hP2 : 0 < 2 ^ (log2 n - 52 + 1) := pow_pos (by norm_num) _
        have hmant : natMant (natMant n * 2 ^ (log2 n - 52)) = 2 ^ 52 := by
          have e : natMant (natMant n * 2 ^ (log2 n - 52))
              = roundEven (natMant n * 2 ^ (log2 n - 52)) (2 ^ (log2 n - 52 + 1)) := by
            rw [natMant, hexp, kp2, kn2, pow_zero, mul_one]
          rw [e]
          have hd : 2 ^ (log2 n - 52 + 1) ∣ natMant n * 2 ^ (log2 n - 52) := by
            rw [hV]; exact pow_dvd_pow 2 (by omega)
          have := roundEven_exact _ _ hP2 hd
          have e2 : natMant n * 2 ^ (log2 n - 52) = 2 ^ 52 * 2 ^ (log2 n - 52 + 1) := by
            rw [hV, ← pow_add]; congr 1; omega
          rw [e2] at this
          rw [e2]
          exact Nat.eq_of_mul_eq_mul_right hP2 this
        have hc2 : ¬ (1024 ≤ ((log2 n + 1 : Nat) : Int)
            ∨ (971 ≤ natExp n + 1 ∧ 2 ^ 53 ≤ 2 ^ 52)) := by
          rintro (c | ⟨_, c⟩)
          · have : log2 n + 1 < 1024 := by omega
            omega
          · norm_num at c
        rw [hexp, hmant, hlog, if_neg hc2, kp2, kn2]
        simp only [pow_zero, Number.fin.injEq, and_true, Nat.cast_inj]
        rw [hM53, ← pow_add, ← pow_add]; congr 1; omega

/-- Two natural numbers read as the same Number, one of them below `2 ^ 53`, are
equal. -/
theorem ofInt_inj_small (x c : Nat) (hx : x < 2 ^ 53)
    (h : ofInt (c : Int) = ofInt (x : Int)) : c = x := by
  obtain ⟨fx, vx⟩ := ofInt_exact (x : Int) (by simpa using hx)
  rcases Nat.lt_or_ge c (2 ^ 53) with hc | hc
  · obtain ⟨_, vc⟩ := ofInt_exact (c : Int) (by simpa using hc)
    rw [h, vx] at vc
    exact_mod_cast vc.symm
  · exfalso
    have h53 : ofInt ((2 ^ 53 : Nat) : Int) = Number.fin 9007199254740992 1 := by decide
    rcases ofInt_mono (2 ^ 53) c (by norm_num) hc with hinf | ⟨a1, b1, a2, b2, e1, e2, p1, p2, _, hle⟩
    · rw [h] at hinf
      rw [hinf] at fx
      exact fx
    · rw [h53] at e1
      simp only [Number.fin.injEq] at e1
      obtain ⟨ea, eb⟩ := e1
      rw [h] at e2
      rw [e2] at vx
      simp only [Number.value] at vx
      have ea' : a1 = 9007199254740992 := by exact_mod_cast ea.symm
      subst ea'
      subst eb
      have hb2 : (0 : ℚ) < b2 := by exact_mod_cast p2
      have hq : (a2 : ℚ) = x * b2 := by
        field_simp at vx
        exact_mod_cast vx
      have hq' : a2 = x * b2 := by exact_mod_cast hq
      rw [hq'] at hle
      have : 9007199254740992 * b2 ≤ x * b2 := by simpa using hle
      have := Nat.le_of_mul_le_mul_right this p2
      omega

/-- A natural number below `2 ^ 53` is its own shortest decimal number. -/
theorem shortest_small (x : Nat) (hx : x < 2 ^ 53) : shortest x = x :=
  ofInt_inj_small x (shortest x) hx (shortest_reads x)

end JS

/-- Every character among the digits produced by `Nat.toDigitsCore` in base ten is
a digit character or comes from the accumulator. -/
theorem toDigitsCore_mem : ∀ (fuel n : Nat) (ds : List Char) (c : Char),
    c ∈ Nat.toDigitsCore 10 fuel n ds → (∃ k, k < 10 ∧ c = Nat.digitChar k) ∨ c ∈ ds := by
  intro fuel
  induction fuel with
  | zero => intro n ds c h; right; simpa [Nat.toDigitsCore] using h
  | succ fuel ih =>
    intro n ds c h
    simp only [Nat.toDigitsCore] at h
    have hcons : c ∈ Nat.digitChar (n % 10) :: ds →
        (∃ k, k < 10 ∧ c = Nat.digitChar k) ∨ c ∈ ds := by
      intro hc
      rcases List.mem_cons.mp hc with rfl | hc
      · exact Or.inl ⟨n % 10, Nat.mod_lt _ (by norm_num), rfl⟩
      · exact Or.inr hc
    split_ifs at h with h0
    · exact hcons h
    · rcases ih _ _ c h with hk | hc
      · exact Or.inl hk
      · exact hcons hc

/-- Every decimal digit character of a natural number is one of the ten digits. -/
theorem toDigits_mem (n : Nat) (c : Char) (h : c ∈ Nat.toDigits 10 n) :
    ∃ k, k < 10 ∧ c = Nat.digitChar k := by
  rcases toDigitsCore_mem (n + 1) n [] c h with hk | hc
  · exact hk
  · simp at hc

/-- The digits produced by `Nat.toDigitsCore` with a non-empty accumulator are not
empty. -/
theorem toDigitsCore_ne_nil : ∀ (fuel n : Nat) (ds : List Char), ds ≠ [] →
    Nat.toDigitsCore 10 fuel n ds ≠ [] := by
  intro fuel
  induction fuel with
  | zero => intro n ds h; simpa [Nat.toDigitsCore] using h
  | succ fuel ih =>
    intro n ds h
    simp only [Nat.toDigitsCore]
    split_ifs with h0
    · simp
    · exact ih _ _ (by simp)

/-- A natural number has at least one decimal digit. -/
theorem toDigits_ne_nil (n : Nat) : Nat.toDigits 10 n ≠ [] := by
  unfold Nat.toDigits
  simp only [Nat.toDigitsCore]
  split_ifs with h0
  · simp
  · exact toDigitsCore_ne_nil _ _ _ (by simp)

/-- The number denoted by digits followed by one more digit. -/
theorem decimalValue_concat (l : List Char) (a : Char) :
    decimalValue (l ++ [a]) = decimalValue l * 10 + (a.toNat - 48) := by
  induction l with
  | nil => simp [decimalValue]
  | cons c cs ih =>
    show decimalValue (c :: (cs ++ [a])) = decimalValue (c :: cs) * 10 + (a.toNat - 48)
    rw [decimalValue, decimalValue, ih, List.length_append, List.length_singleton, pow_succ]
    ring

/-- Removing the zeros at the end of a digit list divides the number denoted by the
power of ten that has as many zeros. -/
theorem decimalValue_rdropWhile (l : List Char) :
    (l.rdropWhile (fun ch => ch == '0')).length ≤ l.length
    ∧ decimalValue (l.rdropWhile (fun ch => ch == '0'))
        * 10 ^ (l.length - (l.rdropWhile (fun ch => ch == '0')).length) = decimalValue l := by
  induction l using List.reverseRecOn with
  | nil => simp [List.rdropWhile, decimalValue]
  | append_singleton l a ih =>
    obtain ⟨ih1, ih2⟩ := ih
    by_cases ha : (a == '0') = true
    · rw [List.rdropWhile_concat_pos (fun ch => ch == '0') l a ha]
      have ha' : a = '0' := by simpa using ha
      refine ⟨by simp only [List.length_append, List.length_singleton]; omega, ?_⟩
      rw [decimalValue_concat, ← ih2, ha']
      have e : (l ++ ['0']).length - (l.rdropWhile (fun ch => ch == '0')).length
          = (l.length - (l.rdropWhile (fun ch => ch == '0')).length) + 1 := by
        simp only [List.length_append, List.length_singleton]; omega
      rw [e, pow_succ]
      have z : ('0' : Char).toNat - 48 = 0 := rfl
      rw [z]
      ring
    · rw [List.rdropWhile_concat_neg (fun ch => ch == '0') l a ha]
      simp

/-- Up to the first `e`: a list without `e`, followed by `e`, is split there. -/
theorem takeWhile_before_e : ∀ (m rest : List Char), 'e' ∉ m →
    (m ++ 'e' :: rest).takeWhile (fun c => c != 'e') = m
    ∧ (m ++ 'e' :: rest).dropWhile (fun c => c != 'e') = 'e' :: rest := by
  intro m
  induction m with
  | nil => intro rest _; simp [List.takeWhile, List.dropWhile]
  | cons c cs ih =>
    intro rest h
    have hc : c ≠ 'e' := fun e => h (by rw [e]; exact List.mem_cons_self _ _)
    have hcs : 'e' ∉ cs := fun hm => h (List.mem_cons_of_mem _ hm)
    obtain ⟨i1, i2⟩ := ih rest hcs
    have hb : (c != 'e') = true := by simpa using hc
    rw [List.cons_append, List.takeWhile_cons, List.dropWhile_cons]
    simp only [hb, if_true]
    exact ⟨by rw [i1], i2⟩

/-- A digit character is none of the other characters used in the text of a
number. -/
theorem digitChar_ne (k : Nat) (h : k < 10) :
    Nat.digitChar k ≠ 'e' ∧ Nat.digitChar k ≠ '.' ∧ Nat.digitChar k ≠ '-'
      ∧ Nat.digitChar k ≠ 'I' := by
  interval_cases k <;> decide


namespace JS

/-- The exponent form denotes the number it was made from, and starts with a
digit. -/
theorem numeralValue_exponentText (c : Nat) (hc : 0 < c) :
    numeralValue (exponentText c).data = c
    ∧ ∃ k rest, k < 10 ∧ (exponentText c).data = Nat.digitChar k :: rest := by
  have hv := toDigits_value c
  obtain ⟨hlen, hval⟩ := decimalValue_rdropWhile (Nat.toDigits 10 c)
  rw [hv] at hval
  have hpre : (Nat.toDigits 10 c).rdropWhile (fun ch => ch == '0') <+: Nat.toDigits 10 c :=
    List.rdropWhile_prefix _ _
  have hdig : ∀ ch ∈ (Nat.toDigits 10 c).rdropWhile (fun ch => ch == '0'),
      ∃ k, k < 10 ∧ ch = Nat.digitChar k := fun ch hm => toDigits_mem c ch (hpre.subset hm)
  have hlen1 : 1 ≤ (Nat.toDigits 10 c).length := List.length_pos.mpr (toDigits_ne_nil c)
  have hex := toDigits_value ((Nat.toDigits 10 c).length - 1)
  cases hs : (Nat.toDigits 10 c).rdropWhile (fun ch => ch == '0') with
  | nil =>
    rw [hs] at hval
    simp [decimalValue] at hval
    omega
  | cons first others =>
    rw [hs] at hval hlen hdig
    obtain ⟨k, hk, hfirst⟩ := hdig first (List.mem_cons_self _ _)
    obtain ⟨fe, fd, _, _⟩ := digitChar_ne k hk
    rw [← hfirst] at fe fd
    have hoth : ∀ ch ∈ others, ch ≠ 'e' ∧ ch ≠ '.' := by
      intro ch hm
      obtain ⟨j, hj, rfl⟩ := hdig ch (List.mem_cons_of_mem _ hm)
      obtain ⟨a1, a2, _, _⟩ := digitChar_ne j hj
      exact ⟨a1, a2⟩
    have htext : (exponentText c).data
        = (first :: (if others.isEmpty then [] else '.' :: others))
          ++ 'e' :: '+' :: Nat.toDigits 10 ((Nat.toDigits 10 c).length - 1) := by
      unfold exponentText
      simp only [hs]
    have hme : 'e' ∉ first :: (if others.isEmpty then [] else '.' :: others) := by
      intro hm
      rcases List.mem_cons.mp hm with e | hm
      · exact fe e.symm
      · split_ifs at hm with hemp
        · simp at hm
        · rcases List.mem_cons.mp hm with e | hm
          · exact absurd e (by decide)
          · exact (hoth _ hm).1 rfl
    have hfilter : (first :: (if others.isEmpty then [] else '.' :: others)).filter
        (fun ch => ch != '.') = first :: others := by
      have hf1 : (first != '.') = true := by simpa using fd
      have hf2 : others.filter (fun ch => ch != '.') = others := by
        rw [List.filter_eq_self]
        intro ch hm
        simpa using (hoth ch hm).2
      rw [List.filter_cons, if_pos hf1]
      congr 1
      cases others with
      | nil => rfl
      | cons o os =>
        simp only [List.isEmpty_cons, Bool.false_eq_true, if_false]
        rw [List.filter_cons]
        simp only [bne_self_eq_false, Bool.false_eq_true, if_false]
        exact hf2
    obtain ⟨t1, t2⟩ := takeWhile_before_e _
      ('+' :: Nat.toDigits 10 ((Nat.toDigits 10 c).length - 1)) hme
    refine ⟨?_, k, _, hk, by rw [htext, hfirst]; rfl⟩
    unfold numeralValue
    rw [htext, if_pos (by simp), t1, t2, hfilter]
    simp only [List.drop_succ_cons, List.drop_zero, hex]
    have e : (Nat.toDigits 10 c).length - 1 + 1 - (first :: others).length
        = (Nat.toDigits 10 c).length - (first :: others).length := by omega
    rw [e]
    exact hval

/-- The text of a natural number denotes that number, and starts with a digit. -/
theorem numeralValue_decimalText (c : Nat) :
    numeralValue (decimalText c).data = c
    ∧ ∃ k rest, k < 10 ∧ (decimalText c).data = Nat.digitChar k :: rest := by
  unfold decimalText
  split_ifs with h
  · have hd : (Nat.repr c).data = Nat.toDigits 10 c := rfl
    rw [hd]
    have hne : 'e' ∉ Nat.toDigits 10 c := by
      intro hm
      obtain ⟨k, hk, e⟩ := toDigits_mem c _ hm
      exact (digitChar_ne k hk).1 e.symm
    refine ⟨by unfold numeralValue; rw [if_neg hne]; exact toDigits_value c, ?_⟩
    cases hs : Nat.toDigits 10 c with
    | nil => exact absurd hs (toDigits_ne_nil c)
    | cons first others =>
      obtain ⟨k, hk, e⟩ := toDigits_mem c first (by rw [hs]; exact List.mem_cons_self _ _)
      exact ⟨k, others, hk, by rw [e]⟩
  · exact numeralValue_exponentText c (lt_of_lt_of_le (by norm_num) (not_lt.mp h))

/-- Reading the text of a natural number, without or with a minus sign. -/
theorem readNumber_decimalText (c : Nat) :
    readNumber (decimalText c).data = ofInt (c : Int)
    ∧ readNumber ('-' :: (decimalText c).data) = ofInt (-(c : Int)) := by
  obtain ⟨hv, k, rest, hk, ht⟩ := numeralValue_decimalText c
  obtain ⟨_, _, hm, hI⟩ := digitChar_ne k hk
  have h1 : (decimalText c).data.head? ≠ some '-' := by
    rw [ht]
    simpa using hm
  have h2 : (decimalText c).data ≠ "Infinity".data := by
    rw [ht]
    intro e
    have : Nat.digitChar k = 'I' := (List.cons.inj e).1
    exact hI this
  constructor
  · unfold readNumber
    rw [if_neg h1, if_neg h2, hv]
  · unfold readNumber
    rw [if_pos (by rfl)]
    simp only [List.tail_cons]
    rw [if_neg h2, hv]

/-- Reading back the text of an integer gives the Number that the integer is read
as. -/
theorem readNumber_integerToString (i : Int) :
    readNumber (integerToString i).data = ofInt i := by
  unfold integerToString
  cases h : ofInt i with
  | nan => exact absurd h (ofInt_ne_nan i)
  | inf neg => cases neg <;> rfl
  | fin num den =>
    simp only []
    rcases le_or_lt 0 i with hi | hi
    · obtain ⟨n, rfl⟩ := Int.eq_ofNat_of_zero_le hi
      obtain ⟨h0, _, hidem⟩ := ofInt_natValue n num den h
      rw [if_neg (by omega)]
      have e : ("" ++ decimalText (shortest (num.natAbs / den))).data
          = (decimalText (shortest (num.natAbs / den))).data := by
        simp
      rw [e, (readNumber_decimalText _).1, shortest_reads, hidem]
    · have hneg := ofInt_neg i num den h
      obtain ⟨n, hn⟩ := Int.eq_ofNat_of_zero_le (show 0 ≤ -i by omega)
      rw [hn] at hneg
      obtain ⟨_, hpos, hidem⟩ := ofInt_natValue n (-num) den hneg
      have hnum : num < 0 := by
        have := hpos (by omega)
        omega
      rw [Int.natAbs_neg] at hidem
      rw [if_pos hnum]
      have e : ("-" ++ decimalText (shortest (num.natAbs / den))).data
          = '-' :: (decimalText (shortest (num.natAbs / den))).data := by
        simp [String.data_append]
      rw [e, (readNumber_decimalText _).2]
      have := ofInt_neg _ _ _ ((shortest_reads (num.natAbs / den)).trans hidem)
      rw [this, neg_neg]

/-- The text of an integer of magnitude below `2 ^ 53` is its decimal text. -/
theorem integerToString_small (i : Int) (hi : i.natAbs < 2 ^ 53) :
    integerToString i = toString i := by
  obtain ⟨hf, hv⟩ := ofInt_exact i hi
  obtain ⟨a, b, hab, hb⟩ := isFinite_cases _ hf
  rw [hab] at hv
  simp only [Number.value] at hv
  have hb' : (0 : ℚ) < b := by exact_mod_cast hb
  have hq : (a : ℚ) = i * b := by
    field_simp at hv
    exact_mod_cast hv
  have ha : a = i * b := by exact_mod_cast hq
  have hV : a.natAbs / b = i.natAbs := by
    rw [ha, Int.natAbs_mul, Int.natAbs_ofNat]
    exact Nat.mul_div_cancel _ hb
  have hsign : a < 0 ↔ i < 0 := by
    rw [ha]
    constructor
    · intro hlt
      by_contra hc
      have : 0 ≤ i * (b : Int) := mul_nonneg (by omega) (by positivity)
      omega
    · intro hlt
      exact mul_neg_of_neg_of_pos hlt (by exact_mod_cast hb)
  have htext : integerToString i
      = (if a < 0 then "-" else "") ++ decimalText (shortest (a.natAbs / b)) := by
    unfold integerToString
    rw [hab]
  have hdec : decimalText i.natAbs = Nat.repr i.natAbs := by
    unfold decimalText
    rw [if_pos (lt_trans hi (by norm_num))]
  rw [htext, hV, shortest_small _ hi, hdec]
  cases i with
  | ofNat n =>
    rw [if_neg (by rw [hsign]; simp)]
    show "" ++ Nat.repr n = Nat.repr n
    simp
  | negSucc n =>
    rw [if_pos (by rw [hsign]; exact Int.negSucc_lt_zero n)]
    rfl

/-- The text of an integer determines the Number that the integer is read as. -/
theorem integerToString_inj (i j : Int) (h : integerToString i = integerToString j) :
    ofInt i = ofInt j := by
  rw [← readNumber_integerToString i, ← readNumber_integerToString j, h]

/-- The text of an integer that binary64 holds exactly determines the integer. -/
theorem integerToString_inj_exact (i j : Int) (hi : IsExact i) (hj : IsExact j)
    (h : integerToString i = integerToString j) : i = j := by
  have e := integerToString_inj i j h
  have : ((i : Int) : ℚ) = j := by rw [← hi.2, ← hj.2, e]
  exact_mod_cast this

end JS

/-! ### Query parameters -/

open Reviews in
/-- What `get` returns for each of the five names on the parameters built by
`queryParams`. -/
theorem Reviews.queryParams_get (f : FilterState) :
    (queryParams f).get "sentiments"
        = (if f.sentiments = [] then none else some (join f.sentiments))
    ∧ (queryParams f).get "rating_min" = some (integerToString f.rating.1)
    ∧ (queryParams f).get "rating_max" = some (integerToString f.rating.2)
    ∧ (queryParams f).get "languages"
        = (if f.languages = [] then none else some (join f.languages))
    ∧ (queryParams f).get "search" = (if f.search = "" then none else some f.search) := by
  by_cases h1 : f.sentiments = [] <;> by_cases h2 : f.languages = [] <;>
    by_cases h3 : f.search = "" <;>
    simp [queryParams, QueryParams.append, QueryParams.get, h1, h2, h3, List.find?,
      List.length_pos]

set_option maxRecDepth 100000 in
open Reviews in
/-- C6: the query parameters built by `fetchReviews` are exactly these: `sentiments`
is present if and only if the sentiment selection is not empty, and its value is the
selection joined by commas; `rating_min` and `rating_max` are always present with
the two bounds; `languages` is present if and only if the language selection is not
empty, with the selection joined by commas; `search` is present if and only if the
search text is not empty, with the text itself; there is no other parameter.  A
bound is appended as the text that Number::toString gives for it: its decimal
digits when its magnitude is below `2 ^ 53`, and in every case a text that
determines the Number (`1e+21` for the bound `10 ^ 21`). -/
theorem C6_queryParams_exact (f : FilterState) :
    (∀ v, ("sentiments", v) ∈ queryParams f ↔ f.sentiments ≠ [] ∧ v = join f.sentiments)
    ∧ (∀ v, ("rating_min", v) ∈ queryParams f ↔ v = integerToString f.rating.1)
    ∧ (∀ v, ("rating_max", v) ∈ queryParams f ↔ v = integerToString f.rating.2)
    ∧ (∀ v, ("languages", v) ∈ queryParams f ↔ f.languages ≠ [] ∧ v = join f.languages)
    ∧ (∀ v, ("search", v) ∈ queryParams f ↔ f.search ≠ "" ∧ v = f.search)
    ∧ (∀ k v, (k, v) ∈ queryParams f →
        k ∈ ["sentiments", "rating_min", "rating_max", "languages", "search"])
    ∧ (queryParams f).length =
        (if f.sentiments = [] then 0 else 1) + 2 + (if f.languages = [] then 0 else 1)
          + (if f.search = "" then 0 else 1)
    ∧ (∀ r : Int, r.natAbs < 2 ^ 53 → integerToString r = toString r)
    ∧ (∀ r j : Int, integerToString j = integerToString r → ofInt j = ofInt r)
    ∧ integerToString 5 = "5"
    ∧ integerToString (10 ^ 21) = "1e+21"
    ∧ integerToString (2 ^ 70) = "1.1805916207174113e+21" := by
  have hmain :
      (∀ v, ("sentiments", v) ∈ queryParams f ↔ f.sentiments ≠ [] ∧ v = join f.sentiments)
      ∧ (∀ v, ("rating_min", v) ∈ queryParams f ↔ v = integerToString f.rating.1)
      ∧ (∀ v, ("rating_max", v) ∈ queryParams f ↔ v = integerToString f.rating.2)
      ∧ (∀ v, ("languages", v) ∈ queryParams f ↔ f.languages ≠ [] ∧ v = join f.languages)
      ∧ (∀ v, ("search", v) ∈ queryParams f ↔ f.search ≠ "" ∧ v = f.search)
      ∧ (∀ k v, (k, v) ∈ queryParams f →
          k ∈ ["sentiments", "rating_min", "rating_max", "languages", "search"])
      ∧ (queryParams f).length =
          (if f.sentiments = [] then 0 else 1) + 2 + (if f.languages = [] then 0 else 1)
            + (if f.search = "" then 0 else 1) := by
    by_cases h1 : f.sentiments = [] <;> by_cases h2 : f.languages = [] <;>
      by_cases h3 : f.search = "" <;>
      simp [queryParams, QueryParams.append, h1, h2, h3] <;> aesop
  obtain ⟨m1, m2, m3, m4, m5, m6, m7⟩ := hmain
  exact ⟨m1, m2, m3, m4, m5, m6, m7, integerToString_small,
    fun r j h => integerToString_inj j r h, by decide, by decide, by decide⟩

open Reviews in
/-- C7: the translation of the filter state into query parameters is lossless.  For
two filter states whose sentiment and language labels are non-empty strings without
commas, equal parameter lists imply the same search text, the same sentiment list,
the same language list and the same rating bounds as Numbers; the two filter states
are then equal, their rating bounds being integers that binary64 holds exactly, as
every Number with an integer value is. -/
theorem C7_queryParams_lossless (f g : FilterState)
    (hf : ∀ s, s ∈ f.sentiments ∨ s ∈ f.languages → s ≠ "" ∧ ',' ∉ s.data)
    (hg : ∀ s, s ∈ g.sentiments ∨ s ∈ g.languages → s ≠ "" ∧ ',' ∉ s.data)
    (h : queryParams f = queryParams g) :
    f.search = g.search ∧ f.sentiments = g.sentiments ∧ f.languages = g.languages
    ∧ ofInt f.rating.1 = ofInt g.rating.1 ∧ ofInt f.rating.2 = ofInt g.rating.2
    ∧ (IsExact f.rating.1 → IsExact f.rating.2 → IsExact g.rating.1 → IsExact g.rating.2 →
        f = g) := by
  obtain ⟨f1, f2, f3, f4, f5⟩ := queryParams_get f
  obtain ⟨g1, g2, g3, g4, g5⟩ := queryParams_get g
  rw [h] at f1 f2 f3 f4 f5
  rw [g1] at f1
  rw [g2] at f2
  rw [g3] at f3
  rw [g4] at f4
  rw [g5] at f5
  have hs : f.sentiments = g.sentiments := by
    by_cases a : f.sentiments = [] <;> by_cases b : g.sentiments = []
    · rw [a, b]
    · simp [a, b] at f1
    · simp [a, b] at f1
    · simp only [a, b, if_false, Option.some.injEq] at f1
      exact (join_injective _ _ b a (fun s hs => (hg s (Or.inl hs)).2)
        (fun s hs => (hf s (Or.inl hs)).2) f1).symm
  have hl : f.languages = g.languages := by
    by_cases a : f.languages = [] <;> by_cases b : g.languages = []
    · rw [a, b]
    · simp [a, b] at f4
    · simp [a, b] at f4
    · simp only [a, b, if_false, Option.some.injEq] at f4
      exact (join_injective _ _ b a (fun s hs => (hg s (Or.inr hs)).2)
        (fun s hs => (hf s (Or.inr hs)).2) f4).symm
  have hq : f.search = g.search := by
    by_cases a : f.search = "" <;> by_cases b : g.search = ""
    · rw [a, b]
    · simp [a, b] at f5
    · simp [a, b] at f5
    · simp only [a, b, if_false, Option.some.injEq] at f5
      exact f5.symm
  have hr1 : ofInt f.rating.1 = ofInt g.rating.1 :=
    (integerToString_inj _ _ (Option.some.inj f2)).symm
  have hr2 : ofInt f.rating.2 = ofInt g.rating.2 :=
    (integerToString_inj _ _ (Option.some.inj f3)).symm
  refine ⟨hq, hs, hl, hr1, hr2, ?_⟩
  intro e1 e2 e3 e4
  have hi1 : f.rating.1 = g.rating.1 :=
    (integerToString_inj_exact _ _ e3 e1 (Option.some.inj f2)).symm
  have hi2 : f.rating.2 = g.rating.2 :=
    (integerToString_inj_exact _ _ e4 e2 (Option.some.inj f3)).symm
  cases f with
  | mk fs fse fr fl =>
    cases g with
    | mk gs gse gr gl =>
      simp only at hs hl hq hi1 hi2
      simp only [FilterState.mk.injEq]
      exact ⟨hq, hs, Prod.ext hi1 hi2, hl⟩

set_option maxRecDepth 100000 in
open Reviews in
/-- Witness for C7: the state reached from the initial one by four changes has the
parameters of an explicitly given state, hence is that state. -/
theorem C7_queryParams_lossless_witness :
    applyChanges initialFilters
        [FilterChange.sentiments ["Positive", "Negative"], FilterChange.rating (2, 4),
          FilterChange.languages ["English"], FilterChange.search "good"]
      = { search := "good", sentiments := ["Positive", "Negative"], rating := (2, 4),
          languages := ["English"] } := by
  have h := C7_queryParams_lossless
    (applyChanges initialFilters
        [FilterChange.sentiments ["Positive", "Negative"], FilterChange.rating (2, 4),
          FilterChange.languages ["English"], FilterChange.search "good"])
    { search := "good", sentiments := ["Positive", "Negative"], rating := (2, 4),
      languages := ["English"] }
    (by
      intro s hs
      simp [applyChanges, handleFilterChange, initialFilters] at hs
      rcases hs with (rfl | rfl) | rfl <;> decide)
    (by
      intro s hs
      simp at hs
      rcases hs with (rfl | rfl) | rfl <;> decide)
    (by decide)
  exact h.2.2.2.2.2 (ofInt_exact 2 (by decide)) (ofInt_exact 4 (by decide))
    (ofInt_exact 2 (by decide)) (ofInt_exact 4 (by decide))
